import Mathlib

/-!
# The JSON codec of the medtronic pump model (`json.go`) and the pump frequency (`pump.go`)

A shallow embedding of the `MarshalJSON` / `UnmarshalJSON` methods of `json.go` and of
`defaultFreq` of `pump.go`.

* `float64` values are modelled exactly: a finite double is the rational it denotes, and every
  arithmetic operation is the exact operation followed by `roundF64` (round to nearest, ties
  to even, binary64 exponent range, overflow to an infinity). Negative zero is identified
  with zero; no operation of `json.go` can tell them apart.
* JSON text is modelled after lexing: `Json` is a parsed value (one level deep), `none` stands
  for text that is not well-formed JSON, a number token is the rational it denotes and a
  string token is its content (escape sequences are not modelled).
* A Go method with a pointer receiver that returns `error` is a function from the old
  destination to the new destination and the optional error.
* What `json.go` uses but does not declare (the standard library's `time` functions, the
  `TimeOfDay` helpers, the record declarations) is taken as a parameter (`Env`,
  `PassThrough`) or modelled from the specification, as the doc comments say. The integer
  types are Go's `int`, 64 bits wide.
* `Duration.String` and `time.ParseDuration` of the standard library are also written out
  (`Duration.text`, `ParseDuration`), for the statements that depend on what they do.
* The environment variable and `fmt.Sscanf` are parameters of `defaultFreq`; a call of
  `log.Fatalf` ends the function with the outcome `fatal` instead of a result.
-/

namespace Medtronic

/-! ## binary64 arithmetic -/

/-- Floor of the base-2 logarithm by repeated halving; `fuel` bounds the number of steps. -/
def log2Fuel : ℕ → ℕ → ℕ
  | 0, _ => 0
  | fuel + 1, n => if n < 2 then 0 else log2Fuel fuel (n / 2) + 1

/-- Floor of the base-2 logarithm of a natural number (`0` for `0`). -/
def natLog2 (n : ℕ) : ℕ := log2Fuel n n

/-- The binary exponent of a non-zero rational: the `e` with `2^e ≤ |q| < 2^(e+1)`.
The difference of the bit lengths of numerator and denominator is `e` or `e + 1`. -/
def ilog2 (q : ℚ) : ℤ :=
  let k : ℤ := (natLog2 q.num.natAbs : ℤ) - (natLog2 q.den : ℤ)
  if (2:ℚ) ^ k ≤ |q| then k else k - 1

/-- Round a rational to the nearest integer, ties to the even one. -/
def roundHalfEven (q : ℚ) : ℤ :=
  let f := ⌊q⌋
  let r := q - f
  if r < 1 / 2 then f else if 1 / 2 < r then f + 1 else if f % 2 = 0 then f else f + 1

/-- A `float64` that is not a NaN: a finite value (the rational it denotes) or an infinity.
`json.go` multiplies and divides by non-zero constants and adds a constant, so no NaN arises. -/
inductive F64
  | fin (q : ℚ)
  | inf (neg : Bool)
  deriving DecidableEq

/-- IEEE 754 rounding of an exact result to binary64: 53 significant bits, round to nearest,
ties to even; below `2^-1022` the spacing stays `2^-1074` (subnormals); a result that rounds
to `2^1024` or more is an infinity. -/
def roundF64 (q : ℚ) : F64 :=
  if q = 0 then .fin 0
  else
    let s : ℚ := (2:ℚ) ^ (max (ilog2 q) (-1022) - 52)
    let r : ℚ := (roundHalfEven (q / s) : ℚ) * s
    if |r| < (2:ℚ) ^ (1024:ℤ) then .fin r else .inf (decide (q < 0))

/-- The rationals that binary64 represents exactly. -/
def IsF64 (x : ℚ) : Prop :=
  ∃ (m k : ℤ), |m| ≤ 2 ^ 53 ∧ -1074 ≤ k ∧ x = (m : ℚ) * (2:ℚ) ^ k ∧
    |x| < (2:ℚ) ^ (1024:ℤ)

/-- What the Go specification leaves to the implementation in the expressions of `json.go`:
whether `d*x + 0.5` is compiled to one fused multiply-add (one rounding) or to a
multiplication and an addition (two roundings), and the result of converting to `int` a float
that is outside the range of `int` (the argument tells whether the float is negative). -/
structure Arch where
  fused : Bool
  convOverflow : Bool → ℤ

/-- The amd64 compiler: no fusion, every out-of-range conversion gives the least `int`. -/
def amd64 : Arch := ⟨false, fun _ => -2 ^ 63⟩

/-- The arm64 compiler: fused multiply-add, out-of-range conversions saturate. -/
def arm64 : Arch := ⟨true, fun neg => if neg then -2 ^ 63 else 2 ^ 63 - 1⟩

/-- Go's conversion `T(x)` of a `float64` to an integer type `T` whose underlying type is
`int` (taken as 64 bits wide): the fraction is discarded (truncation towards zero). -/
def truncToInt (A : Arch) : F64 → ℤ
  | .fin q =>
    let t : ℤ := if 0 ≤ q then ⌊q⌋ else ⌈q⌉
    if -2 ^ 63 ≤ t ∧ t < 2 ^ 63 then t else A.convOverflow (decide (q < 0))
  | .inf neg => A.convOverflow neg

/-- The expression `float64(v) / d` of the encoders, for a constant `d`. -/
def scaleDown (v : ℤ) (d : ℚ) : F64 :=
  match roundF64 (v : ℚ) with
  | .fin a => roundF64 (a / d)
  | .inf neg => .inf neg

/-- The expression `d*x + 0.5` of the decoders, for a positive constant `d`. -/
def mulAddHalf (A : Arch) (d : ℚ) : F64 → F64
  | .fin x =>
    if A.fused then roundF64 (d * x + 1 / 2)
    else
      match roundF64 (d * x) with
      | .fin y => roundF64 (y + 1 / 2)
      | .inf neg => .inf neg
  | .inf neg => .inf neg

/-- The expression `T(d*x + 0.5)` of the decoders. -/
def scaleUp (A : Arch) (d : ℚ) (x : F64) : ℤ := truncToInt A (mulAddHalf A d x)

/-- The exact value `d*x + 0.5` keeps a distance of at least `(d*x + 1) / 2^51` from the
integer below it and from the integer above it: the roundings of the float64 computation
(each within `2^-53` of its result) cannot carry it across either. -/
def AwayFromInteger (d x : ℚ) : Prop :=
  (⌊d * x + 1 / 2⌋ : ℚ) + (d * x + 1) / 2 ^ 51 ≤ d * x + 1 / 2 ∧
    d * x + 1 / 2 ≤ (⌊d * x + 1 / 2⌋ : ℚ) + 1 - (d * x + 1) / 2 ^ 51

instance (d x : ℚ) : Decidable (AwayFromInteger d x) := by
  unfold AwayFromInteger
  infer_instance

/-! ## Decimal text of a float64 (`strconv`, as `encoding/json` uses it) -/

/-- Floor of the base-10 logarithm by repeated division; `fuel` bounds the number of steps. -/
def log10Fuel : ℕ → ℕ → ℕ
  | 0, _ => 0
  | fuel + 1, n => if n < 10 then 0 else log10Fuel fuel (n / 10) + 1

/-- Floor of the base-10 logarithm of a natural number (`0` for `0`). -/
def natLog10 (n : ℕ) : ℕ := log10Fuel n n

/-- A decimal position above the leading digit of a positive rational `a`: `a < 10^p`, and the
leading digit of `a` is at position `p - 1` or `p - 2`. -/
def topDigitPos (a : ℚ) : ℤ :=
  if 1 ≤ a then (natLog10 ⌊a⌋.toNat : ℤ) + 1 else 1 - (natLog10 ⌊1 / a⌋.toNat : ℤ)

/-- Of two decimals `lo` and `hi` on either side of the float `b`: the one that
`strconv.ParseFloat` reads back as `b`, the nearer one when both do (the one with the even
last digit on a tie; `even` tells whether that is `lo`), `none` when neither does. -/
def chooseNear (b lo hi : ℚ) (even : Bool) : Option ℚ :=
  let okdown : Bool := decide (roundF64 lo = .fin b)
  let okup : Bool := decide (roundF64 hi = .fin b)
  if okdown && okup then
    if |b - lo| < |hi - b| then some lo
    else if |hi - b| < |b - lo| then some hi
    else if even then some lo else some hi
  else if okdown then some lo
  else if okup then some hi
  else none

/-- The shortest decimal for the float `b` with last digit at position `p` (a multiple of
`10^p`), if there is one: the candidates are `b` cut off at that position and the next
multiple away from zero. -/
def shortestAt (b : ℚ) (p : ℤ) : Option ℚ :=
  let u : ℚ := (10:ℚ) ^ p
  let sg : ℚ := if b < 0 then -1 else 1
  let k : ℤ := ⌊|b| / u⌋
  chooseNear b (sg * ((k : ℚ) * u)) (sg * ((k : ℚ) * u + u)) (decide (k % 2 = 0))

/-- The number that `strconv.FormatFloat(b, fmt, -1, 64)` writes for a finite float `b`: the
decimal with the fewest digits that `strconv.ParseFloat` reads back as `b`. Seventeen
significant digits always suffice; the positions tried cover them. -/
def formatFloat (b : ℚ) : ℚ :=
  if b = 0 then 0
  else
    match (List.range 20).findSome? (fun i => shortestAt b (topDigitPos |b| - (i : ℤ))) with
    | some t => t
    | none => b

/-! ## JSON text and errors -/

deriving instance DecidableEq for Except

/-- The errors of the codec: an error `encoding/json` itself reports, an error made by
`fmt.Errorf` in `json.go` (its message), the error of an enumeration's `UnmarshalJSON` (the
type named in the message and, where the model has it, the offending text), and an error
returned by `time.Parse`, `time.ParseDuration` or `parseTimeOfDay`. -/
inductive Error
  | json (why : String)
  | errorf (msg : String)
  | unknownEnum (type : String) (data : Option String)
  | lib (msg : String)
  deriving DecidableEq

/-- A JSON value that is a member of an object or stands alone: a literal, a number (the
rational its digits denote), a string (its content), or an array or an object nested in a
member, kept as text. -/
inductive Value
  | null
  | bool (b : Bool)
  | num (q : ℚ)
  | str (s : String)
  | compound (raw : String)
  deriving DecidableEq

/-- A well-formed JSON text: an object with its members in order (`obj`), or any other
value (`atom`; there a `compound` is an array). -/
inductive Json
  | atom (v : Value)
  | obj (members : List (String × Value))
  deriving DecidableEq

/-- The text `encoding/json` reports as not well-formed JSON. -/
def Error.malformed : Error := .json "invalid character"

/-- The `json.UnmarshalTypeError` of `encoding/json`: a token that does not fit the Go type
(also a number outside the range of `float64`). -/
def Error.typeMismatch : Error := .json "cannot unmarshal"

/-- The `json.UnsupportedValueError` of `encoding/json` for an infinite `float64`. -/
def Error.unsupportedValue : Error := .json "unsupported value"

/-- The bytes of a JSON string token with content `s`. -/
def quote (s : String) : String := "\"" ++ s ++ "\""

/-- Case folding of a member name, as `encoding/json` matches names: ASCII letters fold to
upper case, and so do the two other runes that fold to an ASCII letter (U+017F, U+212A). -/
def foldChar (c : Char) : Char :=
  if 97 ≤ c.toNat ∧ c.toNat ≤ 122 then Char.ofNat (c.toNat - 32)
  else if c.toNat = 0x17F then 'S'
  else if c.toNat = 0x212A then 'K'
  else c

/-- The folded form of a member name. -/
def foldName (s : String) : String := String.mk (s.data.map foldChar)

/-- Whether the member name `key` of the input selects the Go field `name`. -/
def keyIs (name key : String) : Bool := decide (foldName key = foldName name)

/-- Whether a JSON text is an object with a member that selects the field `name`. -/
def Json.mentions (name : String) : Json → Bool
  | .obj ms => ms.any (fun m => keyIs name m.1)
  | .atom _ => false

/-- Whether an encoded object has a member named `name`. -/
def Json.hasMember (name : String) : Json → Bool
  | .obj ms => ms.any (fun m => decide (m.1 = name))
  | .atom _ => false

/-- The value of the first member named `name` of an encoded object. -/
def Json.member (name : String) : Json → Option Value
  | .obj ms => (ms.find? (fun m => decide (m.1 = name))).map (fun m => m.2)
  | .atom _ => none

/-- The outcome of storing one member into a Go struct: stored (or ignored), a type mismatch
that `encoding/json` records while it goes on with the next member, or an error of an
`UnmarshalJSON` method, which stops the decoding at once. -/
inductive Store (σ : Type)
  | done (s : σ)
  | saved (s : σ) (e : Error)
  | abort (s : σ) (e : Error)

/-- The state a store leaves behind. -/
def Store.state {σ : Type} : Store σ → σ
  | .done s => s
  | .saved s _ => s
  | .abort s _ => s

/-- Two stores have the same outcome, with the same error, and leave related states. -/
def Store.Rel {σ σ' : Type} (R : σ → σ' → Prop) : Store σ → Store σ' → Prop
  | .done a, .done b => R a b
  | .saved a e, .saved b e' => R a b ∧ e = e'
  | .abort a e, .abort b e' => R a b ∧ e = e'
  | _, _ => False

/-- The members of an object are stored in input order; of the recorded type mismatches the
first is reported at the end. -/
def decodeMembers {σ : Type} (store : String → Value → σ → Store σ) :
    List (String × Value) → σ → Option Error → σ × Option Error
  | [], s, e => (s, e)
  | (k, v) :: ms, s, e =>
    match store k v s with
    | .done s' => decodeMembers store ms s' e
    | .saved s' e' => decodeMembers store ms s' (if e.isSome then e else some e')
    | .abort s' e' => (s', some e')

/-- The call `json.Unmarshal(data, &rep)` for a struct `rep`: text that is not well-formed is
refused before anything is stored, `null` stores nothing, any other value that is not an
object is a type mismatch. -/
def unmarshalStruct {σ : Type} (store : String → Value → σ → Store σ) (data : Option Json)
    (s : σ) : σ × Option Error :=
  match data with
  | none => (s, some .malformed)
  | some (.atom .null) => (s, none)
  | some (.atom _) => (s, some .typeMismatch)
  | some (.obj ms) => decodeMembers store ms s none

/-- Storing a member into a field of type `string`. -/
def storeString {σ : Type} (v : Value) (s : σ) (set : String → σ) : Store σ :=
  match v with
  | .str x => .done (set x)
  | .null => .done s
  | _ => .saved s .typeMismatch

/-- Storing a member into a field of type `float64`: `strconv.ParseFloat` rounds the number to
the nearest float; a number beyond the range of `float64` is a type mismatch. -/
def storeFloat64 {σ : Type} (v : Value) (s : σ) (set : F64 → σ) : Store σ :=
  match v with
  | .num q =>
    match roundF64 q with
    | .fin b => .done (set (.fin b))
    | .inf _ => .saved s .typeMismatch
  | .null => .done s
  | _ => .saved s .typeMismatch

/-- The call `json.Unmarshal(data, &v)` for `v` of type `float64`. -/
def unmarshalFloat64 (data : Option Json) (v : F64) : F64 × Option Error :=
  match data with
  | none => (v, some .malformed)
  | some (.atom (.num q)) =>
    match roundF64 q with
    | .fin b => (.fin b, none)
    | .inf _ => (v, some .typeMismatch)
  | some (.atom .null) => (v, none)
  | some _ => (v, some .typeMismatch)

/-- The call `json.Marshal(x)` for `x` of type `float64`, as a member value. -/
def marshalFloat64 : F64 → Except Error Value
  | .fin b => .ok (.num (formatFloat b))
  | .inf _ => .error .unsupportedValue

/-! ## Scalars: `Insulin`, `Voltage`, `Ratio` -/

/-- Modelled from the spec: the declaration of `Insulin` is not in `json.go`; the spec
describes an integer stored at a fixed resolution (thousandths), taken as Go's `int`. -/
abbrev Insulin := ℤ

/-- Modelled from the spec: the declaration of `Voltage` is not in `json.go`; an integer
number of millivolts, taken as Go's `int`. -/
abbrev Voltage := ℤ

/-- Modelled from the spec: the declaration of `Ratio` is not in `json.go`; an integer carb
ratio whose scale depends on the carb units, taken as Go's `int`. -/
abbrev Ratio := ℤ

/-- The method `func (r Insulin) MarshalJSON() ([]byte, error)`. -/
def Insulin.MarshalJSON (r : Insulin) : Except Error Json :=
  (marshalFloat64 (scaleDown r 1000)).map Json.atom

/-- The method `func (r *Insulin) UnmarshalJSON(data []byte) error`. -/
def Insulin.UnmarshalJSON (A : Arch) (r : Insulin) (data : Option Json) :
    Insulin × Option Error :=
  match unmarshalFloat64 data (.fin 0) with
  | (_, some err) => (r, some err)
  | (v, none) => (scaleUp A 1000 v, none)

/-- The method `func (r Voltage) MarshalJSON() ([]byte, error)`. -/
def Voltage.MarshalJSON (r : Voltage) : Except Error Json :=
  (marshalFloat64 (scaleDown r 1000)).map Json.atom

/-- The method `func (r *Voltage) UnmarshalJSON(data []byte) error`. -/
def Voltage.UnmarshalJSON (A : Arch) (r : Voltage) (data : Option Json) :
    Voltage × Option Error :=
  match unmarshalFloat64 data (.fin 0) with
  | (_, some err) => (r, some err)
  | (v, none) => (scaleUp A 1000 v, none)

/-- The method `func (r Ratio) MarshalJSON() ([]byte, error)`. -/
def Ratio.MarshalJSON (_r : Ratio) : Except Error Json :=
  .error (.errorf "cannot marshal carb ratio without units")

/-- The method `func (r *Ratio) UnmarshalJSON([]byte) error`. -/
def Ratio.UnmarshalJSON (r : Ratio) (_data : Option Json) : Ratio × Option Error :=
  (r, some (.errorf "cannot unmarshal carb ratio without units"))

/-! ## Enumerations -/

/-- Modelled from the spec: the declaration of `CarbUnitsType` and of its constants is not in
`json.go`; a closed set of two symbols. `other code` is any value of the underlying integer
type that is neither constant. -/
inductive CarbUnitsType
  | Grams
  | Exchanges
  | other (code : ℕ)
  deriving DecidableEq

/-- Modelled from the spec: the declaration of `GlucoseUnitsType` is not in `json.go`. -/
inductive GlucoseUnitsType
  | MgPerDeciLiter
  | MMolPerLiter
  | other (code : ℕ)
  deriving DecidableEq

/-- Modelled from the spec: the declaration of `TempBasalType` is not in `json.go`. -/
inductive TempBasalType
  | Absolute
  | Percent
  | other (code : ℕ)
  deriving DecidableEq

/-- Modelled from the spec: the `String` method of `CarbUnitsType` (the text `%v` prints in
`MarshalJSON`) is not in `json.go`; the textual form of a symbol is its canonical name. -/
def CarbUnitsType.name : CarbUnitsType → String
  | .Grams => "Grams"
  | .Exchanges => "Exchanges"
  | .other code => "CarbUnitsType(" ++ toString code ++ ")"

/-- The method `func (r *CarbUnitsType) UnmarshalJSON(data []byte) error`; `data` is the raw
token. -/
def CarbUnitsType.UnmarshalJSON (r : CarbUnitsType) (data : String) :
    CarbUnitsType × Option Error :=
  if data = "\"Grams\"" then (.Grams, none)
  else if data = "\"Exchanges\"" then (.Exchanges, none)
  else (r, some (.unknownEnum "CarbUnitsType" (some data)))

/-- The method `func (r *GlucoseUnitsType) UnmarshalJSON(data []byte) error`; `data` is the raw
token. -/
def GlucoseUnitsType.UnmarshalJSON (r : GlucoseUnitsType) (data : String) :
    GlucoseUnitsType × Option Error :=
  if data = "\"mg/dL\"" then (.MgPerDeciLiter, none)
  else if data = "\"μmol/L\"" then (.MMolPerLiter, none)
  else (r, some (.unknownEnum "GlucoseUnitsType" (some data)))

/-- The method `func (r *TempBasalType) UnmarshalJSON(data []byte) error`; `data` is the raw
token. -/
def TempBasalType.UnmarshalJSON (r : TempBasalType) (data : String) :
    TempBasalType × Option Error :=
  if data = "\"Absolute\"" then (.Absolute, none)
  else if data = "\"Percent\"" then (.Percent, none)
  else (r, some (.unknownEnum "TempBasalType" (some data)))

/-- Storing a member into a field of type `CarbUnitsType`: `encoding/json` hands the raw token
to `UnmarshalJSON` (also for `null`). A token that is not a string does not start with a
quote, so it is neither symbol. -/
def CarbUnitsType.store (r : CarbUnitsType) : Value → CarbUnitsType × Option Error
  | .str s => CarbUnitsType.UnmarshalJSON r (quote s)
  | .null => CarbUnitsType.UnmarshalJSON r "null"
  | .bool true => CarbUnitsType.UnmarshalJSON r "true"
  | .bool false => CarbUnitsType.UnmarshalJSON r "false"
  | .compound raw => (r, some (.unknownEnum "CarbUnitsType" (some raw)))
  | .num _ => (r, some (.unknownEnum "CarbUnitsType" none))

/-! ## What `json.go` takes from elsewhere -/

/-- A `time.Duration`: a number of nanoseconds. -/
abbrev Duration := ℤ

/-- Modelled from the spec: the declaration of `TimeOfDay` is not in `json.go`; a time of
day, minutes since midnight or equivalent. -/
abbrev TimeOfDay := ℤ

/-- The functions `json.go` calls and does not define, over the standard library's type
`time.Time` (`τ`): the architecture, `Time.IsZero`, `Time.Format(JsonTimeLayout)`,
`time.Parse(JsonTimeLayout, _)`, `Duration.String`, `time.ParseDuration`, and the
repository's `TimeOfDay.String` and `parseTimeOfDay`. A function that returns a value and
an `error` returns both here too. -/
structure Env (τ : Type) where
  arch : Arch
  isZero : τ → Bool
  formatTime : τ → String
  parseTime : String → τ × Option Error
  durationString : Duration → String
  parseDuration : String → Duration × Option Error
  timeOfDayString : TimeOfDay → String
  parseTimeOfDay : String → TimeOfDay × Option Error

/-- The fields of a record that its codec passes through to `encoding/json` unchanged, for a
record whose declaration is not in `json.go`: how a member is stored into them and the members
they are encoded as (or the message of the error `json.Marshal` reports for them). A member
whose name selects a field of the wrapper never reaches them. -/
structure PassThrough (ρ : Type) where
  store : String → Value → ρ → Store ρ
  members : ρ → Except String (List (String × Value))

/-- The members of the embedded `Original` that `json.Marshal(rep)` writes: a field of the
wrapper hides the embedded field of the same name. -/
def visible (hidden : List String) (ms : List (String × Value)) : List (String × Value) :=
  ms.filter (fun m => !(hidden.contains m.1))

/-- The pass-through members of a record, or the error `json.Marshal` reports for them (an
error of `encoding/json`: it wraps what a nested `MarshalJSON` returns). -/
def passMembers {ρ : Type} (P : PassThrough ρ) (hidden : List String) (rest : ρ) :
    Except Error (List (String × Value)) :=
  match P.members rest with
  | .ok ms => .ok (visible hidden ms)
  | .error why => .error (.json why)

/-- Storing a member into the pass-through fields `rest`; `set` puts them back into the
wrapper. -/
def storeRest {σ ρ : Type} (P : PassThrough ρ) (key : String) (v : Value)
    (rest : ρ) (set : ρ → σ) : Store σ :=
  match P.store key v rest with
  | .done x => .done (set x)
  | .saved x e => .saved (set x) e
  | .abort x e => .abort (set x) e

/-! ## `CarbRatio` -/

/-- Modelled from the spec: the declaration of `CarbRatio` is not in `json.go`; a schedule
entry with a `Start`, a unit-scaled `Ratio` and its own `Units` field. -/
structure CarbRatio where
  Start : TimeOfDay
  Ratio : Ratio
  Units : CarbUnitsType
  deriving DecidableEq

/-- The wrapper struct `rep` of `CarbRatio.UnmarshalJSON`: its own `Start` and `Ratio` hide
those of the embedded `*Original`, which points to the destination. -/
structure CarbRatioRep where
  Start : String
  Ratio : F64
  Original : CarbRatio
  deriving DecidableEq

/-- How `json.Unmarshal(data, &rep)` stores one member into the wrapper of a `CarbRatio`. -/
def CarbRatio.storeMember (key : String) (v : Value) (rep : CarbRatioRep) :
    Store CarbRatioRep :=
  if keyIs "Start" key then storeString v rep (fun x => { rep with Start := x })
  else if keyIs "Ratio" key then storeFloat64 v rep (fun x => { rep with Ratio := x })
  else if keyIs "Units" key then
    match CarbUnitsType.store rep.Original.Units v with
    | (u, none) => .done { rep with Original := { rep.Original with Units := u } }
    | (_, some e) => .abort rep e
  else .done rep

/-- The method `func (r CarbRatio) MarshalJSON() ([]byte, error)`. -/
def CarbRatio.MarshalJSON {τ : Type} (E : Env τ) (r : CarbRatio) : Except Error Json :=
  let rep (ratio : F64) : Except Error Json :=
    match marshalFloat64 ratio with
    | .ok x =>
      .ok (.obj [("Start", .str (E.timeOfDayString r.Start)), ("Ratio", x),
        ("Units", .str r.Units.name)])
    | .error e => .error e
  match r.Units with
  | .Grams => rep (scaleDown r.Ratio 10)
  | .Exchanges => rep (scaleDown r.Ratio 1000)
  | .other code => .error (.errorf ("unknown carb unit " ++ toString code))

/-- The method `func (r *CarbRatio) UnmarshalJSON(data []byte) error`. -/
def CarbRatio.UnmarshalJSON {τ : Type} (E : Env τ) (r : CarbRatio)
    (data : Option Json) : CarbRatio × Option Error :=
  match unmarshalStruct CarbRatio.storeMember data ⟨"", .fin 0, r⟩ with
  | (rep, some err) => (rep.Original, some err)
  | (rep, none) =>
    let (start, err) := E.parseTimeOfDay rep.Start
    let r := { rep.Original with Start := start }
    match r.Units with
    | .Grams => ({ r with Ratio := scaleUp E.arch 10 rep.Ratio }, err)
    | .Exchanges => ({ r with Ratio := scaleUp E.arch 1000 rep.Ratio }, err)
    | .other code => (r, some (.errorf ("unknown carb unit " ++ toString code)))

/-! ## `BolusWizardRecord` -/

/-- Modelled from the spec: the declaration of `BolusWizardRecord` is not in `json.go`; a
record with a `CarbRatio` whose unit field `CarbUnits` lives in the same record, and fields
that are passed through (`rest`). -/
structure BolusWizardRecord (ρ : Type) where
  CarbUnits : CarbUnitsType
  CarbRatio : Ratio
  rest : ρ
  deriving DecidableEq

/-- The wrapper struct `rep` of `BolusWizardRecord.UnmarshalJSON`. -/
structure BolusWizardRep (ρ : Type) where
  CarbRatio : F64
  Original : BolusWizardRecord ρ
  deriving DecidableEq

/-- How `json.Unmarshal(data, &rep)` stores one member into the wrapper of a
`BolusWizardRecord`. -/
def BolusWizardRecord.storeMember {ρ : Type} (P : PassThrough ρ) (key : String) (v : Value)
    (rep : BolusWizardRep ρ) : Store (BolusWizardRep ρ) :=
  if keyIs "CarbRatio" key then storeFloat64 v rep (fun x => { rep with CarbRatio := x })
  else if keyIs "CarbUnits" key then
    match CarbUnitsType.store rep.Original.CarbUnits v with
    | (u, none) => .done { rep with Original := { rep.Original with CarbUnits := u } }
    | (_, some e) => .abort rep e
  else
    storeRest P key v rep.Original.rest
      (fun x => { rep with Original := { rep.Original with rest := x } })

/-- The method `func (r BolusWizardRecord) MarshalJSON() ([]byte, error)`. -/
def BolusWizardRecord.MarshalJSON {ρ : Type} (P : PassThrough ρ) (r : BolusWizardRecord ρ) :
    Except Error Json :=
  let rep (ratio : F64) : Except Error Json :=
    match marshalFloat64 ratio with
    | .ok x =>
      match passMembers P ["CarbRatio", "CarbUnits"] r.rest with
      | .ok ms => .ok (.obj (("CarbRatio", x) :: ("CarbUnits", .str r.CarbUnits.name) :: ms))
      | .error e => .error e
    | .error e => .error e
  match r.CarbUnits with
  | .Grams => rep (scaleDown r.CarbRatio 10)
  | .Exchanges => rep (scaleDown r.CarbRatio 1000)
  | .other code => .error (.errorf ("unknown carb unit " ++ toString code))

/-- The method `func (r *BolusWizardRecord) UnmarshalJSON(data []byte) error`. -/
def BolusWizardRecord.UnmarshalJSON {ρ : Type} (A : Arch) (P : PassThrough ρ)
    (r : BolusWizardRecord ρ) (data : Option Json) : BolusWizardRecord ρ × Option Error :=
  match unmarshalStruct (BolusWizardRecord.storeMember P) data ⟨.fin 0, r⟩ with
  | (rep, some err) => (rep.Original, some err)
  | (rep, none) =>
    let r := rep.Original
    match r.CarbUnits with
    | .Grams => ({ r with CarbRatio := scaleUp A 10 rep.CarbRatio }, none)
    | .Exchanges => ({ r with CarbRatio := scaleUp A 1000 rep.CarbRatio }, none)
    | .other code => (r, some (.errorf ("unknown carb unit " ++ toString code)))

/-! ## `HistoryRecord` -/

/-- Modelled from the spec: the declaration of `HistoryRecord` is not in `json.go`; a record
with a timestamp, an optional duration (a nil pointer when absent), and fields that are
passed through (`rest`). -/
structure HistoryRecord (τ ρ : Type) where
  Time : τ
  Duration : Option Duration
  rest : ρ
  deriving DecidableEq

/-- The wrapper struct `rep` of `HistoryRecord.UnmarshalJSON` (`Typ` is its field `Type`). -/
structure HistoryRep (τ ρ : Type) where
  Typ : String
  Time : String
  Duration : String
  Original : HistoryRecord τ ρ
  deriving DecidableEq

/-- How `json.Unmarshal(data, &rep)` stores one member into the wrapper of a
`HistoryRecord`. -/
def HistoryRecord.storeMember {τ ρ : Type} (P : PassThrough ρ) (key : String) (v : Value)
    (rep : HistoryRep τ ρ) : Store (HistoryRep τ ρ) :=
  if keyIs "Type" key then storeString v rep (fun x => { rep with Typ := x })
  else if keyIs "Time" key then storeString v rep (fun x => { rep with Time := x })
  else if keyIs "Duration" key then storeString v rep (fun x => { rep with Duration := x })
  else
    storeRest P key v rep.Original.rest
      (fun x => { rep with Original := { rep.Original with rest := x } })

/-- A member of type `string` tagged `omitempty`. -/
def omitEmpty (name s : String) : List (String × Value) :=
  if s = "" then [] else [(name, .str s)]

/-- The method `func (r HistoryRecord) MarshalJSON() ([]byte, error)`; `kind r` is the text of
`fmt.Sprintf("%v", r.Type())`, a method that is not in `json.go`. -/
def HistoryRecord.MarshalJSON {τ ρ : Type} (E : Env τ) (P : PassThrough ρ)
    (kind : HistoryRecord τ ρ → String) (r : HistoryRecord τ ρ) : Except Error Json :=
  let t : String := if !(E.isZero r.Time) then E.formatTime r.Time else ""
  let d : String :=
    match r.Duration with
    | some x => E.durationString x
    | none => ""
  match passMembers P ["Type", "Time", "Duration"] r.rest with
  | .ok ms =>
    .ok (.obj (("Type", .str (kind r)) ::
      (omitEmpty "Time" t ++ (omitEmpty "Duration" d ++ ms))))
  | .error e => .error e

/-- The method `func (r *HistoryRecord) UnmarshalJSON(data []byte) error`. -/
def HistoryRecord.UnmarshalJSON {τ ρ : Type} (E : Env τ) (P : PassThrough ρ)
    (r : HistoryRecord τ ρ) (data : Option Json) : HistoryRecord τ ρ × Option Error :=
  match unmarshalStruct (HistoryRecord.storeMember P) data ⟨"", "", "", r⟩ with
  | (rep, some err) => (rep.Original, some err)
  | (rep, none) =>
    let r := rep.Original
    let step (r : HistoryRecord τ ρ) : HistoryRecord τ ρ × Option Error :=
      if rep.Duration ≠ "" then
        let (d, err) := E.parseDuration rep.Duration
        ({ r with Duration := some d }, err)
      else (r, none)
    if rep.Time ≠ "" then
      match E.parseTime rep.Time with
      | (t, some err) => ({ r with Time := t }, some err)
      | (t, none) => step { r with Time := t }
    else step r

/-! ## `SettingsInfo` -/

/-- Modelled from the spec: the declaration of `SettingsInfo` is not in `json.go`; a settings
block with the durations `AutoOff` and `InsulinAction`, and fields that are passed through. -/
structure SettingsInfo (ρ : Type) where
  AutoOff : Duration
  InsulinAction : Duration
  rest : ρ
  deriving DecidableEq

/-- The wrapper struct `rep` of `SettingsInfo.UnmarshalJSON`. -/
structure SettingsRep (ρ : Type) where
  AutoOff : String
  InsulinAction : String
  Original : SettingsInfo ρ
  deriving DecidableEq

/-- How `json.Unmarshal(data, &rep)` stores one member into the wrapper of a
`SettingsInfo`. -/
def SettingsInfo.storeMember {ρ : Type} (P : PassThrough ρ) (key : String) (v : Value)
    (rep : SettingsRep ρ) : Store (SettingsRep ρ) :=
  if keyIs "AutoOff" key then storeString v rep (fun x => { rep with AutoOff := x })
  else if keyIs "InsulinAction" key then
    storeString v rep (fun x => { rep with InsulinAction := x })
  else
    storeRest P key v rep.Original.rest
      (fun x => { rep with Original := { rep.Original with rest := x } })

/-- The method `func (r SettingsInfo) MarshalJSON() ([]byte, error)`. -/
def SettingsInfo.MarshalJSON {τ ρ : Type} (E : Env τ) (P : PassThrough ρ)
    (r : SettingsInfo ρ) : Except Error Json :=
  match passMembers P ["AutoOff", "InsulinAction"] r.rest with
  | .ok ms =>
    .ok (.obj (("AutoOff", .str (E.durationString r.AutoOff)) ::
      ("InsulinAction", .str (E.durationString r.InsulinAction)) :: ms))
  | .error e => .error e

/-- The method `func (r *SettingsInfo) UnmarshalJSON(data []byte) error`. -/
def SettingsInfo.UnmarshalJSON {τ ρ : Type} (E : Env τ) (P : PassThrough ρ)
    (r : SettingsInfo ρ) (data : Option Json) : SettingsInfo ρ × Option Error :=
  match unmarshalStruct (SettingsInfo.storeMember P) data ⟨"", "", r⟩ with
  | (rep, some err) => (rep.Original, some err)
  | (rep, none) =>
    match E.parseDuration rep.AutoOff with
    | (a, some err) => ({ rep.Original with AutoOff := a }, some err)
    | (a, none) =>
      let (i, err) := E.parseDuration rep.InsulinAction
      ({ rep.Original with AutoOff := a, InsulinAction := i }, err)

/-! ## An environment for examples -/

/-- A number below 100 as two decimal digits. -/
def twoDigits (n : ℕ) : String := (if n < 10 then "0" else "") ++ toString n

/-- The value of a decimal digit. -/
def digitValue (c : Char) : Option ℕ :=
  if 48 ≤ c.toNat ∧ c.toNat ≤ 57 then some (c.toNat - 48) else none

/-- The number a non-empty list of decimal digits denotes. -/
def digitsValue : List Char → Option ℕ
  | [] => none
  | cs => cs.foldl (fun acc c => acc.bind (fun n => (digitValue c).map (fun k => 10 * n + k)))
      (some 0)

/-- Modelled from the spec: `TimeOfDay.String` is not in `json.go`; a time of day is written
as `HH:MM`, 24-hour, no seconds. -/
def timeOfDayText (t : TimeOfDay) : String :=
  twoDigits (t.toNat / 60) ++ ":" ++ twoDigits (t.toNat % 60)

/-- Modelled from the spec: `parseTimeOfDay` is not in `json.go`; it reads `HH:MM`, 24-hour,
and reports any other text as an error. -/
def parseTimeOfDayText (s : String) : TimeOfDay × Option Error :=
  match s.data with
  | [h1, h2, ':', m1, m2] =>
    match digitsValue [h1, h2], digitsValue [m1, m2] with
    | some h, some m =>
      if h < 24 ∧ m < 60 then ((60 * h + m : ℕ), none)
      else (0, some (.lib "invalid time of day"))
    | _, _ => (0, some (.lib "invalid time of day"))
  | _ => (0, some (.lib "invalid time of day"))

/-- An environment for the examples, on amd64. The time of day is written as the spec says;
the standard library is replaced by stand-ins: a time stamp is a number of seconds since the
zero time and is written as `@` followed by that number, a duration is written as its whole
seconds followed by `s` and read back from such a text. -/
def exampleEnv : Env ℤ where
  arch := amd64
  isZero := fun t => decide (t = 0)
  formatTime := fun t => "@" ++ toString t.toNat
  parseTime := fun s =>
    match s.data with
    | '@' :: ds =>
      match digitsValue ds with
      | some n => ((n : ℤ), none)
      | none => (0, some (.lib "cannot parse time"))
    | _ => (0, some (.lib "cannot parse time"))
  durationString := fun d => toString (d.toNat / 1000000000) ++ "s"
  parseDuration := fun s =>
    match s.data.reverse with
    | 's' :: ds =>
      match digitsValue ds.reverse with
      | some n => ((1000000000 * n : ℕ), none)
      | none => (0, some (.lib "invalid duration"))
    | _ => (0, some (.lib "invalid duration"))
  timeOfDayString := timeOfDayText
  parseTimeOfDay := parseTimeOfDayText

/-- A record without pass-through fields: every other member of the input is ignored. -/
def noRest : PassThrough Unit where
  store := fun _ _ u => .done u
  members := fun _ => .ok []


/-! ## Records with one duration: `BolusRecord`, `TempBasalInfo`, `UnabsorbedBolus`,
`BolusWizardConfig`

The four codecs are the same text in `json.go` up to the name of the record and of its
duration field; they are embedded once, with the name of the field as an argument. -/

/-- Modelled from the spec: the declarations of `BolusRecord`, `TempBasalInfo`,
`UnabsorbedBolus` and `BolusWizardConfig` are not in `json.go`; each is a record with a field of
type `time.Duration` (`duration` here; `Duration`, `Duration`, `Age` and `InsulinAction` in
the source: the codec assigns a `time.Duration` to it, not a pointer) and fields that are
passed through (`rest`). -/
structure DurationRecord (ρ : Type) where
  duration : Duration
  rest : ρ
  deriving DecidableEq

/-- The wrapper struct `rep` of the `UnmarshalJSON` of a record with one duration: its string
field (`text`) hides the duration of the embedded `*Original`, which points to the
destination. -/
structure DurationRep (ρ : Type) where
  text : String
  Original : DurationRecord ρ
  deriving DecidableEq

/-- How `json.Unmarshal(data, &rep)` stores one member into the wrapper of a record whose
duration field is called `field`. -/
def DurationRecord.storeMember {ρ : Type} (field : String) (P : PassThrough ρ) (key : String)
    (v : Value) (rep : DurationRep ρ) : Store (DurationRep ρ) :=
  if keyIs field key then storeString v rep (fun x => { rep with text := x })
  else
    storeRest P key v rep.Original.rest
      (fun x => { rep with Original := { rep.Original with rest := x } })

/-- The `MarshalJSON` of a record whose duration field is called `field`: the wrapper's string
field has no `omitempty`, so the member is always written. -/
def DurationRecord.MarshalJSON {τ ρ : Type} (field : String) (E : Env τ) (P : PassThrough ρ)
    (r : DurationRecord ρ) : Except Error Json :=
  match passMembers P [field] r.rest with
  | .ok ms => .ok (.obj ((field, .str (E.durationString r.duration)) :: ms))
  | .error e => .error e

/-- The `UnmarshalJSON` of a record whose duration field is called `field`: after
`json.Unmarshal` succeeded, `r.field, err = time.ParseDuration(rep.field); return err`. -/
def DurationRecord.UnmarshalJSON {τ ρ : Type} (field : String) (E : Env τ) (P : PassThrough ρ)
    (r : DurationRecord ρ) (data : Option Json) : DurationRecord ρ × Option Error :=
  match unmarshalStruct (DurationRecord.storeMember field P) data ⟨"", r⟩ with
  | (rep, some err) => (rep.Original, some err)
  | (rep, none) =>
    let (d, err) := E.parseDuration rep.text
    ({ rep.Original with duration := d }, err)

/-- A `BolusRecord`: its duration field is `Duration`. -/
abbrev BolusRecord (ρ : Type) := DurationRecord ρ

/-- The method `func (r BolusRecord) MarshalJSON() ([]byte, error)`. -/
def BolusRecord.MarshalJSON {τ ρ : Type} (E : Env τ) (P : PassThrough ρ)
    (r : BolusRecord ρ) : Except Error Json :=
  DurationRecord.MarshalJSON "Duration" E P r

/-- The method `func (r *BolusRecord) UnmarshalJSON(data []byte) error`. -/
def BolusRecord.UnmarshalJSON {τ ρ : Type} (E : Env τ) (P : PassThrough ρ)
    (r : BolusRecord ρ) (data : Option Json) : BolusRecord ρ × Option Error :=
  DurationRecord.UnmarshalJSON "Duration" E P r data

/-- A `TempBasalInfo`: its duration field is `Duration`. -/
abbrev TempBasalInfo (ρ : Type) := DurationRecord ρ

/-- The method `func (r TempBasalInfo) MarshalJSON() ([]byte, error)`. -/
def TempBasalInfo.MarshalJSON {τ ρ : Type} (E : Env τ) (P : PassThrough ρ)
    (r : TempBasalInfo ρ) : Except Error Json :=
  DurationRecord.MarshalJSON "Duration" E P r

/-- The method `func (r *TempBasalInfo) UnmarshalJSON(data []byte) error`. -/
def TempBasalInfo.UnmarshalJSON {τ ρ : Type} (E : Env τ) (P : PassThrough ρ)
    (r : TempBasalInfo ρ) (data : Option Json) : TempBasalInfo ρ × Option Error :=
  DurationRecord.UnmarshalJSON "Duration" E P r data

/-- An `UnabsorbedBolus`: its duration field is `Age`. -/
abbrev UnabsorbedBolus (ρ : Type) := DurationRecord ρ

/-- The method `func (r UnabsorbedBolus) MarshalJSON() ([]byte, error)`. -/
def UnabsorbedBolus.MarshalJSON {τ ρ : Type} (E : Env τ) (P : PassThrough ρ)
    (r : UnabsorbedBolus ρ) : Except Error Json :=
  DurationRecord.MarshalJSON "Age" E P r

/-- The method `func (r *UnabsorbedBolus) UnmarshalJSON(data []byte) error`. -/
def UnabsorbedBolus.UnmarshalJSON {τ ρ : Type} (E : Env τ) (P : PassThrough ρ)
    (r : UnabsorbedBolus ρ) (data : Option Json) : UnabsorbedBolus ρ × Option Error :=
  DurationRecord.UnmarshalJSON "Age" E P r data

/-- A `BolusWizardConfig`: its duration field is `InsulinAction`. -/
abbrev BolusWizardConfig (ρ : Type) := DurationRecord ρ

/-- The method `func (r BolusWizardConfig) MarshalJSON() ([]byte, error)`. -/
def BolusWizardConfig.MarshalJSON {τ ρ : Type} (E : Env τ) (P : PassThrough ρ)
    (r : BolusWizardConfig ρ) : Except Error Json :=
  DurationRecord.MarshalJSON "InsulinAction" E P r

/-- The method `func (r *BolusWizardConfig) UnmarshalJSON(data []byte) error`. -/
def BolusWizardConfig.UnmarshalJSON {τ ρ : Type} (E : Env τ) (P : PassThrough ρ)
    (r : BolusWizardConfig ρ) (data : Option Json) : BolusWizardConfig ρ × Option Error :=
  DurationRecord.UnmarshalJSON "InsulinAction" E P r data

/-! ## Members of an input that differ in one name only -/

/-- The members of an object without those that select the field `name`. -/
def dropKey (name : String) (ms : List (String × Value)) : List (String × Value) :=
  ms.filter (fun m => !(keyIs name m.1))

/-- Whether `encoding/json` stores a value into a field of type `string` without an error: a
string or `null`. -/
def Value.fitsString : Value → Bool
  | .str _ => true
  | .null => true
  | _ => false

/-- Every member that selects the field `name` carries a string or `null`. -/
def stringAt (name : String) (ms : List (String × Value)) : Prop :=
  ∀ m ∈ ms, keyIs name m.1 = true → m.2.fitsString = true

instance (name : String) (ms : List (String × Value)) : Decidable (stringAt name ms) := by
  unfold stringAt
  infer_instance

/-- Two wrappers of a `HistoryRecord` agree on everything but the text of `Type`. -/
def HistoryRep.agree {τ ρ : Type} (a b : HistoryRep τ ρ) : Prop :=
  a.Time = b.Time ∧ a.Duration = b.Duration ∧ a.Original = b.Original

/-! ## Durations as text: `Duration.String` and `time.ParseDuration`

The two functions of the standard library's package `time` that the duration fields go
through, written after their Go source: the byte buffer that `format` fills from its end is a
list of characters that grows at its head, and a `uint64` is a natural number reduced modulo
`2^64` where the source can wrap. -/

/-- The character of a decimal digit (`byte(digit) + '0'`). -/
def digitChar (n : ℕ) : Char := Char.ofNat (n % 10 + 48)

/-- Whether a character is a decimal digit (`'0' <= c && c <= '9'`). -/
def isDigit (c : Char) : Bool := decide (48 ≤ c.toNat ∧ c.toNat ≤ 57)

/-- The function `fmtFrac(buf, v, prec)` of package `time`: the fraction of `v / 10^prec` in
front of `buf`, without trailing zeros, and without the point when the fraction is zero; also
returns `v / 10^prec`. `print` tells whether a non-zero digit has been met. -/
def fmtFrac : ℕ → ℕ → Bool → List Char → List Char × ℕ
  | 0, v, print, buf => (if print then '.' :: buf else buf, v)
  | prec + 1, v, print, buf =>
    let digit := v % 10
    let print := print || decide (digit ≠ 0)
    fmtFrac prec (v / 10) print (if print then digitChar digit :: buf else buf)

/-- The loop of `fmtInt` for `v > 0`; `fuel` bounds the number of digits. -/
def fmtIntLoop : ℕ → ℕ → List Char → List Char
  | 0, _, buf => buf
  | fuel + 1, v, buf => if v = 0 then buf else fmtIntLoop fuel (v / 10) (digitChar v :: buf)

/-- The function `fmtInt(buf, v)` of package `time`: the decimal digits of `v` in front of
`buf`. -/
def fmtInt (v : ℕ) (buf : List Char) : List Char :=
  if v = 0 then '0' :: buf else fmtIntLoop v v buf

/-- The method `func (d Duration) String() string` of package `time`, for a duration `d` in
the range of `int64`: hours, minutes and seconds with a fraction (`1h30m0s`), or a single
smaller unit below one second (`1.5ms`). -/
def Duration.text (d : Duration) : String :=
  let u : ℕ := d.natAbs
  let sign (buf : List Char) : List Char := if d < 0 then '-' :: buf else buf
  if u < 1000000000 then
    if u = 0 then "0s"
    else
      let (prec, unit) : ℕ × List Char :=
        if u < 1000 then (0, ['n', 's'])
        else if u < 1000000 then (3, ['µ', 's'])
        else (6, ['m', 's'])
      let (buf, u) := fmtFrac prec u false unit
      String.mk (sign (fmtInt u buf))
  else
    let (buf, u) := fmtFrac 9 u false ['s']
    let buf := fmtInt (u % 60) buf
    let u := u / 60
    if u > 0 then
      let buf := fmtInt (u % 60) ('m' :: buf)
      let u := u / 60
      if u > 0 then String.mk (sign (fmtInt u ('h' :: buf)))
      else String.mk (sign buf)
    else String.mk (sign buf)

/-- The function `leadingInt(s)` of package `time`: the number a leading run of digits
denotes and the rest of the text, or `none` when the number exceeds `2^63`. -/
def leadingInt : List Char → ℕ → Option (ℕ × List Char)
  | [], x => some (x, [])
  | c :: s, x =>
    if !(isDigit c) then some (x, c :: s)
    else if x > 2 ^ 63 / 10 then none
    else
      let x := x * 10 + (c.toNat - 48)
      if x > 2 ^ 63 then none else leadingInt s x

/-- The function `leadingFraction(s)` of package `time`: the number a leading run of digits
denotes, the power of ten that scales it to a fraction, and the rest of the text; once the
number would exceed `2^63` the further digits are skipped. The scale stays below `10^20`,
where the `float64` product `scale *= 10` is exact. -/
def leadingFraction : List Char → ℕ → ℚ → Bool → ℕ × ℚ × List Char
  | [], x, scale, _ => (x, scale, [])
  | c :: s, x, scale, overflow =>
    if !(isDigit c) then (x, scale, c :: s)
    else if overflow then leadingFraction s x scale true
    else if x > (2 ^ 63 - 1) / 10 then leadingFraction s x scale true
    else
      let y := x * 10 + (c.toNat - 48)
      if y > 2 ^ 63 then leadingFraction s x scale true
      else leadingFraction s y (scale * 10) false

/-- The table `unitMap` of package `time`: the nanoseconds of a unit. -/
def unitMap (u : String) : Option ℕ :=
  if u = "ns" then some 1
  else if u = "us" then some 1000
  else if u = "µs" then some 1000
  else if u = "μs" then some 1000
  else if u = "ms" then some 1000000
  else if u = "s" then some 1000000000
  else if u = "m" then some 60000000000
  else if u = "h" then some 3600000000000
  else none

/-- The expression `uint64(float64(f) * (float64(unit) / scale))` of `ParseDuration`: the
nanoseconds of the fraction `f / scale` of a unit. -/
def fractionNanos (f unit : ℕ) (scale : ℚ) : ℕ :=
  match roundF64 (f : ℚ), roundF64 ((unit : ℚ) / scale) with
  | .fin a, .fin b =>
    match roundF64 (a * b) with
    | .fin c => ⌊c⌋.toNat % 2 ^ 64
    | .inf _ => 0
  | _, _ => 0

/-- The error `time: invalid duration` of `ParseDuration` for the text `orig`. -/
def invalidDuration (orig : String) : Error := .lib ("time: invalid duration " ++ quote orig)

/-- The optional fraction of a number in `ParseDuration` (`if s != "" && s[0] == '.'`): the
digits after the point as a number `f` and the `scale` with value `f / scale`, whether a digit
was read, and the rest of the text. -/
def leadingPoint (s : List Char) : ℕ × ℚ × Bool × List Char :=
  match s with
  | [] => (0, 1, false, [])
  | c :: s' =>
    if c = '.' then
      let r := leadingFraction s' 0 1 false
      (r.1, r.2.1, decide (s'.length ≠ r.2.2.length), r.2.2)
    else (0, 1, false, c :: s')

/-- Whether a character can be part of a unit (the loop `for ; i < len(s); i++` of
`ParseDuration` stops at a point or a digit). -/
def isUnitChar (c : Char) : Bool := !(decide (c = '.') || isDigit c)

/-- One round of the loop `for s != ""` of `ParseDuration`, for a text `s` that is not empty:
a number with an optional fraction and a unit are read and their nanoseconds are added to
`d`; the result is the rest of the text and the new `d`. -/
def parseGroup (orig : String) (s : List Char) (d : ℕ) : Except Error (List Char × ℕ) :=
  match s with
  | [] => .error (invalidDuration orig)
  | c :: _ =>
    if isUnitChar c then .error (invalidDuration orig)
    else
      match leadingInt s 0 with
      | none => .error (invalidDuration orig)
      | some (v, s1) =>
        let pre : Bool := decide (s.length ≠ s1.length)
        let r := leadingPoint s1
        let f := r.1
        let scale := r.2.1
        let post := r.2.2.1
        let s2 := r.2.2.2
        if !pre && !post then .error (invalidDuration orig)
        else
          let u := s2.takeWhile isUnitChar
          let s3 := s2.dropWhile isUnitChar
          if u = [] then .error (.lib ("time: missing unit in duration " ++ quote orig))
          else
            match unitMap (String.mk u) with
            | none =>
              .error (.lib ("time: unknown unit " ++ quote (String.mk u) ++ " in duration "
                ++ quote orig))
            | some unit =>
              if v > 2 ^ 63 / unit then .error (invalidDuration orig)
              else
                let v := v * unit
                let v := if f > 0 then (v + fractionNanos f unit scale) % 2 ^ 64 else v
                if f > 0 ∧ v > 2 ^ 63 then .error (invalidDuration orig)
                else
                  let d := (d + v) % 2 ^ 64
                  if d > 2 ^ 63 then .error (invalidDuration orig)
                  else .ok (s3, d)

/-- The loop `for s != ""` of `ParseDuration`. A round consumes at least the unit, so the
length of the text is enough `fuel`. -/
def parseLoop (orig : String) : ℕ → List Char → ℕ → Except Error ℕ
  | _, [], d => .ok d
  | 0, _ :: _, _ => .error (invalidDuration orig)
  | fuel + 1, c :: s, d =>
    match parseGroup orig (c :: s) d with
    | .error e => .error e
    | .ok (s3, d) => parseLoop orig fuel s3 d

/-- The optional sign of `ParseDuration` (`[-+]?`): whether the text is negated, and the text
after the sign. -/
def leadingSign (s : List Char) : Bool × List Char :=
  match s with
  | [] => (false, [])
  | c :: s => if c = '-' ∨ c = '+' then (decide (c = '-'), s) else (false, c :: s)

/-- The function `func ParseDuration(s string) (Duration, error)` of package `time`. With an
error it returns the zero duration. -/
def ParseDuration (orig : String) : Duration × Option Error :=
  let neg := (leadingSign orig.data).1
  let s := (leadingSign orig.data).2
  if s = ['0'] then (0, none)
  else if s = [] then (0, some (invalidDuration orig))
  else
    match parseLoop orig s.length s 0 with
    | .error e => (0, some e)
    | .ok d =>
      if neg then (-(d : ℤ), none)
      else if d > 2 ^ 63 - 1 then (0, some (invalidDuration orig))
      else ((d : ℤ), none)

/-- The environment of the examples with the duration functions of package `time` in place
of the stand-ins. -/
def timeEnv : Env ℤ :=
  { exampleEnv with durationString := Duration.text, parseDuration := ParseDuration }

/-! ## `pump.go`: the operating frequency -/

/-- The constant `DefaultFrequency` of `pump.go`, in Hz. -/
def DefaultFrequency : ℕ := 916600000

/-- The constant `freqEnvVar` of `pump.go`. -/
def freqEnvVar : String := "MEDTRONIC_FREQUENCY"

/-- How a call of `defaultFreq` ends: it returns a frequency, or `log.Fatalf` writes a message
(made from a format and, in the first call, an error) and ends the process. -/
inductive Outcome
  | returned (freq : ℕ)
  | fatal (msg : String) (cause : Option Error)
  deriving DecidableEq

/-- What `fmt.Sscanf(f, "%d", &freq)` did: the number of items it stored, its error, and the
value of the `uint32` variable `freq` afterwards. -/
structure Scanned where
  n : ℤ
  err : Option Error
  freq : ℕ
  deriving DecidableEq

/-- The function `func defaultFreq() uint32` of `pump.go`. The environment is the parameter
`getenv` (`os.Getenv`: the empty text for a variable that is not set) and the scanner is the
parameter `sscanf` (`fmt.Sscanf` with the format `%d` and a pointer to `freq`, which holds the
second argument when the call is made). -/
def defaultFreq (getenv : String → String) (sscanf : String → ℕ → Scanned) : Outcome :=
  let freq : ℕ := DefaultFrequency % 2 ^ 32
  let f := getenv freqEnvVar
  if f.length ≠ 0 then
    let r := sscanf f freq
    let freq := r.freq % 2 ^ 32
    if r.err ≠ none then .fatal (freqEnvVar ++ " value (" ++ f ++ "): ") r.err
    else if r.n ≠ 1 ∨ freq < 860000000 ∨ freq > 920000000 then
      .fatal (freqEnvVar ++ " value (" ++ f ++ ") should be the pump frequency in Hz") none
    else .returned freq
  else .returned freq

/-- The scanner of the examples, after `fmt.Sscanf(f, "%d", &freq)` for a `uint32`: blanks and
tabs are skipped, a run of digits is read (the text after it is left alone), and the run must
denote a number below `2^32`; otherwise nothing is stored and an error is returned. -/
def scanDecimal (f : String) (freq : ℕ) : Scanned :=
  let s := f.data.dropWhile (fun c => c = ' ' || c = '\t')
  let tok := s.takeWhile isDigit
  match digitsValue tok with
  | none => ⟨0, some (.lib "expected integer"), freq⟩
  | some v =>
    if v < 2 ^ 32 then ⟨1, none, v⟩
    else ⟨0, some (.lib "unsigned integer overflow"), freq⟩


/-! ## binary64 rounding: error bound, fixed points -/

theorem log2Fuel_eq_log : ∀ (fuel n : ℕ), n ≤ fuel → log2Fuel fuel n = Nat.log 2 n := by
  intro fuel
  induction fuel with
  | zero =>
    intro n hn
    have : n = 0 := by omega
    subst this
    simp [log2Fuel]
  | succ f ih =>
    intro n hn
    unfold log2Fuel
    by_cases h : n < 2
    · simp [h, Nat.log_of_lt h]
    · simp only [h, if_false]
      have h2 : 2 ≤ n := by omega
      rw [ih (n / 2) (by omega), Nat.log_of_one_lt_of_le (by norm_num) h2]

theorem natLog2_eq_log (n : ℕ) : natLog2 n = Nat.log 2 n :=
  log2Fuel_eq_log n n le_rfl

theorem natLog2_le (n : ℕ) (hn : n ≠ 0) : 2 ^ natLog2 n ≤ n := by
  rw [natLog2_eq_log]; exact Nat.pow_log_le_self 2 hn

theorem lt_natLog2 (n : ℕ) : n < 2 ^ (natLog2 n + 1) := by
  rw [natLog2_eq_log]; exact Nat.lt_pow_succ_log_self (by norm_num) n

theorem abs_eq_natAbs_div_den (q : ℚ) : |q| = (q.num.natAbs : ℚ) / (q.den : ℚ) := by
  have h := Rat.num_div_den q
  conv_lhs => rw [← h]
  rw [abs_div, Nat.cast_natAbs, Int.cast_abs]
  simp

theorem ilog2_le (q : ℚ) (hq : q ≠ 0) : (2:ℚ) ^ (ilog2 q) ≤ |q| := by
  unfold ilog2
  simp only
  split_ifs with h
  · exact h
  · have hn : q.num.natAbs ≠ 0 := by
      simpa using Rat.num_ne_zero.mpr hq
    have h1 : ((2:ℕ) ^ natLog2 q.num.natAbs : ℕ) ≤ q.num.natAbs := natLog2_le _ hn
    have h2 : q.den < 2 ^ (natLog2 q.den + 1) := lt_natLog2 _
    have h1' : ((2:ℚ) ^ (natLog2 q.num.natAbs : ℕ)) ≤ (q.num.natAbs : ℚ) := by
      exact_mod_cast h1
    have h2' : (q.den : ℚ) < (2:ℚ) ^ (natLog2 q.den + 1 : ℕ) := by
      exact_mod_cast h2
    have hd : (0:ℚ) < q.den := by exact_mod_cast q.den_pos
    rw [abs_eq_natAbs_div_den]
    have e : (2:ℚ) ^ ((natLog2 q.num.natAbs : ℤ) - (natLog2 q.den : ℤ) - 1)
        = (2:ℚ) ^ (natLog2 q.num.natAbs : ℕ) / (2:ℚ) ^ (natLog2 q.den + 1 : ℕ) := by
      rw [← zpow_natCast, ← zpow_natCast, ← zpow_sub₀ (by norm_num)]
      congr 1
      push_cast
      ring
    rw [e, div_le_div_iff₀ (by positivity) hd]
    have := mul_le_mul h1' h2'.le hd.le (by positivity)
    linarith [mul_comm ((2:ℚ) ^ (natLog2 q.num.natAbs : ℕ)) (q.den : ℚ)]

theorem lt_ilog2 (q : ℚ) : |q| < (2:ℚ) ^ (ilog2 q + 1) := by
  unfold ilog2
  simp only
  split_ifs with h
  · have h1 : q.num.natAbs < 2 ^ (natLog2 q.num.natAbs + 1) := lt_natLog2 _
    have h2 : 2 ^ natLog2 q.den ≤ q.den := natLog2_le _ q.den_nz
    have h1' : (q.num.natAbs : ℚ) < (2:ℚ) ^ (natLog2 q.num.natAbs + 1 : ℕ) := by
      exact_mod_cast h1
    have h2' : (2:ℚ) ^ (natLog2 q.den : ℕ) ≤ (q.den : ℚ) := by
      exact_mod_cast h2
    have hd : (0:ℚ) < q.den := by exact_mod_cast q.den_pos
    rw [abs_eq_natAbs_div_den]
    have e : (2:ℚ) ^ ((natLog2 q.num.natAbs : ℤ) - (natLog2 q.den : ℤ) + 1)
        = (2:ℚ) ^ (natLog2 q.num.natAbs + 1 : ℕ) / (2:ℚ) ^ (natLog2 q.den : ℕ) := by
      rw [← zpow_natCast, ← zpow_natCast, ← zpow_sub₀ (by norm_num)]
      congr 1
      push_cast
      ring
    rw [e, div_lt_div_iff₀ hd (by positivity)]
    have hp : (0:ℚ) < (2:ℚ) ^ (natLog2 q.den : ℕ) := by positivity
    have hn0 : (0:ℚ) ≤ (q.num.natAbs : ℚ) := by positivity
    nlinarith
  · have : (natLog2 q.num.natAbs : ℤ) - (natLog2 q.den : ℤ) - 1 + 1
      = (natLog2 q.num.natAbs : ℤ) - (natLog2 q.den : ℤ) := by ring
    rw [this]
    exact lt_of_not_le h

theorem roundHalfEven_intCast (n : ℤ) : roundHalfEven (n : ℚ) = n := by
  simp [roundHalfEven]

theorem abs_roundHalfEven_sub_le (t : ℚ) : |(roundHalfEven t : ℚ) - t| ≤ 1 / 2 := by
  have h1 := Int.floor_le t
  have h2 := Int.lt_floor_add_one t
  unfold roundHalfEven
  simp only
  rw [abs_le]
  split_ifs <;> constructor <;> push_cast <;> linarith

theorem roundF64_err (q r : ℚ) (h : roundF64 q = .fin r) :
    |r - q| ≤ max (|q| / 2 ^ 53) (1 / 2 ^ 1075) := by
  unfold roundF64 at h
  by_cases hq : q = 0
  · simp [hq] at h
    subst h; subst hq
    simp
  · simp only [hq, if_false] at h
    split_ifs at h with hlt
    injection h with h
    set E := max (ilog2 q) (-1022) with hE
    have hs : (0:ℚ) < (2:ℚ) ^ (E - 52) := by positivity
    have hb := abs_roundHalfEven_sub_le (q / (2:ℚ) ^ (E - 52))
    have e1 : r - q = ((roundHalfEven (q / (2:ℚ) ^ (E - 52)) : ℚ) - q / (2:ℚ) ^ (E - 52))
        * (2:ℚ) ^ (E - 52) := by
      rw [← h]; field_simp
    have e2 : |r - q| ≤ 1 / 2 * (2:ℚ) ^ (E - 52) := by
      rw [e1, abs_mul, abs_of_pos hs]
      exact mul_le_mul_of_nonneg_right hb hs.le
    have e3 : 1 / 2 * (2:ℚ) ^ (E - 52) = (2:ℚ) ^ E / 2 ^ 53 := by
      rw [zpow_sub₀ (by norm_num : (2:ℚ) ≠ 0)]
      norm_num
      ring
    rw [e3] at e2
    rcases le_total (ilog2 q) (-1022) with hc | hc
    · have : E = -1022 := by rw [hE]; exact max_eq_right hc
      rw [this] at e2
      refine le_trans e2 (le_trans (le_of_eq ?_) (le_max_right _ _))
      rw [zpow_neg, ← zpow_natCast]
      norm_num
    · have : E = ilog2 q := by rw [hE]; exact max_eq_left hc
      rw [this] at e2
      refine le_trans e2 (le_trans ?_ (le_max_left _ _))
      exact div_le_div_of_nonneg_right (ilog2_le q hq) (by positivity)


theorem roundF64_fin (q : ℚ) (hq : |q| ≤ 2 ^ 1023) :
    ∃ r, roundF64 q = .fin r := by
  unfold roundF64
  by_cases h0 : q = 0
  · exact ⟨0, by simp [h0]⟩
  · simp only [h0, if_false]
    set E := max (ilog2 q) (-1022) with hE
    have hs : (0:ℚ) < (2:ℚ) ^ (E - 52) := by positivity
    have hb := abs_roundHalfEven_sub_le (q / (2:ℚ) ^ (E - 52))
    have hlt : |(roundHalfEven (q / (2:ℚ) ^ (E - 52)) : ℚ) * (2:ℚ) ^ (E - 52)|
        < (2:ℚ) ^ (1024:ℤ) := by
      have e1 : (roundHalfEven (q / (2:ℚ) ^ (E - 52)) : ℚ) * (2:ℚ) ^ (E - 52)
          = q + ((roundHalfEven (q / (2:ℚ) ^ (E - 52)) : ℚ) - q / (2:ℚ) ^ (E - 52))
            * (2:ℚ) ^ (E - 52) := by
        field_simp
      have e2 : |((roundHalfEven (q / (2:ℚ) ^ (E - 52)) : ℚ) - q / (2:ℚ) ^ (E - 52))
            * (2:ℚ) ^ (E - 52)| ≤ 1 / 2 * (2:ℚ) ^ (E - 52) := by
        rw [abs_mul, abs_of_pos hs]
        exact mul_le_mul_of_nonneg_right hb hs.le
      have hEle : E ≤ 1023 := by
        rw [hE]
        refine max_le ?_ (by norm_num)
        by_contra hc
        push_neg at hc
        have h1 : (2:ℚ) ^ (1024:ℤ) ≤ (2:ℚ) ^ (ilog2 q) :=
          zpow_le_zpow_right₀ (by norm_num) (by omega)
        have h2 := ilog2_le q h0
        have h3 : (2:ℚ) ^ (1023:ℕ) < (2:ℚ) ^ (1024:ℤ) := by
          rw [← zpow_natCast]
          exact zpow_lt_zpow_right₀ (by norm_num) (by norm_num)
        linarith
      have e3 : (2:ℚ) ^ (E - 52) ≤ (2:ℚ) ^ (971:ℤ) :=
        zpow_le_zpow_right₀ (by norm_num) (by omega)
      have e4 : (2:ℚ) ^ (1023:ℕ) + 1 / 2 * (2:ℚ) ^ (971:ℤ) < (2:ℚ) ^ (1024:ℤ) := by
        rw [← zpow_natCast]
        norm_num
      rw [e1]
      calc |q + _| ≤ |q| + |_| := abs_add _ _
        _ ≤ 2 ^ 1023 + 1 / 2 * (2:ℚ) ^ (971:ℤ) := by linarith
        _ < _ := e4
    exact ⟨_, by rw [if_pos hlt]⟩


theorem isF64_of_roundF64 (q r : ℚ) (h : roundF64 q = .fin r) : IsF64 r := by
  unfold roundF64 at h
  by_cases hq : q = 0
  · simp [hq] at h
    subst h
    exact ⟨0, 0, by norm_num, by norm_num, by simp, by simp; positivity⟩
  · simp only [hq, if_false] at h
    split_ifs at h with hlt
    injection h with h
    set E := max (ilog2 q) (-1022) with hE
    have hs : (0:ℚ) < (2:ℚ) ^ (E - 52) := by positivity
    refine ⟨roundHalfEven (q / (2:ℚ) ^ (E - 52)), E - 52, ?_, ?_, h.symm, ?_⟩
    · have hb := abs_roundHalfEven_sub_le (q / (2:ℚ) ^ (E - 52))
      have h1 : |q / (2:ℚ) ^ (E - 52)| < 2 ^ 53 := by
        rw [abs_div, abs_of_pos hs, div_lt_iff₀ hs]
        have h2 := lt_ilog2 q
        have h3 : (2:ℚ) ^ (ilog2 q + 1) ≤ (2:ℚ) ^ (E + 1) :=
          zpow_le_zpow_right₀ (by norm_num) (by have := le_max_left (ilog2 q) (-1022); omega)
        have h4 : (2:ℚ) ^ (E + 1) = 2 ^ 53 * (2:ℚ) ^ (E - 52) := by
          rw [← zpow_natCast, ← zpow_add₀ (by norm_num)]
          congr 1
          push_cast
          ring
        linarith
      have h5 : |(roundHalfEven (q / (2:ℚ) ^ (E - 52)) : ℚ)| < 2 ^ 53 + 1 := by
        have := abs_sub_abs_le_abs_sub (roundHalfEven (q / (2:ℚ) ^ (E - 52)) : ℚ)
          (q / (2:ℚ) ^ (E - 52))
        linarith
      have h6 : |roundHalfEven (q / (2:ℚ) ^ (E - 52))| < 2 ^ 53 + 1 := by
        rw [← Int.cast_abs] at h5
        exact_mod_cast h5
      omega
    · have := le_max_right (ilog2 q) (-1022)
      omega
    · rw [← h]; exact hlt

theorem roundF64_of_isF64 (x : ℚ) (hx : IsF64 x) : roundF64 x = .fin x := by
  obtain ⟨m, k, hm, hk, rfl, hlt⟩ := hx
  unfold roundF64
  by_cases h0 : (m : ℚ) * (2:ℚ) ^ k = 0
  · simp [h0]
  · simp only [h0, if_false]
    set x := (m : ℚ) * (2:ℚ) ^ k with hx
    set E := max (ilog2 x) (-1022) with hE
    have hs : (0:ℚ) < (2:ℚ) ^ (E - 52) := by positivity
    have hk2 : (0:ℚ) < (2:ℚ) ^ k := by positivity
    have hint : ∃ j : ℤ, x / (2:ℚ) ^ (E - 52) = (j : ℚ) := by
      by_cases hc : E - 52 ≤ k
      · obtain ⟨n, hn⟩ := Int.eq_ofNat_of_zero_le (show 0 ≤ k - (E - 52) by omega)
        refine ⟨m * 2 ^ n, ?_⟩
        have hk' : k = (n : ℤ) + (E - 52) := by omega
        have e : (2:ℚ) ^ k = (2:ℚ) ^ n * (2:ℚ) ^ (E - 52) := by
          rw [hk', zpow_add₀ (by norm_num), zpow_natCast]
        rw [div_eq_iff hs.ne', hx, e]
        push_cast
        ring
      · push_neg at hc
        have hEe : E = ilog2 x := by
          rcases max_choice (ilog2 x) (-1022) with h | h
          · rw [hE, h]
          · rw [hE, h] at hc; omega
        have h1 := ilog2_le x h0
        have hmabs : |(m : ℚ)| ≤ 2 ^ 53 := by
          rw [← Int.cast_abs]
          exact_mod_cast hm
        have hxabs : |x| = |(m : ℚ)| * (2:ℚ) ^ k := by
          rw [hx, abs_mul, abs_of_pos hk2]
        have hpow : (2:ℚ) ^ (k + 53) = 2 ^ 53 * (2:ℚ) ^ k := by
          rw [zpow_add₀ (by norm_num), mul_comm]
          norm_cast
        have h2 : |x| ≤ (2:ℚ) ^ (k + 53) := by
          rw [hxabs, hpow]
          exact mul_le_mul_of_nonneg_right hmabs hk2.le
        have h3 : ilog2 x ≤ k + 53 := by
          by_contra hcon
          push_neg at hcon
          have : (2:ℚ) ^ (k + 53) < (2:ℚ) ^ (ilog2 x) :=
            zpow_lt_zpow_right₀ (by norm_num) hcon
          linarith
        have hEk : E = k + 53 := by omega
        have h4 : (2:ℚ) ^ 53 ≤ |(m : ℚ)| := by
          by_contra hcon
          push_neg at hcon
          have h7 := mul_lt_mul_of_pos_right hcon hk2
          rw [← hEe, hEk, hpow, hxabs] at h1
          linarith
        have h5 : |(m : ℚ)| = 2 ^ 53 := le_antisymm hmabs h4
        have h6 : (2:ℚ) ^ (E - 52) = 2 * (2:ℚ) ^ k := by
          rw [hEk, show k + 53 - 52 = 1 + k by ring, zpow_add₀ (by norm_num)]
          norm_num
        rcases abs_choice (m : ℚ) with hp | hn
        · refine ⟨2 ^ 52, ?_⟩
          rw [div_eq_iff hs.ne', h6, hx, ← hp, h5]
          push_cast
          ring
        · refine ⟨-2 ^ 52, ?_⟩
          have : (m : ℚ) = -2 ^ 53 := by linarith
          rw [div_eq_iff hs.ne', h6, hx, this]
          push_cast
          ring
    obtain ⟨j, hj⟩ := hint
    have hr : (roundHalfEven (x / (2:ℚ) ^ (E - 52)) : ℚ) * (2:ℚ) ^ (E - 52) = x := by
      rw [hj, roundHalfEven_intCast, ← hj]
      field_simp
    rw [hr, if_pos hlt]

theorem roundF64_idem (q r : ℚ) (h : roundF64 q = .fin r) : roundF64 r = .fin r :=
  roundF64_of_isF64 r (isF64_of_roundF64 q r h)

theorem roundF64_intCast (v : ℤ) (hv : |v| ≤ 2 ^ 53) : roundF64 (v : ℚ) = .fin (v : ℚ) := by
  apply roundF64_of_isF64
  refine ⟨v, 0, hv, by norm_num, by simp, ?_⟩
  have h1 : |(v : ℚ)| ≤ 2 ^ 53 := by
    have : ((|v| : ℤ) : ℚ) ≤ ((2 ^ 53 : ℤ) : ℚ) := by exact_mod_cast hv
    simpa using this
  have h2 : (2:ℚ) ^ 53 < (2:ℚ) ^ (1024:ℤ) := by
    rw [← zpow_natCast]
    exact zpow_lt_zpow_right₀ (by norm_num) (by norm_num)
  linarith


theorem roundF64_err_add (q r : ℚ) (h : roundF64 q = .fin r) :
    |r - q| ≤ |q| / 2 ^ 53 + 1 / 2 ^ 80 := by
  have h1 := roundF64_err q r h
  have h2 : (1:ℚ) / 2 ^ 1075 ≤ 1 / 2 ^ 80 := by norm_num
  have h3 : (0:ℚ) ≤ |q| / 2 ^ 53 := by positivity
  have h4 : (0:ℚ) ≤ 1 / 2 ^ 80 := by positivity
  rcases max_choice (|q| / 2 ^ 53) ((1:ℚ) / 2 ^ 1075) with hm | hm <;> rw [hm] at h1 <;> linarith

theorem roundF64_near (q : ℚ) (hq : |q| ≤ 2 ^ 1023) :
    ∃ r, roundF64 q = .fin r ∧ |r - q| ≤ |q| / 2 ^ 53 + 1 / 2 ^ 80 := by
  obtain ⟨r, hr⟩ := roundF64_fin q hq
  exact ⟨r, hr, roundF64_err_add q r hr⟩

theorem truncToInt_fin (A : Arch) (z : ℚ) (n : ℤ) (h0 : 0 ≤ n) (hn : n < 2 ^ 63)
    (h1 : (n : ℚ) ≤ z) (h2 : z < (n : ℚ) + 1) : truncToInt A (.fin z) = n := by
  have hz : (0:ℚ) ≤ z := le_trans (by exact_mod_cast h0) h1
  have hf : ⌊z⌋ = n := Int.floor_eq_iff.mpr ⟨h1, h2⟩
  simp only [truncToInt, hz, if_true, hf]
  rw [if_pos ⟨by omega, hn⟩]

theorem mulAddHalf_window (A : Arch) (d x b : ℚ) (n : ℤ) (hd0 : 0 < d) (hd : d ≤ 1000)
    (hx0 : 0 ≤ x) (hb : roundF64 x = .fin b)
    (hlo : (n : ℚ) + (d * x + 1) / 2 ^ 51 ≤ d * x + 1 / 2)
    (hhi : d * x + 1 / 2 ≤ (n : ℚ) + 1 - (d * x + 1) / 2 ^ 51) :
    ∃ z, mulAddHalf A d (.fin b) = .fin z ∧ (n : ℚ) ≤ z ∧ z < (n : ℚ) + 1 := by
  have hW0 : 0 ≤ d * x := mul_nonneg hd0.le hx0
  have hbx := roundF64_err_add x b hb
  rw [abs_of_nonneg hx0, abs_le] at hbx
  obtain ⟨hbx1, hbx2⟩ := hbx
  have hY1 : d * b ≤ d * x + d * x / 2 ^ 53 + 1000 / 2 ^ 80 := by
    have := mul_le_mul_of_nonneg_left hbx2 hd0.le
    nlinarith
  have hY2 : d * x - d * x / 2 ^ 53 - 1000 / 2 ^ 80 ≤ d * b := by
    have := mul_le_mul_of_nonneg_left hbx1 hd0.le
    nlinarith
  have hYabs : |d * b| ≤ d * x + d * x / 2 ^ 53 + 1000 / 2 ^ 80 := by
    rw [abs_le]
    constructor <;> linarith
  have hxb : d * x ≤ 2 ^ 50 := by
    have h51 : (0:ℚ) < 2 ^ 51 := by positivity
    have := (div_le_iff₀ h51).mp (show (d * x + 1) / 2 ^ 51 ≤ 1 / 2 by linarith)
    norm_num at this ⊢
    linarith
  have hbig : (2:ℚ) ^ 52 ≤ 2 ^ 1023 := by
    exact pow_le_pow_right₀ (by norm_num) (by norm_num)
  unfold mulAddHalf
  cases hf : A.fused
  · simp only [Bool.false_eq_true, if_false]
    obtain ⟨y, hy, hye⟩ := roundF64_near (d * b) (by linarith)
    rw [hy]
    simp only
    have hy' := abs_le.mp hye
    have hyabs : |y| ≤ d * x + 3 * (d * x) / 2 ^ 53 + 1 / 2 ^ 60 := by
      rw [abs_le]
      constructor <;> linarith [hy'.1, hy'.2]
    have hy12 : |y + 1 / 2| ≤ d * x + 3 * (d * x) / 2 ^ 53 + 1 / 2 ^ 60 + 1 / 2 := by
      have := abs_add y (1 / 2)
      rw [abs_of_pos (by norm_num : (0:ℚ) < 1 / 2)] at this
      linarith
    obtain ⟨z, hz, hze⟩ := roundF64_near (y + 1 / 2) (by linarith)
    have hz' := abs_le.mp hze
    refine ⟨z, hz, ?_, ?_⟩ <;> linarith [hy'.1, hy'.2, hz'.1, hz'.2]
  · simp only [if_true]
    have hy12 : |d * b + 1 / 2| ≤ d * x + d * x / 2 ^ 53 + 1000 / 2 ^ 80 + 1 / 2 := by
      have := abs_add (d * b) (1 / 2)
      rw [abs_of_pos (by norm_num : (0:ℚ) < 1 / 2)] at this
      linarith
    obtain ⟨z, hz, hze⟩ := roundF64_near (d * b + 1 / 2) (by linarith)
    have hz' := abs_le.mp hze
    refine ⟨z, hz, ?_, ?_⟩ <;> linarith [hz'.1, hz'.2]


/-! ## Scalars -/

theorem chooseNear_parse (b lo hi t : ℚ) (even : Bool) (h : chooseNear b lo hi even = some t) :
    roundF64 t = .fin b := by
  unfold chooseNear at h
  simp only [Bool.and_eq_true, decide_eq_true_eq] at h
  split_ifs at h with h1 h2 h3 h4 h5 h6 <;> simp only [Option.some.injEq] at h <;>
    first
      | (subst h; exact h1.1)
      | (subst h; exact h1.2)
      | (subst h; assumption)

theorem formatFloat_parse (b : ℚ) (hb : roundF64 b = .fin b) :
    roundF64 (formatFloat b) = .fin b := by
  unfold formatFloat
  split_ifs with h0
  · subst h0; exact hb
  · split
    · rename_i t ht
      obtain ⟨i, _, hi⟩ := List.exists_of_findSome?_eq_some ht
      exact chooseNear_parse b _ _ t _ hi
    · exact hb

theorem scaleUp_window (A : Arch) (d x b : ℚ) (n : ℤ) (hd0 : 0 < d) (hd : d ≤ 1000)
    (hx0 : 0 ≤ x) (hb : roundF64 x = .fin b)
    (hlo : (n : ℚ) + (d * x + 1) / 2 ^ 51 ≤ d * x + 1 / 2)
    (hhi : d * x + 1 / 2 ≤ (n : ℚ) + 1 - (d * x + 1) / 2 ^ 51) :
    scaleUp A d (.fin b) = n := by
  obtain ⟨z, hz, h1, h2⟩ := mulAddHalf_window A d x b n hd0 hd hx0 hb hlo hhi
  have hW0 : 0 ≤ d * x := mul_nonneg hd0.le hx0
  have hpos : (0:ℚ) < (d * x + 1) / 2 ^ 51 := by positivity
  have hn0 : 0 ≤ n := by
    by_contra hc
    push_neg at hc
    have : (n : ℚ) + 1 ≤ 0 := by exact_mod_cast hc
    linarith
  have hn63 : n < 2 ^ 63 := by
    have h51 : (0:ℚ) < 2 ^ 51 := by positivity
    have h3 := (div_le_iff₀ h51).mp (show (d * x + 1) / 2 ^ 51 ≤ 1 / 2 by linarith)
    have h4 : (n : ℚ) < ((2 ^ 63 : ℤ) : ℚ) := by
      push_cast
      norm_num at h3 ⊢
      linarith
    exact_mod_cast h4
  unfold scaleUp
  rw [hz]
  exact truncToInt_fin A z n hn0 hn63 h1 h2

theorem scaleDown_eq (v : ℤ) (d : ℚ) (hv : |v| ≤ 2 ^ 53) :
    scaleDown v d = roundF64 ((v : ℚ) / d) := by
  unfold scaleDown
  rw [roundF64_intCast v hv]

/-- The scaled round trip on the float level: `T(d * (float64(v)/d) + 0.5) = v`. -/
theorem scale_round_trip (A : Arch) (d : ℚ) (v : ℤ) (hd1 : 1 ≤ d) (hd : d ≤ 1000)
    (h0 : 0 ≤ v) (hv : v < 2 ^ 50) :
    ∃ b, scaleDown v d = .fin b ∧ roundF64 (formatFloat b) = .fin b ∧
      scaleUp A d (.fin b) = v := by
  have hd0 : 0 < d := by linarith
  have hv53 : |v| ≤ 2 ^ 53 := by
    rw [abs_of_nonneg h0]; omega
  have hvq0 : (0:ℚ) ≤ (v : ℚ) := by exact_mod_cast h0
  have hvq : (v : ℚ) + 1 ≤ 2 ^ 50 := by
    have : v + 1 ≤ 2 ^ 50 := by omega
    exact_mod_cast this
  have hx0 : (0:ℚ) ≤ (v : ℚ) / d := div_nonneg hvq0 hd0.le
  have hdx : d * ((v : ℚ) / d) = v := by field_simp
  have hq : |(v : ℚ) / d| ≤ 2 ^ 1023 := by
    rw [abs_of_nonneg hx0, div_le_iff₀ hd0]
    have h1 : (2:ℚ) ^ 50 ≤ 2 ^ 1023 := pow_le_pow_right₀ (by norm_num) (by norm_num)
    have h2 : (0:ℚ) < 2 ^ 1023 := by positivity
    nlinarith
  obtain ⟨b, hb⟩ := roundF64_fin ((v : ℚ) / d) hq
  have h51 : (v : ℚ) + 1 ≤ 1 / 2 * 2 ^ 51 := by
    norm_num at hvq ⊢
    linarith
  have hw : ((v : ℚ) + 1) / 2 ^ 51 ≤ 1 / 2 := by
    rw [div_le_iff₀ (by positivity)]
    exact h51
  refine ⟨b, ?_, formatFloat_parse b (roundF64_idem _ _ hb), ?_⟩
  · rw [scaleDown_eq v d hv53, hb]
  · apply scaleUp_window A d ((v : ℚ) / d) b v hd0 hd hx0 hb
    · rw [hdx]; linarith
    · rw [hdx]; linarith

/-- C1 (amended): for every integer `v` with `0 ≤ v < 2^50`, decoding the text produced by
encoding `v` yields exactly `v`, for `Insulin` and `Voltage` (divisor 1000) and for the ratio
scalings (divisors 10 and 1000), whatever the destination held and on every architecture. -/
theorem scalar_round_trip (A : Arch) (v r0 : ℤ) (h0 : 0 ≤ v) (hv : v < 2 ^ 50) :
    Insulin.UnmarshalJSON A r0 (Insulin.MarshalJSON v).toOption = (v, none) ∧
    Voltage.UnmarshalJSON A r0 (Voltage.MarshalJSON v).toOption = (v, none) ∧
    (∀ d : ℚ, d = 10 ∨ d = 1000 →
      ∃ t b, marshalFloat64 (scaleDown v d) = .ok (.num t) ∧ roundF64 t = .fin b ∧
        scaleUp A d (.fin b) = v) := by
  obtain ⟨b, hs, hp, hu⟩ := scale_round_trip A 1000 v (by norm_num) (by norm_num) h0 hv
  refine ⟨?_, ?_, ?_⟩
  · simp [Insulin.MarshalJSON, Insulin.UnmarshalJSON, hs, marshalFloat64, Except.map,
      Except.toOption, unmarshalFloat64, hp, hu]
  · simp [Voltage.MarshalJSON, Voltage.UnmarshalJSON, hs, marshalFloat64, Except.map,
      Except.toOption, unmarshalFloat64, hp, hu]
  · intro d hd
    have hd' : 1 ≤ d ∧ d ≤ 1000 := by
      rcases hd with h | h <;> subst h <;> norm_num
    obtain ⟨b', hs', hp', hu'⟩ := scale_round_trip A d v hd'.1 hd'.2 h0 hv
    exact ⟨formatFloat b', b', by simp [hs', marshalFloat64], hp', hu'⟩

/-- C1, witness: the value 2500 on amd64, into a destination that held 7. -/
theorem scalar_round_trip_witness :
    Insulin.UnmarshalJSON amd64 7 (Insulin.MarshalJSON 2500).toOption = (2500, none) :=
  (scalar_round_trip amd64 2500 7 (by norm_num) (by norm_num)).1

/-- C1, counterexample: `2^53 + 1` is a non-negative `int` that does not survive the round
trip: encoding gives `9007199254740.992` and decoding that gives `2^53`, with or without a
fused multiply-add. -/
theorem scalar_round_trip_fails :
    Insulin.MarshalJSON 9007199254740993 = .ok (.atom (.num (9007199254740992 / 1000))) ∧
    Insulin.UnmarshalJSON amd64 0 (Insulin.MarshalJSON 9007199254740993).toOption
      = (9007199254740992, none) ∧
    Insulin.UnmarshalJSON arm64 0 (Insulin.MarshalJSON 9007199254740993).toOption
      = (9007199254740992, none) ∧
    (9007199254740992 : ℤ) ≠ 9007199254740993 := by
  decide!


/-! ## Records: how the members of a text reach the wrapper -/

theorem visible_hides (hidden : List String) (name : String) (hn : name ∈ hidden)
    (ms : List (String × Value)) :
    (visible hidden ms).any (fun m => decide (m.1 = name)) = false := by
  rw [List.any_eq_false]
  intro m hm
  simp only [visible, List.mem_filter] at hm
  simp only [decide_eq_true_eq]
  intro h
  subst h
  simp [hn] at hm

/-- Members that select neither `CarbRatio` nor `CarbUnits` only reach the pass-through
fields of a `BolusWizardRecord`. -/
theorem bolusWizard_decode_rest {ρ : Type} (P : PassThrough ρ) :
    ∀ (ms : List (String × Value)) (rep : BolusWizardRep ρ) (e : Option Error),
      (∀ m ∈ ms, keyIs "CarbRatio" m.1 = false ∧ keyIs "CarbUnits" m.1 = false) →
      decodeMembers (BolusWizardRecord.storeMember P) ms rep e =
        ({ rep with Original := { rep.Original with
            rest := (decodeMembers P.store ms rep.Original.rest e).1 } },
          (decodeMembers P.store ms rep.Original.rest e).2) := by
  intro ms
  induction ms with
  | nil => intro rep e _; rfl
  | cons m ms ih =>
    intro rep e h
    obtain ⟨k, v⟩ := m
    have hk := h (k, v) (List.mem_cons_self _ _)
    have ht : ∀ m ∈ ms, keyIs "CarbRatio" m.1 = false ∧ keyIs "CarbUnits" m.1 = false :=
      fun m hm => h m (List.mem_cons_of_mem _ hm)
    simp only [decodeMembers, BolusWizardRecord.storeMember, hk.1, hk.2, storeRest,
      Bool.false_eq_true, if_false]
    cases hs : P.store k v rep.Original.rest with
    | done x => simp only [ih _ _ ht]
    | saved x e' => simp only [ih _ _ ht]
    | abort x e' => rfl

/-- An invariant of the single stores, for the members whose name satisfies `p`, is an
invariant of the decoding of an object with such members. -/
theorem decodeMembers_inv {σ : Type} (store : String → Value → σ → Store σ)
    (p : String → Prop) (I : σ → Prop)
    (hstep : ∀ k v s, p k → I s → I (store k v s).state) :
    ∀ (ms : List (String × Value)) (s : σ) (e : Option Error),
      (∀ m ∈ ms, p m.1) → I s → I (decodeMembers store ms s e).1 := by
  intro ms
  induction ms with
  | nil => intro s e _ hI; exact hI
  | cons m ms ih =>
    intro s e hp hI
    obtain ⟨k, v⟩ := m
    have h1 := hstep k v s (hp (k, v) (List.mem_cons_self _ _)) hI
    have ht : ∀ m ∈ ms, p m.1 := fun m hm => hp m (List.mem_cons_of_mem _ hm)
    simp only [decodeMembers]
    cases hs : store k v s with
    | done x => rw [hs] at h1; exact ih x e ht h1
    | saved x e' => rw [hs] at h1; exact ih x _ ht h1
    | abort x e' => rw [hs] at h1; exact h1

/-- Two decodings of the same members whose single stores correspond end in corresponding
states with the same error. -/
theorem decodeMembers_rel {σ σ' : Type} (f : String → Value → σ → Store σ)
    (g : String → Value → σ' → Store σ') (R : σ → σ' → Prop)
    (hstep : ∀ k v s s', R s s' → Store.Rel R (f k v s) (g k v s')) :
    ∀ (ms : List (String × Value)) (s : σ) (s' : σ') (e : Option Error), R s s' →
      R (decodeMembers f ms s e).1 (decodeMembers g ms s' e).1 ∧
        (decodeMembers f ms s e).2 = (decodeMembers g ms s' e).2 := by
  intro ms
  induction ms with
  | nil => intro s s' e h; exact ⟨h, rfl⟩
  | cons m ms ih =>
    intro s s' e h
    obtain ⟨k, v⟩ := m
    have h1 := hstep k v s s' h
    simp only [decodeMembers]
    cases hf : f k v s <;> cases hg : g k v s' <;> rw [hf, hg] at h1 <;>
      simp only [Store.Rel] at h1
    · exact ih _ _ _ h1
    · obtain ⟨h2, rfl⟩ := h1
      exact ih _ _ _ h2
    · obtain ⟨h2, rfl⟩ := h1
      exact ⟨h2, rfl⟩


/-! ## Unit-dependent ratios -/

theorem carbRatio_round_trip {τ : Type} (E : Env τ) (start : TimeOfDay) (r : ℤ)
    (u : CarbUnitsType) (d : ℚ) (r0 : CarbRatio)
    (hu : (u = .Grams ∧ d = 10) ∨ (u = .Exchanges ∧ d = 1000))
    (h0 : 0 ≤ r) (hr : r < 2 ^ 50) :
    CarbRatio.UnmarshalJSON E r0 (CarbRatio.MarshalJSON E ⟨start, r, u⟩).toOption =
      (⟨(E.parseTimeOfDay (E.timeOfDayString start)).1, r, u⟩,
        (E.parseTimeOfDay (E.timeOfDayString start)).2) := by
  have hd : 1 ≤ d ∧ d ≤ 1000 := by
    rcases hu with ⟨_, h⟩ | ⟨_, h⟩ <;> subst h <;> norm_num
  obtain ⟨b, hs, hp, hup⟩ := scale_round_trip E.arch d r hd.1 hd.2 h0 hr
  have k1 : keyIs "Start" "Start" = true := by decide
  have k2 : keyIs "Start" "Ratio" = false := by decide
  have k3 : keyIs "Ratio" "Ratio" = true := by decide
  have k4 : keyIs "Start" "Units" = false := by decide
  have k5 : keyIs "Ratio" "Units" = false := by decide
  have k6 : keyIs "Units" "Units" = true := by decide
  have q1 : quote "Grams" = "\"Grams\"" := by decide
  have q2 : quote "Exchanges" = "\"Exchanges\"" := by decide
  have q3 : ("\"Exchanges\"" : String) ≠ "\"Grams\"" := by decide
  rcases hu with ⟨rfl, rfl⟩ | ⟨rfl, rfl⟩
  · simp [CarbRatio.MarshalJSON, CarbRatio.UnmarshalJSON, hs, marshalFloat64, Except.toOption,
      unmarshalStruct, decodeMembers, CarbRatio.storeMember, k1, k2, k3, k4, k5, k6,
      storeString, storeFloat64, hp, CarbUnitsType.store, CarbUnitsType.UnmarshalJSON,
      CarbUnitsType.name, q1, hup]
  · simp [CarbRatio.MarshalJSON, CarbRatio.UnmarshalJSON, hs, marshalFloat64, Except.toOption,
      unmarshalStruct, decodeMembers, CarbRatio.storeMember, k1, k2, k3, k4, k5, k6,
      storeString, storeFloat64, hp, CarbUnitsType.store, CarbUnitsType.UnmarshalJSON,
      CarbUnitsType.name, q2, q3, hup]

theorem bolusWizard_round_trip {ρ : Type} (A : Arch) (P : PassThrough ρ) (r : ℤ)
    (u : CarbUnitsType) (d : ℚ) (rest : ρ) (r0 : BolusWizardRecord ρ)
    (ms : List (String × Value))
    (hu : (u = .Grams ∧ d = 10) ∨ (u = .Exchanges ∧ d = 1000))
    (h0 : 0 ≤ r) (hr : r < 2 ^ 50)
    (hms : passMembers P ["CarbRatio", "CarbUnits"] rest = .ok ms)
    (hkeys : ∀ m ∈ ms, keyIs "CarbRatio" m.1 = false ∧ keyIs "CarbUnits" m.1 = false)
    (hdec : (decodeMembers P.store ms r0.rest none).2 = none) :
    BolusWizardRecord.UnmarshalJSON A P r0
        (BolusWizardRecord.MarshalJSON P ⟨u, r, rest⟩).toOption =
      (⟨u, r, (decodeMembers P.store ms r0.rest none).1⟩, none) := by
  have hd : 1 ≤ d ∧ d ≤ 1000 := by
    rcases hu with ⟨_, h⟩ | ⟨_, h⟩ <;> subst h <;> norm_num
  obtain ⟨b, hs, hp, hup⟩ := scale_round_trip A d r hd.1 hd.2 h0 hr
  have k1 : keyIs "CarbRatio" "CarbRatio" = true := by decide
  have k2 : keyIs "CarbRatio" "CarbUnits" = false := by decide
  have k3 : keyIs "CarbUnits" "CarbUnits" = true := by decide
  have q1 : quote "Grams" = "\"Grams\"" := by decide
  have q2 : quote "Exchanges" = "\"Exchanges\"" := by decide
  have q3 : ("\"Exchanges\"" : String) ≠ "\"Grams\"" := by decide
  rcases hu with ⟨rfl, rfl⟩ | ⟨rfl, rfl⟩
  · simp [BolusWizardRecord.MarshalJSON, BolusWizardRecord.UnmarshalJSON, hs, marshalFloat64,
      Except.toOption, hms, unmarshalStruct, decodeMembers, BolusWizardRecord.storeMember,
      k1, k2, k3, storeFloat64, hp, CarbUnitsType.store, CarbUnitsType.UnmarshalJSON,
      CarbUnitsType.name, q1, bolusWizard_decode_rest P ms _ _ hkeys, hdec, hup]
  · simp [BolusWizardRecord.MarshalJSON, BolusWizardRecord.UnmarshalJSON, hs, marshalFloat64,
      Except.toOption, hms, unmarshalStruct, decodeMembers, BolusWizardRecord.storeMember,
      k1, k2, k3, storeFloat64, hp, CarbUnitsType.store, CarbUnitsType.UnmarshalJSON,
      CarbUnitsType.name, q2, q3, bolusWizard_decode_rest P ms _ _ hkeys, hdec, hup]

/-- C2 (amended): for every unit `u` in {Grams, Exchanges} and every ratio `r` with
`0 ≤ r < 2^50`, encoding a `CarbRatio` (or a `BolusWizardRecord`) that holds ratio `r` and
units `u` and decoding the result yields a record with ratio `r` and units `u`, whatever the
destination held. For the `BolusWizardRecord` the pass-through members are taken to be decoded
without error and to select neither override field. -/
theorem unit_round_trip {τ ρ : Type} (E : Env τ) (P : PassThrough ρ) (u : CarbUnitsType)
    (r : ℤ) (start : TimeOfDay) (rest : ρ) (c0 : CarbRatio) (b0 : BolusWizardRecord ρ)
    (ms : List (String × Value))
    (hu : u = .Grams ∨ u = .Exchanges) (h0 : 0 ≤ r) (hr : r < 2 ^ 50)
    (hms : passMembers P ["CarbRatio", "CarbUnits"] rest = .ok ms)
    (hkeys : ∀ m ∈ ms, keyIs "CarbRatio" m.1 = false ∧ keyIs "CarbUnits" m.1 = false)
    (hdec : (decodeMembers P.store ms b0.rest none).2 = none) :
    (CarbRatio.UnmarshalJSON E c0
        (CarbRatio.MarshalJSON E ⟨start, r, u⟩).toOption).1.Ratio = r ∧
    (CarbRatio.UnmarshalJSON E c0
        (CarbRatio.MarshalJSON E ⟨start, r, u⟩).toOption).1.Units = u ∧
    BolusWizardRecord.UnmarshalJSON E.arch P b0
        (BolusWizardRecord.MarshalJSON P ⟨u, r, rest⟩).toOption =
      (⟨u, r, (decodeMembers P.store ms b0.rest none).1⟩, none) := by
  have hu' : ∃ d : ℚ, (u = .Grams ∧ d = 10) ∨ (u = .Exchanges ∧ d = 1000) := by
    rcases hu with h | h
    · exact ⟨10, Or.inl ⟨h, rfl⟩⟩
    · exact ⟨1000, Or.inr ⟨h, rfl⟩⟩
  obtain ⟨d, hd⟩ := hu'
  refine ⟨?_, ?_, ?_⟩
  · rw [carbRatio_round_trip E start r u d c0 hd h0 hr]
  · rw [carbRatio_round_trip E start r u d c0 hd h0 hr]
  · exact bolusWizard_round_trip E.arch P r u d rest b0 ms hd h0 hr hms hkeys hdec

/-- C2, witness: ratio 125 under `Grams`, start 08:30, no pass-through fields. -/
theorem unit_round_trip_witness :
    (CarbRatio.UnmarshalJSON exampleEnv ⟨0, 0, .Exchanges⟩
      (CarbRatio.MarshalJSON exampleEnv ⟨510, 125, .Grams⟩).toOption).1.Ratio = 125 :=
  (unit_round_trip exampleEnv noRest .Grams 125 510 () ⟨0, 0, .Exchanges⟩
    ⟨.Exchanges, 0, ()⟩ [] (Or.inl rfl) (by norm_num) (by norm_num) (by decide) (by simp)
    (by decide)).1

/-- C2, counterexample: the ratio `-1` under `Grams` is encoded as `-0.1` and decoded as 0
(`10 * -0.1 + 0.5 = -0.5` is truncated towards zero), in both record shapes; and the ratio
`2^53 + 1` comes back as `2^53`. -/
theorem unit_round_trip_fails :
    CarbRatio.MarshalJSON exampleEnv ⟨0, -1, .Grams⟩
      = .ok (.obj [("Start", .str "00:00"), ("Ratio", .num (-1 / 10)),
          ("Units", .str "Grams")]) ∧
    CarbRatio.UnmarshalJSON exampleEnv ⟨0, -1, .Grams⟩
        (CarbRatio.MarshalJSON exampleEnv ⟨0, -1, .Grams⟩).toOption
      = (⟨0, 0, .Grams⟩, none) ∧
    BolusWizardRecord.UnmarshalJSON arm64 noRest ⟨.Grams, -1, ()⟩
        (BolusWizardRecord.MarshalJSON noRest ⟨.Grams, -1, ()⟩).toOption
      = (⟨.Grams, 0, ()⟩, none) ∧
    (CarbRatio.UnmarshalJSON exampleEnv ⟨0, 0, .Exchanges⟩
        (CarbRatio.MarshalJSON exampleEnv ⟨0, 9007199254740993, .Exchanges⟩).toOption).1.Ratio
      = 9007199254740992 := by
  decide!


theorem scaleUp_of_away (A : Arch) (d x : ℚ) (hd1 : 1 ≤ d) (hd : d ≤ 1000) (hx0 : 0 ≤ x)
    (h : AwayFromInteger d x) :
    ∃ b, roundF64 x = .fin b ∧ scaleUp A d (.fin b) = ⌊d * x + 1 / 2⌋ := by
  have hd0 : 0 < d := by linarith
  obtain ⟨hlo, hhi⟩ := h
  have hW0 : 0 ≤ d * x := mul_nonneg hd0.le hx0
  have h51 : (0:ℚ) < 2 ^ 51 := by positivity
  have h3 := (div_le_iff₀ h51).mp (show (d * x + 1) / 2 ^ 51 ≤ 1 / 2 by linarith)
  have hx : |x| ≤ 2 ^ 1023 := by
    rw [abs_of_nonneg hx0]
    have h1 : (2:ℚ) ^ 50 ≤ 2 ^ 1023 := pow_le_pow_right₀ (by norm_num) (by norm_num)
    have h2 : x ≤ d * x := by nlinarith
    norm_num at h3 h1 ⊢
    linarith
  obtain ⟨b, hb⟩ := roundF64_fin x hx
  exact ⟨b, hb, scaleUp_window A d x b _ hd0 hd hx0 hb hlo hhi⟩

/-- C3 (amended): for every decimal `x ≥ 0` for which `1000*x + 0.5` is not within
`(1000*x + 1) / 2^51` of an integer, the decode of `Insulin` and of `Voltage` returns
`floor(1000*x + 0.5)`, and so does the ratio decode under `Exchanges`; under `Grams` the ratio
decode returns `floor(10*x + 0.5)` when `10*x + 0.5` is not within `(10*x + 1) / 2^51` of an
integer. -/
theorem decode_round_half_up {ρ : Type} (A : Arch) (P : PassThrough ρ) (x : ℚ) (r0 : ℤ)
    (rest : ρ) (hx0 : 0 ≤ x) :
    (AwayFromInteger 1000 x →
      Insulin.UnmarshalJSON A r0 (some (.atom (.num x))) = (⌊1000 * x + 1 / 2⌋, none) ∧
      Voltage.UnmarshalJSON A r0 (some (.atom (.num x))) = (⌊1000 * x + 1 / 2⌋, none) ∧
      BolusWizardRecord.UnmarshalJSON A P ⟨.Exchanges, r0, rest⟩
          (some (.obj [("CarbRatio", .num x)]))
        = (⟨.Exchanges, ⌊1000 * x + 1 / 2⌋, rest⟩, none)) ∧
    (AwayFromInteger 10 x →
      BolusWizardRecord.UnmarshalJSON A P ⟨.Grams, r0, rest⟩
          (some (.obj [("CarbRatio", .num x)]))
        = (⟨.Grams, ⌊10 * x + 1 / 2⌋, rest⟩, none)) := by
  have hk : keyIs "CarbRatio" "CarbRatio" = true := by decide
  constructor
  · intro h
    obtain ⟨b, hb, hu⟩ := scaleUp_of_away A 1000 x (by norm_num) (by norm_num) hx0 h
    refine ⟨?_, ?_, ?_⟩
    · simp [Insulin.UnmarshalJSON, unmarshalFloat64, hb, hu]
    · simp [Voltage.UnmarshalJSON, unmarshalFloat64, hb, hu]
    · simp [BolusWizardRecord.UnmarshalJSON, unmarshalStruct, decodeMembers,
        BolusWizardRecord.storeMember, hk, storeFloat64, hb, hu]
  · intro h
    obtain ⟨b, hb, hu⟩ := scaleUp_of_away A 10 x (by norm_num) (by norm_num) hx0 h
    simp [BolusWizardRecord.UnmarshalJSON, unmarshalStruct, decodeMembers,
      BolusWizardRecord.storeMember, hk, storeFloat64, hb, hu]

/-- C3, witness: the text `2.5` decodes to `floor(2500.5)` as `Insulin` on amd64. -/
theorem decode_round_half_up_witness :
    Insulin.UnmarshalJSON amd64 7 (some (.atom (.num (5 / 2))))
      = (⌊(1000:ℚ) * (5 / 2) + 1 / 2⌋, none) :=
  ((decode_round_half_up amd64 noRest (5 / 2) 7 () (by norm_num)).1 (by decide!)).1

/-- C3, counterexample: `0.5005` is exactly halfway (`1000*x + 0.5 = 501`) and decodes to 500,
with or without a fused multiply-add; and the negative `-0.001` decodes to 0, not to
`floor(-0.5) = -1`, because the conversion truncates towards zero. -/
theorem decode_round_half_up_fails :
    Insulin.UnmarshalJSON amd64 0 (some (.atom (.num (1001 / 2000)))) = (500, none) ∧
    Insulin.UnmarshalJSON arm64 0 (some (.atom (.num (1001 / 2000)))) = (500, none) ∧
    ⌊(1000:ℚ) * (1001 / 2000) + 1 / 2⌋ = 501 ∧
    Insulin.UnmarshalJSON amd64 0 (some (.atom (.num (-1 / 1000)))) = (0, none) ∧
    ⌊(1000:ℚ) * (-1 / 1000) + 1 / 2⌋ = -1 := by
  decide!


/-! ## The unit switch of `CarbRatio` and `BolusWizardRecord` -/

theorem unmarshalStruct_inv {σ : Type} (store : String → Value → σ → Store σ)
    (p : String → Prop) (I : σ → Prop)
    (hstep : ∀ k v s, p k → I s → I (store k v s).state)
    (data : Option Json) (s : σ)
    (hp : ∀ ms, data = some (.obj ms) → ∀ m ∈ ms, p m.1) (hI : I s) :
    I (unmarshalStruct store data s).1 := by
  unfold unmarshalStruct
  split
  · exact hI
  · exact hI
  · exact hI
  · rename_i ms
    exact decodeMembers_inv store p I hstep ms s none (hp ms rfl) hI

theorem unmarshalStruct_rel {σ σ' : Type} (f : String → Value → σ → Store σ)
    (g : String → Value → σ' → Store σ') (R : σ → σ' → Prop)
    (hstep : ∀ k v s s', R s s' → Store.Rel R (f k v s) (g k v s'))
    (data : Option Json) (s : σ) (s' : σ') (h : R s s') :
    R (unmarshalStruct f data s).1 (unmarshalStruct g data s').1 ∧
      (unmarshalStruct f data s).2 = (unmarshalStruct g data s').2 := by
  unfold unmarshalStruct
  split
  · exact ⟨h, rfl⟩
  · exact ⟨h, rfl⟩
  · exact ⟨h, rfl⟩
  · rename_i ms
    exact decodeMembers_rel f g R hstep ms s s' none h

theorem not_mentioned (name : String) (data : Option Json)
    (h : ∀ j, data = some j → j.mentions name = false) :
    ∀ ms, data = some (.obj ms) → ∀ m ∈ ms, keyIs name m.1 = false := by
  intro ms hd m hm
  have := h _ hd
  simp only [Json.mentions, List.any_eq_false] at this
  simpa using this m hm

theorem storeString_state {σ : Type} (I : σ → Prop) (v : Value) (s : σ) (set : String → σ)
    (hs : I s) (hset : ∀ x, I (set x)) : I (storeString v s set).state := by
  cases v <;> simp [storeString, Store.state, hs, hset]

theorem storeFloat64_state {σ : Type} (I : σ → Prop) (v : Value) (s : σ) (set : F64 → σ)
    (hs : I s) (hset : ∀ x, I (set x)) : I (storeFloat64 v s set).state := by
  cases v with
  | num q =>
    simp only [storeFloat64]
    cases roundF64 q <;> simp [Store.state, hs, hset]
  | _ => simp [storeFloat64, Store.state, hs]

theorem storeRest_state {σ ρ : Type} (P : PassThrough ρ) (I : σ → Prop) (k : String)
    (v : Value) (rest : ρ) (set : ρ → σ) (hset : ∀ x, I (set x)) :
    I (storeRest P k v rest set).state := by
  unfold storeRest
  cases P.store k v rest <;> simp [Store.state, hset]

theorem storeString_rel {σ σ' : Type} (R : σ → σ' → Prop) (v : Value) (s : σ) (s' : σ')
    (set : String → σ) (set' : String → σ') (hs : R s s') (hset : ∀ x, R (set x) (set' x)) :
    Store.Rel R (storeString v s set) (storeString v s' set') := by
  cases v <;> simp [storeString, Store.Rel, hs, hset]

theorem storeFloat64_rel {σ σ' : Type} (R : σ → σ' → Prop) (v : Value) (s : σ) (s' : σ')
    (set : F64 → σ) (set' : F64 → σ') (hs : R s s') (hset : ∀ x, R (set x) (set' x)) :
    Store.Rel R (storeFloat64 v s set) (storeFloat64 v s' set') := by
  cases v with
  | num q =>
    simp only [storeFloat64]
    cases roundF64 q <;> simp [Store.Rel, hs, hset]
  | _ => simp [storeFloat64, Store.Rel, hs]

/-- The call `json.Unmarshal` never writes the `Start` or the `Ratio` of the destination of a
`CarbRatio`: the wrapper hides them. -/
theorem carbRatio_store_keeps (k : String) (v : Value) (s : CarbRatioRep) (t c : ℤ)
    (h : s.Original.Start = t ∧ s.Original.Ratio = c) :
    (CarbRatio.storeMember k v s).state.Original.Start = t ∧
      (CarbRatio.storeMember k v s).state.Original.Ratio = c := by
  unfold CarbRatio.storeMember
  split_ifs
  · refine storeString_state (fun s => s.Original.Start = t ∧ s.Original.Ratio = c) v s _ h ?_
    intro x; exact h
  · refine storeFloat64_state (fun s => s.Original.Start = t ∧ s.Original.Ratio = c) v s _ h ?_
    intro x; exact h
  · split <;> simpa [Store.state] using h
  · exact h

/-- A member that does not select `Units` leaves the `Units` of the destination alone. -/
theorem carbRatio_store_keeps_units (k : String) (v : Value) (s : CarbRatioRep)
    (u : CarbUnitsType) (hk : keyIs "Units" k = false) (h : s.Original.Units = u) :
    (CarbRatio.storeMember k v s).state.Original.Units = u := by
  unfold CarbRatio.storeMember
  split_ifs with h1 h2 h3
  · refine storeString_state (fun s => s.Original.Units = u) v s _ h ?_
    intro x; exact h
  · refine storeFloat64_state (fun s => s.Original.Units = u) v s _ h ?_
    intro x; exact h
  · rw [hk] at h3; exact absurd h3 (by simp)
  · exact h

/-- What `json.Unmarshal` stores into the wrapper of a `CarbRatio` depends on the destination
only through its `Units`. -/
theorem carbRatio_store_rel (k : String) (v : Value) (s s' : CarbRatioRep)
    (h : s.Start = s'.Start ∧ s.Ratio = s'.Ratio ∧ s.Original.Units = s'.Original.Units) :
    Store.Rel (fun a b : CarbRatioRep =>
        a.Start = b.Start ∧ a.Ratio = b.Ratio ∧ a.Original.Units = b.Original.Units)
      (CarbRatio.storeMember k v s) (CarbRatio.storeMember k v s') := by
  unfold CarbRatio.storeMember
  split_ifs
  · refine storeString_rel _ v s s' _ _ h ?_
    intro x; exact ⟨rfl, h.2.1, h.2.2⟩
  · refine storeFloat64_rel _ v s s' _ _ h ?_
    intro x; exact ⟨h.1, rfl, h.2.2⟩
  · rw [h.2.2]
    split
    · simp [Store.Rel, h.1, h.2.1]
    · simp [Store.Rel, h.1, h.2.1, h.2.2]
  · exact h

/-- The call `json.Unmarshal` never writes the `CarbRatio` of the destination of a
`BolusWizardRecord`: the wrapper hides it. -/
theorem bolusWizard_store_keeps {ρ : Type} (P : PassThrough ρ) (k : String) (v : Value)
    (s : BolusWizardRep ρ) (c : ℤ) (h : s.Original.CarbRatio = c) :
    (BolusWizardRecord.storeMember P k v s).state.Original.CarbRatio = c := by
  unfold BolusWizardRecord.storeMember
  split_ifs
  · refine storeFloat64_state (fun s => s.Original.CarbRatio = c) v s _ h ?_
    intro x; exact h
  · split <;> simpa [Store.state] using h
  · refine storeRest_state P (fun s : BolusWizardRep ρ => s.Original.CarbRatio = c) k v _ _ ?_
    intro x; exact h

/-- A member that does not select `CarbUnits` leaves the `CarbUnits` of the destination
alone. -/
theorem bolusWizard_store_keeps_units {ρ : Type} (P : PassThrough ρ) (k : String)
    (v : Value) (s : BolusWizardRep ρ) (u : CarbUnitsType)
    (hk : keyIs "CarbUnits" k = false) (h : s.Original.CarbUnits = u) :
    (BolusWizardRecord.storeMember P k v s).state.Original.CarbUnits = u := by
  unfold BolusWizardRecord.storeMember
  split_ifs with h1 h2
  · refine storeFloat64_state (fun s => s.Original.CarbUnits = u) v s _ h ?_
    intro x; exact h
  · rw [hk] at h2; exact absurd h2 (by simp)
  · refine storeRest_state P (fun s : BolusWizardRep ρ => s.Original.CarbUnits = u) k v _ _ ?_
    intro x; exact h

/-- What `json.Unmarshal` stores into the wrapper of a `BolusWizardRecord` does not depend on
the `CarbRatio` the destination holds. -/
theorem bolusWizard_store_rel {ρ : Type} (P : PassThrough ρ) (k : String) (v : Value)
    (s s' : BolusWizardRep ρ)
    (h : s.CarbRatio = s'.CarbRatio ∧ s.Original.CarbUnits = s'.Original.CarbUnits ∧
      s.Original.rest = s'.Original.rest) :
    Store.Rel (fun a b : BolusWizardRep ρ =>
        a.CarbRatio = b.CarbRatio ∧ a.Original.CarbUnits = b.Original.CarbUnits ∧
          a.Original.rest = b.Original.rest)
      (BolusWizardRecord.storeMember P k v s) (BolusWizardRecord.storeMember P k v s') := by
  unfold BolusWizardRecord.storeMember
  split_ifs
  · refine storeFloat64_rel _ v s s' _ _ h ?_
    intro x; exact ⟨rfl, h.2.1, h.2.2⟩
  · rw [h.2.1]
    split
    · simp [Store.Rel, h.1, h.2.2]
    · simp [Store.Rel, h.1, h.2.1, h.2.2]
  · unfold storeRest
    rw [h.2.2]
    cases P.store k v s'.Original.rest <;> simp [Store.Rel, h.1, h.2.1]

theorem marshalFloat64_ne_errorf (x : F64) (msg : String) :
    marshalFloat64 x ≠ .error (.errorf msg) := by
  cases x <;> simp [marshalFloat64, Error.unsupportedValue]

/-- C4 (amended): an unrecognized unit is an error in both directions. For `CarbRatio` and for
`BolusWizardRecord`, encode returns the unknown-carb-unit error (and no output) if and only if
the record's units value is not `Grams` or `Exchanges`; and decode returns the same kind of
error, and leaves the ratio as it was (no default divisor), whenever `json.Unmarshal` has
decoded the text without error and the units value the record then holds is not `Grams` or
`Exchanges`. -/
theorem unknown_unit_error {τ ρ : Type} (E : Env τ) (P : PassThrough ρ) (c : CarbRatio)
    (b : BolusWizardRecord ρ) (data : Option Json) :
    ((∃ code : ℕ, CarbRatio.MarshalJSON E c
        = .error (.errorf ("unknown carb unit " ++ toString code))) ↔
      (c.Units ≠ .Grams ∧ c.Units ≠ .Exchanges)) ∧
    ((∃ code : ℕ, BolusWizardRecord.MarshalJSON P b
        = .error (.errorf ("unknown carb unit " ++ toString code))) ↔
      (b.CarbUnits ≠ .Grams ∧ b.CarbUnits ≠ .Exchanges)) ∧
    (∀ (rep : CarbRatioRep) (code : ℕ),
      unmarshalStruct CarbRatio.storeMember data ⟨"", .fin 0, c⟩ = (rep, none) →
      rep.Original.Units = .other code →
      (CarbRatio.UnmarshalJSON E c data).2
          = some (.errorf ("unknown carb unit " ++ toString code)) ∧
        (CarbRatio.UnmarshalJSON E c data).1.Ratio = c.Ratio ∧
        (CarbRatio.UnmarshalJSON E c data).1.Units = .other code) ∧
    (∀ (rep : BolusWizardRep ρ) (code : ℕ),
      unmarshalStruct (BolusWizardRecord.storeMember P) data ⟨.fin 0, b⟩ = (rep, none) →
      rep.Original.CarbUnits = .other code →
      (BolusWizardRecord.UnmarshalJSON E.arch P b data).2
          = some (.errorf ("unknown carb unit " ++ toString code)) ∧
        (BolusWizardRecord.UnmarshalJSON E.arch P b data).1.CarbRatio = b.CarbRatio ∧
        (BolusWizardRecord.UnmarshalJSON E.arch P b data).1.CarbUnits = .other code) := by
  refine ⟨?_, ?_, ?_, ?_⟩
  · obtain ⟨start, ratio, units⟩ := c
    cases units with
    | Grams =>
      simp only [CarbRatio.MarshalJSON, ne_eq, not_true_eq_false, false_and, iff_false,
        not_exists]
      intro code
      cases h : marshalFloat64 (scaleDown ratio 10) with
      | ok x => simp
      | error e =>
        have := marshalFloat64_ne_errorf (scaleDown ratio 10)
          ("unknown carb unit " ++ toString code)
        rw [h] at this
        simpa using this
    | Exchanges =>
      simp only [CarbRatio.MarshalJSON, ne_eq, not_true_eq_false, and_false, iff_false,
        not_exists]
      intro code
      cases h : marshalFloat64 (scaleDown ratio 1000) with
      | ok x => simp
      | error e =>
        have := marshalFloat64_ne_errorf (scaleDown ratio 1000)
          ("unknown carb unit " ++ toString code)
        rw [h] at this
        simpa using this
    | other n =>
      simp only [CarbRatio.MarshalJSON, ne_eq, reduceCtorEq, not_false_eq_true, and_self,
        iff_true]
      exact ⟨n, rfl⟩
  · obtain ⟨units, ratio, rest⟩ := b
    cases units with
    | Grams =>
      simp only [BolusWizardRecord.MarshalJSON, ne_eq, not_true_eq_false, false_and, iff_false,
        not_exists]
      intro code
      cases h : marshalFloat64 (scaleDown ratio 10) with
      | ok x =>
        simp only [passMembers]
        cases P.members rest <;> simp
      | error e =>
        have := marshalFloat64_ne_errorf (scaleDown ratio 10)
          ("unknown carb unit " ++ toString code)
        rw [h] at this
        simpa using this
    | Exchanges =>
      simp only [BolusWizardRecord.MarshalJSON, ne_eq, not_true_eq_false, and_false, iff_false,
        not_exists]
      intro code
      cases h : marshalFloat64 (scaleDown ratio 1000) with
      | ok x =>
        simp only [passMembers]
        cases P.members rest <;> simp
      | error e =>
        have := marshalFloat64_ne_errorf (scaleDown ratio 1000)
          ("unknown carb unit " ++ toString code)
        rw [h] at this
        simpa using this
    | other n =>
      simp only [BolusWizardRecord.MarshalJSON, ne_eq, reduceCtorEq, not_false_eq_true,
        and_self, iff_true]
      exact ⟨n, rfl⟩
  · intro rep code hrep hunits
    have hkeep := unmarshalStruct_inv CarbRatio.storeMember (fun _ => True)
      (fun s => s.Original.Start = c.Start ∧ s.Original.Ratio = c.Ratio)
      (fun k v s _ h => carbRatio_store_keeps k v s _ _ h) data ⟨"", .fin 0, c⟩
      (fun _ _ _ _ => trivial) ⟨rfl, rfl⟩
    rw [hrep] at hkeep
    simp only [CarbRatio.UnmarshalJSON, hrep, hunits]
    simpa using hkeep.2
  · intro rep code hrep hunits
    have hkeep := unmarshalStruct_inv (BolusWizardRecord.storeMember P) (fun _ => True)
      (fun s => s.Original.CarbRatio = b.CarbRatio)
      (fun k v s _ h => bolusWizard_store_keeps P k v s _ h) data ⟨.fin 0, b⟩
      (fun _ _ _ _ => trivial) rfl
    rw [hrep] at hkeep
    simp only [BolusWizardRecord.UnmarshalJSON, hrep, hunits]
    simpa [hunits] using hkeep


/-- C4, counterexample: a destination whose units value is 7 (neither `Grams` nor
`Exchanges`). Decoding a text that is not well-formed returns the error of `encoding/json`,
and decoding a text that carries `"Units":"Grams"` returns no error at all (the units are
read from the text), in both record shapes; neither is the unknown-carb-unit error. -/
theorem unknown_unit_error_fails :
    CarbRatio.UnmarshalJSON exampleEnv ⟨0, 0, .other 7⟩ none
      = (⟨0, 0, .other 7⟩, some Error.malformed) ∧
    CarbRatio.UnmarshalJSON exampleEnv ⟨0, 0, .other 7⟩
        (some (.obj [("Start", .str "00:00"), ("Ratio", .num (25 / 2)),
          ("Units", .str "Grams")]))
      = (⟨0, 125, .Grams⟩, none) ∧
    BolusWizardRecord.UnmarshalJSON amd64 noRest ⟨.other 7, 0, ()⟩
        (some (.obj [("CarbRatio", .num (25 / 2)), ("CarbUnits", .str "Grams")]))
      = (⟨.Grams, 125, ()⟩, none) ∧
    Error.malformed ≠ .errorf "unknown carb unit 7" := by
  decide!

/-- Example for C4: with no units in the text, the destination's unit value 7 makes the decode
fail with the unknown-carb-unit error and the ratio stays as it was. -/
theorem destination_unit_rejected :
    CarbRatio.UnmarshalJSON exampleEnv ⟨0, 33, .other 7⟩
        (some (.obj [("Start", .str "00:00"), ("Ratio", .num (25 / 2))]))
      = (⟨0, 33, .other 7⟩, some (.errorf "unknown carb unit 7")) := by
  decide!

/-- C6, the code at the failing input: when `parseTimeOfDay` rejects the `Start` text with the
error `err`, `CarbRatio.UnmarshalJSON` goes on to the unit switch: under `Grams` it still
decodes and writes the `Ratio` (and then returns `err`), and under an unrecognized unit it
returns the unknown-carb-unit error in place of `err`. -/
theorem carbRatio_decode_goes_on {τ : Type} (E : Env τ) (c : CarbRatio) (s : String)
    (x b : ℚ) (t : TimeOfDay) (err : Error)
    (hparse : E.parseTimeOfDay s = (t, some err)) (hx : roundF64 x = .fin b) :
    (c.Units = .Grams →
      CarbRatio.UnmarshalJSON E c (some (.obj [("Start", .str s), ("Ratio", .num x)]))
        = (⟨t, scaleUp E.arch 10 (.fin b), .Grams⟩, some err)) ∧
    (∀ code : ℕ, c.Units = .other code →
      CarbRatio.UnmarshalJSON E c (some (.obj [("Start", .str s), ("Ratio", .num x)]))
        = (⟨t, c.Ratio, .other code⟩,
            some (.errorf ("unknown carb unit " ++ toString code)))) := by
  have k1 : keyIs "Start" "Start" = true := by decide
  have k2 : keyIs "Start" "Ratio" = false := by decide
  have k3 : keyIs "Ratio" "Ratio" = true := by decide
  obtain ⟨start, ratio, units⟩ := c
  constructor
  · intro hu
    simp only at hu
    subst hu
    simp [CarbRatio.UnmarshalJSON, unmarshalStruct, decodeMembers, CarbRatio.storeMember,
      k1, k2, k3, storeString, storeFloat64, hx, hparse]
  · intro code hu
    simp only at hu
    subst hu
    simp [CarbRatio.UnmarshalJSON, unmarshalStruct, decodeMembers, CarbRatio.storeMember,
      k1, k2, k3, storeString, storeFloat64, hx, hparse]

/-- C6, the failing input in the example environment: the text
`{"Start":"bad","Ratio":12.5}` into a destination with units `Grams` sets the ratio to 125
although `Start` was malformed. -/
theorem carbRatio_decode_goes_on_witness :
    CarbRatio.UnmarshalJSON exampleEnv ⟨0, 0, .Grams⟩
        (some (.obj [("Start", .str "bad"), ("Ratio", .num (25 / 2))]))
      = (⟨0, 125, .Grams⟩, some (.lib "invalid time of day")) := by
  rw [(carbRatio_decode_goes_on exampleEnv ⟨0, 0, .Grams⟩ "bad" (25 / 2) (25 / 2) 0
    (.lib "invalid time of day") (by decide) (by decide!)).1 rfl]
  decide!

/-- C7, counterexample: two texts that differ only in their `Units` member, decoded into
destinations that hold the same units (`Grams`), give the ratios 125 and 12500: the divisor
follows the units of the text. The same for `CarbUnits` of a `BolusWizardRecord`. -/
theorem units_taken_from_text :
    CarbRatio.UnmarshalJSON exampleEnv ⟨0, 0, .Grams⟩
        (some (.obj [("Start", .str "00:00"), ("Ratio", .num (25 / 2)),
          ("Units", .str "Grams")]))
      = (⟨0, 125, .Grams⟩, none) ∧
    CarbRatio.UnmarshalJSON exampleEnv ⟨0, 0, .Grams⟩
        (some (.obj [("Start", .str "00:00"), ("Ratio", .num (25 / 2)),
          ("Units", .str "Exchanges")]))
      = (⟨0, 12500, .Exchanges⟩, none) ∧
    BolusWizardRecord.UnmarshalJSON amd64 noRest ⟨.Grams, 0, ()⟩
        (some (.obj [("CarbRatio", .num (25 / 2)), ("CarbUnits", .str "Grams")]))
      = (⟨.Grams, 125, ()⟩, none) ∧
    BolusWizardRecord.UnmarshalJSON amd64 noRest ⟨.Grams, 0, ()⟩
        (some (.obj [("CarbRatio", .num (25 / 2)), ("CarbUnits", .str "Exchanges")]))
      = (⟨.Exchanges, 12500, ()⟩, none) := by
  decide!


/-- C7 (amended): decode takes the units from the text when the text has a units member,
and from the destination otherwise. For a text with no `Units` member (`CarbRatio`), or no
`CarbUnits` member (`BolusWizardRecord`), the record keeps the units value the destination
held before the call, and two decodes of that text into destinations that hold the same units
(and, for the `BolusWizardRecord`, the same pass-through fields) return the same error and,
when they succeed, reconstruct the same ratio. -/
theorem units_from_destination {τ ρ : Type} (E : Env τ) (P : PassThrough ρ)
    (text text' : Option Json) (c c' : CarbRatio) (b b' : BolusWizardRecord ρ)
    (hU : ∀ j, text = some j → j.mentions "Units" = false)
    (hCU : ∀ j, text' = some j → j.mentions "CarbUnits" = false)
    (hc : c.Units = c'.Units) (hb : b.CarbUnits = b'.CarbUnits) (hrest : b.rest = b'.rest) :
    ((CarbRatio.UnmarshalJSON E c text).1.Units = c.Units ∧
      (CarbRatio.UnmarshalJSON E c text).2 = (CarbRatio.UnmarshalJSON E c' text).2 ∧
      ((CarbRatio.UnmarshalJSON E c text).2 = none →
        (CarbRatio.UnmarshalJSON E c text).1.Ratio
          = (CarbRatio.UnmarshalJSON E c' text).1.Ratio)) ∧
    ((BolusWizardRecord.UnmarshalJSON E.arch P b text').1.CarbUnits = b.CarbUnits ∧
      (BolusWizardRecord.UnmarshalJSON E.arch P b text').2
        = (BolusWizardRecord.UnmarshalJSON E.arch P b' text').2 ∧
      ((BolusWizardRecord.UnmarshalJSON E.arch P b text').2 = none →
        (BolusWizardRecord.UnmarshalJSON E.arch P b text').1.CarbRatio
          = (BolusWizardRecord.UnmarshalJSON E.arch P b' text').1.CarbRatio)) := by
  constructor
  · have hrel := unmarshalStruct_rel CarbRatio.storeMember CarbRatio.storeMember
      (fun a b : CarbRatioRep =>
        a.Start = b.Start ∧ a.Ratio = b.Ratio ∧ a.Original.Units = b.Original.Units)
      carbRatio_store_rel text ⟨"", .fin 0, c⟩ ⟨"", .fin 0, c'⟩ ⟨rfl, rfl, hc⟩
    have hinv := unmarshalStruct_inv CarbRatio.storeMember
      (fun k => keyIs "Units" k = false) (fun s => s.Original.Units = c.Units)
      (fun k v s hk h => carbRatio_store_keeps_units k v s _ hk h) text ⟨"", .fin 0, c⟩
      (not_mentioned "Units" text hU) rfl
    unfold CarbRatio.UnmarshalJSON
    rcases h1 : unmarshalStruct CarbRatio.storeMember text ⟨"", .fin 0, c⟩ with ⟨rep, e⟩
    rcases h2 : unmarshalStruct CarbRatio.storeMember text ⟨"", .fin 0, c'⟩ with ⟨rep', e'⟩
    rw [h1, h2] at hrel
    rw [h1] at hinv
    obtain ⟨⟨hs, hr, hu⟩, he⟩ := hrel
    simp only at hs hr hu he hinv
    subst he
    cases e with
    | some err => simp [hinv]
    | none =>
      simp only
      rw [← hs, ← hr]
      rcases hp : E.parseTimeOfDay rep.Start with ⟨t, pe⟩
      rw [← hu, hinv]
      cases hcu : c.Units <;> simp [hinv, hcu]
  · have hrel := unmarshalStruct_rel (BolusWizardRecord.storeMember P)
      (BolusWizardRecord.storeMember P)
      (fun a b : BolusWizardRep ρ =>
        a.CarbRatio = b.CarbRatio ∧ a.Original.CarbUnits = b.Original.CarbUnits ∧
          a.Original.rest = b.Original.rest)
      (bolusWizard_store_rel P) text' ⟨.fin 0, b⟩ ⟨.fin 0, b'⟩ ⟨rfl, hb, hrest⟩
    have hinv := unmarshalStruct_inv (BolusWizardRecord.storeMember P)
      (fun k => keyIs "CarbUnits" k = false) (fun s => s.Original.CarbUnits = b.CarbUnits)
      (fun k v s hk h => bolusWizard_store_keeps_units P k v s _ hk h) text'
      ⟨.fin 0, b⟩ (not_mentioned "CarbUnits" text' hCU) rfl
    unfold BolusWizardRecord.UnmarshalJSON
    rcases h1 : unmarshalStruct (BolusWizardRecord.storeMember P) text' ⟨.fin 0, b⟩
      with ⟨rep, e⟩
    rcases h2 : unmarshalStruct (BolusWizardRecord.storeMember P) text' ⟨.fin 0, b'⟩
      with ⟨rep', e'⟩
    rw [h1, h2] at hrel
    rw [h1] at hinv
    obtain ⟨⟨hr, hu, _⟩, he⟩ := hrel
    simp only at hr hu he hinv
    subst he
    cases e with
    | some err => simp [hinv]
    | none =>
      simp only
      rw [← hr, ← hu, hinv]
      cases hcu : b.CarbUnits <;> simp [hinv, hcu]

/-- C7, witness: the text `{"Start":"00:00","Ratio":12.5}` has no units; decoded into a
destination that holds `Exchanges` the record keeps `Exchanges`. -/
theorem units_from_destination_witness :
    (CarbRatio.UnmarshalJSON exampleEnv ⟨0, 0, .Exchanges⟩
      (some (.obj [("Start", .str "00:00"), ("Ratio", .num (25 / 2))]))).1.Units
      = .Exchanges :=
  (units_from_destination exampleEnv noRest
    (some (.obj [("Start", .str "00:00"), ("Ratio", .num (25 / 2))])) none
    ⟨0, 0, .Exchanges⟩ ⟨7, 7, .Exchanges⟩ ⟨.Grams, 0, ()⟩ ⟨.Grams, 1, ()⟩
    (by intro j h; cases h; decide) (by intro j h; cases h) rfl rfl rfl).1.1


/-! ## Bare ratios and enumerations -/

theorem errorf_ne_unknown_carb_unit (msg : String) (hc : msg.data.head? = some 'c')
    (code : ℕ) : Error.errorf msg ≠ .errorf ("unknown carb unit " ++ toString code) := by
  intro h
  injection h with h
  have h2 := congrArg (fun s : String => s.data.head?) h
  simp [String.data_append, hc] at h2

/-- C5: a bare `Ratio` has no encode and no decode: for every `Ratio` value `MarshalJSON`
returns an error and no bytes, and for every input text `UnmarshalJSON` returns an error and
leaves the destination unchanged; each error is the missing-units error, which is different
from the unknown-carb-unit error of every unit value. -/
theorem ratio_without_units (r : Ratio) (data : Option Json) :
    Ratio.MarshalJSON r = .error (.errorf "cannot marshal carb ratio without units") ∧
    Ratio.UnmarshalJSON r data
      = (r, some (.errorf "cannot unmarshal carb ratio without units")) ∧
    (∀ code : ℕ, Error.errorf "cannot marshal carb ratio without units"
      ≠ .errorf ("unknown carb unit " ++ toString code)) ∧
    (∀ code : ℕ, Error.errorf "cannot unmarshal carb ratio without units"
      ≠ .errorf ("unknown carb unit " ++ toString code)) :=
  ⟨rfl, rfl, errorf_ne_unknown_carb_unit _ (by decide),
    errorf_ne_unknown_carb_unit _ (by decide)⟩

/-- C8: closed-set enum decode. For each of `CarbUnitsType`, `GlucoseUnitsType` and
`TempBasalType`, `UnmarshalJSON` succeeds if and only if the token is exactly (case-sensitively)
one of the two quoted symbols, and then stores the corresponding enumerator; for every other
text it returns an error and leaves the destination unchanged. `"μmol/L"` decodes to
`MMolPerLiter` and `"mg/dl"` is rejected. -/
theorem enum_decode_closed (c : CarbUnitsType) (g : GlucoseUnitsType) (t : TempBasalType)
    (data : String) :
    (((CarbUnitsType.UnmarshalJSON c data).2 = none ↔
        data = "\"Grams\"" ∨ data = "\"Exchanges\"") ∧
      (data = "\"Grams\"" → CarbUnitsType.UnmarshalJSON c data = (.Grams, none)) ∧
      (data = "\"Exchanges\"" → CarbUnitsType.UnmarshalJSON c data = (.Exchanges, none)) ∧
      ((CarbUnitsType.UnmarshalJSON c data).2 ≠ none →
        (CarbUnitsType.UnmarshalJSON c data).1 = c)) ∧
    (((GlucoseUnitsType.UnmarshalJSON g data).2 = none ↔
        data = "\"mg/dL\"" ∨ data = "\"μmol/L\"") ∧
      (data = "\"mg/dL\"" → GlucoseUnitsType.UnmarshalJSON g data = (.MgPerDeciLiter, none)) ∧
      (data = "\"μmol/L\"" → GlucoseUnitsType.UnmarshalJSON g data = (.MMolPerLiter, none)) ∧
      ((GlucoseUnitsType.UnmarshalJSON g data).2 ≠ none →
        (GlucoseUnitsType.UnmarshalJSON g data).1 = g)) ∧
    (((TempBasalType.UnmarshalJSON t data).2 = none ↔
        data = "\"Absolute\"" ∨ data = "\"Percent\"") ∧
      (data = "\"Absolute\"" → TempBasalType.UnmarshalJSON t data = (.Absolute, none)) ∧
      (data = "\"Percent\"" → TempBasalType.UnmarshalJSON t data = (.Percent, none)) ∧
      ((TempBasalType.UnmarshalJSON t data).2 ≠ none →
        (TempBasalType.UnmarshalJSON t data).1 = t)) ∧
    GlucoseUnitsType.UnmarshalJSON g "\"μmol/L\"" = (.MMolPerLiter, none) ∧
    GlucoseUnitsType.UnmarshalJSON g "\"mg/dl\""
      = (g, some (.unknownEnum "GlucoseUnitsType" (some "\"mg/dl\""))) := by
  have e1 : ("\"Exchanges\"" : String) ≠ "\"Grams\"" := by decide
  have e2 : ("\"μmol/L\"" : String) ≠ "\"mg/dL\"" := by decide
  have e3 : ("\"Percent\"" : String) ≠ "\"Absolute\"" := by decide
  have e4 : ("\"mg/dl\"" : String) ≠ "\"mg/dL\"" := by decide
  have e5 : ("\"mg/dl\"" : String) ≠ "\"μmol/L\"" := by decide
  refine ⟨⟨?_, ?_, ?_, ?_⟩, ⟨?_, ?_, ?_, ?_⟩, ⟨?_, ?_, ?_, ?_⟩, ?_, ?_⟩
  · unfold CarbUnitsType.UnmarshalJSON
    split_ifs with h1 h2 <;> simp_all
  · intro h; simp [CarbUnitsType.UnmarshalJSON, h]
  · intro h; simp [CarbUnitsType.UnmarshalJSON, h, e1]
  · unfold CarbUnitsType.UnmarshalJSON
    split_ifs with h1 h2 <;> simp
  · unfold GlucoseUnitsType.UnmarshalJSON
    split_ifs with h1 h2 <;> simp_all
  · intro h; simp [GlucoseUnitsType.UnmarshalJSON, h]
  · intro h; simp [GlucoseUnitsType.UnmarshalJSON, h, e2]
  · unfold GlucoseUnitsType.UnmarshalJSON
    split_ifs with h1 h2 <;> simp
  · unfold TempBasalType.UnmarshalJSON
    split_ifs with h1 h2 <;> simp_all
  · intro h; simp [TempBasalType.UnmarshalJSON, h]
  · intro h; simp [TempBasalType.UnmarshalJSON, h, e3]
  · unfold TempBasalType.UnmarshalJSON
    split_ifs with h1 h2 <;> simp
  · simp [GlucoseUnitsType.UnmarshalJSON, e2]
  · simp [GlucoseUnitsType.UnmarshalJSON, e4, e5]


/-! ## `HistoryRecord`: the optional time stamp and duration -/

/-- The call `json.Unmarshal` never writes the `Time` or the `Duration` of the destination of a
`HistoryRecord`: the wrapper hides them. -/
theorem history_store_keeps {τ ρ : Type} (P : PassThrough ρ) (k : String) (v : Value)
    (s : HistoryRep τ ρ) (t : τ) (d : Option ℤ)
    (h : s.Original.Time = t ∧ s.Original.Duration = d) :
    (HistoryRecord.storeMember P k v s).state.Original.Time = t ∧
      (HistoryRecord.storeMember P k v s).state.Original.Duration = d := by
  unfold HistoryRecord.storeMember
  split_ifs
  · refine storeString_state
      (fun s : HistoryRep τ ρ => s.Original.Time = t ∧ s.Original.Duration = d) v s _ h ?_
    intro x; exact h
  · refine storeString_state
      (fun s : HistoryRep τ ρ => s.Original.Time = t ∧ s.Original.Duration = d) v s _ h ?_
    intro x; exact h
  · refine storeString_state
      (fun s : HistoryRep τ ρ => s.Original.Time = t ∧ s.Original.Duration = d) v s _ h ?_
    intro x; exact h
  · refine storeRest_state P
      (fun s : HistoryRep τ ρ => s.Original.Time = t ∧ s.Original.Duration = d) k v _ _ ?_
    intro x; exact h

/-- A member that does not select `Time` leaves the wrapper's `Time` text alone. -/
theorem history_store_keeps_time {τ ρ : Type} (P : PassThrough ρ) (k : String)
    (v : Value) (s : HistoryRep τ ρ) (x : String) (hk : keyIs "Time" k = false)
    (h : s.Time = x) : (HistoryRecord.storeMember P k v s).state.Time = x := by
  unfold HistoryRecord.storeMember
  split_ifs with h1 h2 h3
  · refine storeString_state (fun s : HistoryRep τ ρ => s.Time = x) v s _ h ?_
    intro y; exact h
  · rw [hk] at h2; exact absurd h2 (by simp)
  · refine storeString_state (fun s : HistoryRep τ ρ => s.Time = x) v s _ h ?_
    intro y; exact h
  · refine storeRest_state P (fun s : HistoryRep τ ρ => s.Time = x) k v _ _ ?_
    intro y; exact h

/-- A member that does not select `Duration` leaves the wrapper's `Duration` text alone. -/
theorem history_store_keeps_duration {τ ρ : Type} (P : PassThrough ρ) (k : String)
    (v : Value) (s : HistoryRep τ ρ) (x : String) (hk : keyIs "Duration" k = false)
    (h : s.Duration = x) : (HistoryRecord.storeMember P k v s).state.Duration = x := by
  unfold HistoryRecord.storeMember
  split_ifs with h1 h2 h3
  · refine storeString_state (fun s : HistoryRep τ ρ => s.Duration = x) v s _ h ?_
    intro y; exact h
  · refine storeString_state (fun s : HistoryRep τ ρ => s.Duration = x) v s _ h ?_
    intro y; exact h
  · rw [hk] at h3; exact absurd h3 (by simp)
  · refine storeRest_state P (fun s : HistoryRep τ ρ => s.Duration = x) k v _ _ ?_
    intro y; exact h

theorem omitEmpty_any (name key s : String) :
    (omitEmpty name s).any (fun m => decide (m.1 = key))
      = (decide (s ≠ "") && decide (name = key)) := by
  unfold omitEmpty
  split_ifs with h <;> simp [h]

theorem history_marshal_ok {τ ρ : Type} (E : Env τ) (P : PassThrough ρ)
    (kind : HistoryRecord τ ρ → String) (r : HistoryRecord τ ρ) (j : Json)
    (h : HistoryRecord.MarshalJSON E P kind r = .ok j) :
    ∃ ms, j = .obj (("Type", .str (kind r)) ::
      (omitEmpty "Time" (if !(E.isZero r.Time) then E.formatTime r.Time else "") ++
        (omitEmpty "Duration"
            (match r.Duration with
              | some x => E.durationString x
              | none => "") ++
          visible ["Type", "Time", "Duration"] ms))) := by
  unfold HistoryRecord.MarshalJSON passMembers at h
  cases hm : P.members r.rest with
  | ok ms =>
    rw [hm] at h
    simp only [Except.ok.injEq] at h
    exact ⟨ms, h.symm⟩
  | error e =>
    rw [hm] at h
    simp at h

theorem history_marshal_total {τ ρ : Type} (E : Env τ) (P : PassThrough ρ)
    (kind : HistoryRecord τ ρ → String) (r : HistoryRecord τ ρ) (ms : List (String × Value))
    (h : P.members r.rest = .ok ms) : ∃ j, HistoryRecord.MarshalJSON E P kind r = .ok j := by
  unfold HistoryRecord.MarshalJSON passMembers
  rw [h]
  exact ⟨_, rfl⟩

/-- C9: for every `HistoryRecord`, the encoded output has a `Time` member if and only if the
record's time stamp is not zero (the layout is taken to write every time stamp as a non-empty
text), the encoding succeeds whenever the pass-through fields encode, and decoding a text that
has no `Time` member leaves the time stamp of the destination unchanged. -/
theorem history_time_omitted {τ ρ : Type} (E : Env τ) (P : PassThrough ρ)
    (kind : HistoryRecord τ ρ → String) (r : HistoryRecord τ ρ) (data : Option Json)
    (hfmt : ∀ t, E.isZero t = false → E.formatTime t ≠ "") :
    (∀ j, HistoryRecord.MarshalJSON E P kind r = .ok j →
      (j.hasMember "Time" = true ↔ E.isZero r.Time = false)) ∧
    (∀ ms, P.members r.rest = .ok ms → ∃ j, HistoryRecord.MarshalJSON E P kind r = .ok j) ∧
    ((∀ j, data = some j → j.mentions "Time" = false) →
      (HistoryRecord.UnmarshalJSON E P r data).1.Time = r.Time) := by
  refine ⟨?_, fun ms h => history_marshal_total E P kind r ms h, ?_⟩
  · intro j hj
    obtain ⟨ms, rfl⟩ := history_marshal_ok E P kind r j hj
    have hv := visible_hides ["Type", "Time", "Duration"] "Time" (by simp) ms
    have e1 : ¬ ("Type" : String) = "Time" := by decide
    have e2 : ¬ ("Duration" : String) = "Time" := by decide
    simp only [Json.hasMember, List.any_cons, List.any_append, omitEmpty_any, hv, e1, e2,
      decide_False, Bool.and_false, Bool.or_false, Bool.false_or, decide_True, Bool.and_true,
      decide_eq_true_eq]
    cases hz : E.isZero r.Time with
    | false => simpa using hfmt _ hz
    | true => simp
  · intro hno
    have hinv := unmarshalStruct_inv (HistoryRecord.storeMember P)
      (fun k => keyIs "Time" k = false)
      (fun s => s.Time = "" ∧ s.Original.Time = r.Time)
      (fun k v s hk h => ⟨history_store_keeps_time P k v s _ hk h.1,
        (history_store_keeps P k v s _ s.Original.Duration ⟨h.2, rfl⟩).1⟩)
      data ⟨"", "", "", r⟩ (not_mentioned "Time" data hno) ⟨rfl, rfl⟩
    unfold HistoryRecord.UnmarshalJSON
    rcases h1 : unmarshalStruct (HistoryRecord.storeMember P) data ⟨"", "", "", r⟩
      with ⟨rep, e⟩
    rw [h1] at hinv
    obtain ⟨ht, ho⟩ := hinv
    simp only at ht ho
    cases e with
    | some err => exact ho
    | none =>
      simp only [ht, ne_eq, not_true_eq_false, if_false]
      split_ifs
      · exact ho
      · exact ho

theorem exampleEnv_formatTime (t : ℤ) : exampleEnv.formatTime t ≠ "" := by
  intro h
  have := congrArg String.length h
  simp [exampleEnv, String.length_append] at this
  exact absurd this.1 (by decide)

theorem exampleEnv_durationString (d : ℤ) : exampleEnv.durationString d ≠ "" := by
  intro h
  have := congrArg String.length h
  simp [exampleEnv, String.length_append] at this
  exact absurd this.2 (by decide)

/-- C9, witness: a text with no `Time` member, decoded in the example environment into a
record whose time stamp is 5, leaves the time stamp at 5. -/
theorem history_time_omitted_witness :
    (HistoryRecord.UnmarshalJSON exampleEnv noRest ⟨5, none, ()⟩
      (some (.obj [("Type", .str "Bolus"), ("Duration", .str "90s")]))).1.Time = 5 :=
  (history_time_omitted exampleEnv noRest (fun _ => "Bolus") ⟨5, none, ()⟩
    (some (.obj [("Type", .str "Bolus"), ("Duration", .str "90s")]))
    (fun t _ => exampleEnv_formatTime t)).2.2 (by intro j h; cases h; decide)

/-- Example for C9: a zero time stamp is left out of the output and a non-zero one is written. -/
theorem zero_time_left_out :
    HistoryRecord.MarshalJSON exampleEnv noRest (fun _ => "Bolus") ⟨0, none, ()⟩
      = .ok (.obj [("Type", .str "Bolus")]) ∧
    HistoryRecord.MarshalJSON exampleEnv noRest (fun _ => "Bolus") ⟨5, some 0, ()⟩
      = .ok (.obj [("Type", .str "Bolus"), ("Time", .str "@5"),
          ("Duration", .str "0s")]) := by
  decide!

/-- C10: for every `HistoryRecord`, the encoded output has a `Duration` member if and only if
the record's `Duration` is present (not nil), and then the member is the duration text, also
for a zero duration (`Duration.String` is taken never to return the empty text); the encoding
succeeds whenever the pass-through fields encode; and decoding a text that has no `Duration`
member leaves the `Duration` of the destination unchanged. -/
theorem history_duration_optional {τ ρ : Type} (E : Env τ) (P : PassThrough ρ)
    (kind : HistoryRecord τ ρ → String) (r : HistoryRecord τ ρ) (data : Option Json)
    (hdur : ∀ d, E.durationString d ≠ "") :
    (∀ j, HistoryRecord.MarshalJSON E P kind r = .ok j →
      (j.hasMember "Duration" = true ↔ r.Duration ≠ none)) ∧
    (∀ j d, HistoryRecord.MarshalJSON E P kind r = .ok j → r.Duration = some d →
      j.member "Duration" = some (.str (E.durationString d))) ∧
    (∀ ms, P.members r.rest = .ok ms → ∃ j, HistoryRecord.MarshalJSON E P kind r = .ok j) ∧
    ((∀ j, data = some j → j.mentions "Duration" = false) →
      (HistoryRecord.UnmarshalJSON E P r data).1.Duration = r.Duration) := by
  have e1 : ¬ ("Type" : String) = "Duration" := by decide
  have e2 : ¬ ("Time" : String) = "Duration" := by decide
  refine ⟨?_, ?_, fun ms h => history_marshal_total E P kind r ms h, ?_⟩
  · intro j hj
    obtain ⟨ms, rfl⟩ := history_marshal_ok E P kind r j hj
    have hv := visible_hides ["Type", "Time", "Duration"] "Duration" (by simp) ms
    simp only [Json.hasMember, List.any_cons, List.any_append, omitEmpty_any, hv, e1, e2,
      decide_False, Bool.and_false, Bool.or_false, Bool.false_or, decide_True, Bool.and_true,
      decide_eq_true_eq]
    cases hd : r.Duration with
    | none => simp
    | some d => simpa using hdur d
  · intro j d hj hd
    obtain ⟨ms, rfl⟩ := history_marshal_ok E P kind r j hj
    simp only [Json.member, hd, omitEmpty, hdur d, if_false]
    split_ifs <;> simp [List.find?, e1, e2]
  · intro hno
    have hinv := unmarshalStruct_inv (HistoryRecord.storeMember P)
      (fun k => keyIs "Duration" k = false)
      (fun s => s.Duration = "" ∧ s.Original.Duration = r.Duration)
      (fun k v s hk h => ⟨history_store_keeps_duration P k v s _ hk h.1,
        (history_store_keeps P k v s s.Original.Time _ ⟨rfl, h.2⟩).2⟩)
      data ⟨"", "", "", r⟩ (not_mentioned "Duration" data hno) ⟨rfl, rfl⟩
    unfold HistoryRecord.UnmarshalJSON
    rcases h1 : unmarshalStruct (HistoryRecord.storeMember P) data ⟨"", "", "", r⟩
      with ⟨rep, e⟩
    rw [h1] at hinv
    obtain ⟨hd, ho⟩ := hinv
    simp only at hd ho
    cases e with
    | some err => exact ho
    | none =>
      simp only [hd, ne_eq, not_true_eq_false, if_false]
      split_ifs
      all_goals first | exact ho | (split <;> exact ho)

/-- C10, witness: a present zero duration is written as its text, in the example
environment. -/
theorem history_duration_optional_witness :
    (Json.obj [("Type", .str "Bolus"), ("Duration", .str "0s")]).member "Duration"
      = some (.str (exampleEnv.durationString 0)) :=
  (history_duration_optional exampleEnv noRest (fun _ => "Bolus") ⟨0, some 0, ()⟩ none
    (fun d => exampleEnv_durationString d)).2.1 _ 0 (by decide!) rfl


/-! ## The sibling decoders stop at the first failure -/

/-- The call `json.Unmarshal` never writes the durations of the destination of a `SettingsInfo`: the
wrapper hides them. -/
theorem settings_store_keeps {ρ : Type} (P : PassThrough ρ) (k : String) (v : Value)
    (s : SettingsRep ρ) (a i : ℤ)
    (h : s.Original.AutoOff = a ∧ s.Original.InsulinAction = i) :
    (SettingsInfo.storeMember P k v s).state.Original.AutoOff = a ∧
      (SettingsInfo.storeMember P k v s).state.Original.InsulinAction = i := by
  unfold SettingsInfo.storeMember
  split_ifs
  · refine storeString_state
      (fun s : SettingsRep ρ => s.Original.AutoOff = a ∧ s.Original.InsulinAction = i)
      v s _ h ?_
    intro x; exact h
  · refine storeString_state
      (fun s : SettingsRep ρ => s.Original.AutoOff = a ∧ s.Original.InsulinAction = i)
      v s _ h ?_
    intro x; exact h
  · refine storeRest_state P
      (fun s : SettingsRep ρ => s.Original.AutoOff = a ∧ s.Original.InsulinAction = i)
      k v _ _ ?_
    intro x; exact h

/-- The decoders of `SettingsInfo` and `HistoryRecord` do stop at the first override field
that fails: when `AutoOff` does not parse, `InsulinAction` is not decoded (it stays as it was)
and the error of `AutoOff` is returned; when `Time` does not parse, `Duration` is not decoded
and the error of `Time` is returned. -/
theorem siblings_stop_at_first_failure {τ ρ : Type} (E : Env τ) (P : PassThrough ρ)
    (data : Option Json) (s : SettingsInfo ρ) (r : HistoryRecord τ ρ) :
    (∀ (rep : SettingsRep ρ) (a : Duration) (err : Error),
      unmarshalStruct (SettingsInfo.storeMember P) data ⟨"", "", s⟩ = (rep, none) →
      E.parseDuration rep.AutoOff = (a, some err) →
      (SettingsInfo.UnmarshalJSON E P s data).2 = some err ∧
        (SettingsInfo.UnmarshalJSON E P s data).1.AutoOff = a ∧
        (SettingsInfo.UnmarshalJSON E P s data).1.InsulinAction = s.InsulinAction) ∧
    (∀ (rep : HistoryRep τ ρ) (t : τ) (err : Error),
      unmarshalStruct (HistoryRecord.storeMember P) data ⟨"", "", "", r⟩ = (rep, none) →
      rep.Time ≠ "" → E.parseTime rep.Time = (t, some err) →
      (HistoryRecord.UnmarshalJSON E P r data).2 = some err ∧
        (HistoryRecord.UnmarshalJSON E P r data).1.Time = t ∧
        (HistoryRecord.UnmarshalJSON E P r data).1.Duration = r.Duration) := by
  constructor
  · intro rep a err hrep hparse
    have hkeep := unmarshalStruct_inv (SettingsInfo.storeMember P) (fun _ => True)
      (fun x => x.Original.AutoOff = s.AutoOff ∧ x.Original.InsulinAction = s.InsulinAction)
      (fun k v x _ h => settings_store_keeps P k v x _ _ h) data ⟨"", "", s⟩
      (fun _ _ _ _ => trivial) ⟨rfl, rfl⟩
    rw [hrep] at hkeep
    simp only [SettingsInfo.UnmarshalJSON, hrep, hparse]
    simpa using hkeep.2
  · intro rep t err hrep hne hparse
    have hkeep := unmarshalStruct_inv (HistoryRecord.storeMember P) (fun _ => True)
      (fun x => x.Original.Time = r.Time ∧ x.Original.Duration = r.Duration)
      (fun k v x _ h => history_store_keeps P k v x _ _ h) data ⟨"", "", "", r⟩
      (fun _ _ _ _ => trivial) ⟨rfl, rfl⟩
    rw [hrep] at hkeep
    simp only [HistoryRecord.UnmarshalJSON, hrep, hparse, hne, ne_eq, not_false_eq_true,
      if_true]
    simpa using hkeep.2


/-! ## `HistoryRecord`: the `Type` member of the input -/

/-- Storing the same member into two wrappers that agree but for `Type` has the same outcome
and leaves wrappers that agree but for `Type`. -/
theorem history_store_agree {τ ρ : Type} (P : PassThrough ρ) (k : String) (v : Value)
    (a b : HistoryRep τ ρ) (h : a.agree b) :
    Store.Rel HistoryRep.agree (HistoryRecord.storeMember P k v a)
      (HistoryRecord.storeMember P k v b) := by
  obtain ⟨h1, h2, h3⟩ := h
  unfold HistoryRecord.storeMember
  split_ifs
  · exact storeString_rel _ v a b _ _ ⟨h1, h2, h3⟩ (fun x => ⟨h1, h2, h3⟩)
  · exact storeString_rel _ v a b _ _ ⟨h1, h2, h3⟩ (fun x => ⟨rfl, h2, h3⟩)
  · exact storeString_rel _ v a b _ _ ⟨h1, h2, h3⟩ (fun x => ⟨h1, rfl, h3⟩)
  · unfold storeRest
    rw [h3]
    cases P.store k v b.Original.rest <;> simp [Store.Rel, HistoryRep.agree, h1, h2, h3]

/-- A `Type` member that carries a string or `null` is stored without an error and changes
the `Type` text of the wrapper at most. -/
theorem history_store_type {τ ρ : Type} (P : PassThrough ρ) (k : String) (v : Value)
    (a : HistoryRep τ ρ) (hk : keyIs "Type" k = true) (hv : v.fitsString = true) :
    ∃ a', HistoryRecord.storeMember P k v a = .done a' ∧ a'.agree a := by
  unfold HistoryRecord.storeMember
  rw [if_pos hk]
  cases v with
  | str s => exact ⟨_, rfl, rfl, rfl, rfl⟩
  | null => exact ⟨_, rfl, rfl, rfl, rfl⟩
  | bool b => simp [Value.fitsString] at hv
  | num q => simp [Value.fitsString] at hv
  | compound raw => simp [Value.fitsString] at hv

/-- Decoding the members of an object and decoding them without the `Type` members (all of
which carry a string or `null`) end in wrappers that agree but for `Type`, with the same
error. -/
theorem history_drop_type {τ ρ : Type} (P : PassThrough ρ) :
    ∀ (ms : List (String × Value)) (a b : HistoryRep τ ρ) (e : Option Error),
      a.agree b → stringAt "Type" ms →
      (decodeMembers (HistoryRecord.storeMember P) ms a e).1.agree
          (decodeMembers (HistoryRecord.storeMember P) (dropKey "Type" ms) b e).1 ∧
        (decodeMembers (HistoryRecord.storeMember P) ms a e).2 =
          (decodeMembers (HistoryRecord.storeMember P) (dropKey "Type" ms) b e).2 := by
  intro ms
  induction ms with
  | nil => intro a b e h _; exact ⟨h, rfl⟩
  | cons m ms ih =>
    intro a b e h hs
    obtain ⟨k, v⟩ := m
    have hs' : stringAt "Type" ms := fun m hm => hs m (List.mem_cons_of_mem _ hm)
    by_cases hk : keyIs "Type" k = true
    · obtain ⟨a', ha', hag⟩ :=
        history_store_type P k v a hk (hs (k, v) (List.mem_cons_self _ _) hk)
      have hd : dropKey "Type" ((k, v) :: ms) = dropKey "Type" ms := by
        simp [dropKey, List.filter_cons, hk]
      rw [hd]
      simp only [decodeMembers, ha']
      exact ih a' b e ⟨hag.1.trans h.1, hag.2.1.trans h.2.1, hag.2.2.trans h.2.2⟩ hs'
    · have hd : dropKey "Type" ((k, v) :: ms) = (k, v) :: dropKey "Type" ms := by
        simp [dropKey, List.filter_cons, hk]
      rw [hd]
      have h1 := history_store_agree P k v a b h
      simp only [decodeMembers]
      cases hf : HistoryRecord.storeMember P k v a <;>
        cases hg : HistoryRecord.storeMember P k v b <;> rw [hf, hg] at h1 <;>
        simp only [Store.Rel] at h1
      · exact ih _ _ _ h1 hs'
      · obtain ⟨h2, rfl⟩ := h1
        exact ih _ _ _ h2 hs'
      · obtain ⟨h2, rfl⟩ := h1
        exact ⟨h2, rfl⟩

/-- What `HistoryRecord.UnmarshalJSON` does after `json.Unmarshal` depends on the wrapper
through its `Time` text, its `Duration` text and the destination only. -/
theorem history_finish_agree {τ ρ : Type} (E : Env τ) (P : PassThrough ρ)
    (r : HistoryRecord τ ρ) (d d' : Option Json)
    (h : (unmarshalStruct (HistoryRecord.storeMember P) d ⟨"", "", "", r⟩).1.agree
        (unmarshalStruct (HistoryRecord.storeMember P) d' ⟨"", "", "", r⟩).1)
    (he : (unmarshalStruct (HistoryRecord.storeMember P) d ⟨"", "", "", r⟩).2 =
        (unmarshalStruct (HistoryRecord.storeMember P) d' ⟨"", "", "", r⟩).2) :
    HistoryRecord.UnmarshalJSON E P r d = HistoryRecord.UnmarshalJSON E P r d' := by
  unfold HistoryRecord.UnmarshalJSON
  generalize unmarshalStruct (HistoryRecord.storeMember P) d ⟨"", "", "", r⟩ = x at h he
  generalize unmarshalStruct (HistoryRecord.storeMember P) d' ⟨"", "", "", r⟩ = y at h he
  obtain ⟨a, ea⟩ := x
  obtain ⟨b, eb⟩ := y
  obtain ⟨h1, h2, h3⟩ := h
  simp only at he h1 h2 h3
  subst he
  cases ea with
  | some err => simp only [h3]
  | none => simp only [h1, h2, h3]

/-- An error that `encoding/json` has recorded is still reported after the remaining members
have been stored (or an error that stopped the decoding is). -/
theorem decodeMembers_error_kept {σ : Type} (store : String → Value → σ → Store σ) :
    ∀ (ms : List (String × Value)) (s : σ) (e : Option Error), e ≠ none →
      (decodeMembers store ms s e).2 ≠ none := by
  intro ms
  induction ms with
  | nil => intro s e h; exact h
  | cons m ms ih =>
    intro s e h
    obtain ⟨k, v⟩ := m
    simp only [decodeMembers]
    cases store k v s with
    | done x => exact ih x e h
    | saved x e' =>
      refine ih x _ ?_
      cases e with
      | none => exact absurd rfl h
      | some y => simp
    | abort x e' => simp

/-- A `Type` member that carries neither a string nor `null` makes the decoding of the
members end with an error. -/
theorem history_bad_type {τ ρ : Type} (P : PassThrough ρ) :
    ∀ (ms : List (String × Value)) (a : HistoryRep τ ρ) (e : Option Error),
      (∃ m ∈ ms, keyIs "Type" m.1 = true ∧ m.2.fitsString = false) →
      (decodeMembers (HistoryRecord.storeMember P) ms a e).2 ≠ none := by
  intro ms
  induction ms with
  | nil =>
    intro a e h
    obtain ⟨m, hm, -⟩ := h
    simp at hm
  | cons m ms ih =>
    intro a e h
    obtain ⟨k, v⟩ := m
    obtain ⟨m, hm, hk, hv⟩ := h
    rcases List.mem_cons.mp hm with hm | hm
    · subst hm
      simp only at hk hv
      have hstore : HistoryRecord.storeMember P k v a = .saved a .typeMismatch := by
        unfold HistoryRecord.storeMember
        rw [if_pos hk]
        cases v with
        | str x => simp [Value.fitsString] at hv
        | null => simp [Value.fitsString] at hv
        | bool b => rfl
        | num q => rfl
        | compound raw => rfl
      simp only [decodeMembers, hstore]
      refine decodeMembers_error_kept _ ms a _ ?_
      cases e with
      | none => simp
      | some y => simp
    · simp only [decodeMembers]
      cases HistoryRecord.storeMember P k v a with
      | done x => exact ih x e ⟨m, hm, hk, hv⟩
      | saved x e' => exact ih x _ ⟨m, hm, hk, hv⟩
      | abort x e' => simp

/-- C11 (amended): the `Type` member of the input is ignored by `HistoryRecord.UnmarshalJSON`
as long as it carries a string or `null`: two objects whose members are the same once the
members that select `Type` are left out, and whose `Type` members all carry a string or
`null`, decode into equal destinations with the same error or success and the same resulting
record. An object with a `Type` member that carries any other value (a number, a boolean, an
array, an object) is not decoded without an error. -/
theorem history_type_ignored {τ ρ : Type} (E : Env τ) (P : PassThrough ρ)
    (r : HistoryRecord τ ρ) (ms ms' : List (String × Value)) :
    (dropKey "Type" ms = dropKey "Type" ms' → stringAt "Type" ms → stringAt "Type" ms' →
      HistoryRecord.UnmarshalJSON E P r (some (.obj ms)) =
        HistoryRecord.UnmarshalJSON E P r (some (.obj ms'))) ∧
    ((∃ m ∈ ms, keyIs "Type" m.1 = true ∧ m.2.fitsString = false) →
      (HistoryRecord.UnmarshalJSON E P r (some (.obj ms))).2 ≠ none) := by
  constructor
  · intro h hs hs'
    have h1 := history_drop_type P ms ⟨"", "", "", r⟩ ⟨"", "", "", r⟩ none ⟨rfl, rfl, rfl⟩ hs
    have h2 :=
      history_drop_type P ms' ⟨"", "", "", r⟩ ⟨"", "", "", r⟩ none ⟨rfl, rfl, rfl⟩ hs'
    rw [← h] at h2
    apply history_finish_agree
    · simp only [unmarshalStruct]
      exact ⟨h1.1.1.trans h2.1.1.symm, h1.1.2.1.trans h2.1.2.1.symm,
        h1.1.2.2.trans h2.1.2.2.symm⟩
    · simp only [unmarshalStruct]
      exact h1.2.trans h2.2.symm
  · intro hbad
    have h := history_bad_type P ms (⟨"", "", "", r⟩ : HistoryRep τ ρ) none hbad
    unfold HistoryRecord.UnmarshalJSON
    simp only [unmarshalStruct]
    rcases hd : decodeMembers (HistoryRecord.storeMember P) ms ⟨"", "", "", r⟩ none
      with ⟨rep, e⟩
    rw [hd] at h
    cases e with
    | none => exact absurd rfl h
    | some err => simp

/-- C11 (amended), on an example: a text with the members `Type` and `Time`, the same text
with another `Type`, and the text without the `Type` member decode alike; the text with the
number 5 as its `Type` is refused. -/
theorem history_type_ignored_witness :
    dropKey "Type" [("Type", .str "Bolus"), ("Time", .str "@5")] =
        dropKey "Type" [("Time", .str "@5")] ∧
      HistoryRecord.UnmarshalJSON exampleEnv noRest ⟨0, some 3, ()⟩
          (some (.obj [("Type", .str "Bolus"), ("Time", .str "@5")])) =
        HistoryRecord.UnmarshalJSON exampleEnv noRest ⟨0, some 3, ()⟩
          (some (.obj [("Time", .str "@5")])) ∧
      HistoryRecord.UnmarshalJSON exampleEnv noRest ⟨0, some 3, ()⟩
          (some (.obj [("Time", .str "@5")])) = (⟨5, some 3, ()⟩, none) ∧
      (HistoryRecord.UnmarshalJSON exampleEnv noRest ⟨0, some 3, ()⟩
          (some (.obj [("Type", .num 5), ("Time", .str "@5")]))).2 ≠ none :=
  ⟨by decide!,
    (history_type_ignored exampleEnv noRest ⟨0, some 3, ()⟩
      [("Type", .str "Bolus"), ("Time", .str "@5")] [("Time", .str "@5")]).1
      (by decide!) (by decide!) (by decide!),
    by decide!,
    (history_type_ignored exampleEnv noRest ⟨0, some 3, ()⟩
      [("Type", .num 5), ("Time", .str "@5")] []).2
      ⟨("Type", .num 5), by simp, by decide, rfl⟩⟩

/-- C11 as stated fails: two objects that differ only in the value of their `Type` member
decode differently when one of the values is not a string. `{"Type": 5}` is refused with the
type mismatch of `encoding/json`, `{"Type": "Bolus"}` is accepted. -/
theorem history_type_number_rejected :
    dropKey "Type" [("Type", Value.num 5)] = dropKey "Type" [("Type", Value.str "Bolus")] ∧
      HistoryRecord.UnmarshalJSON exampleEnv noRest ⟨0, none, ()⟩
          (some (.obj [("Type", .num 5)])) = (⟨0, none, ()⟩, some .typeMismatch) ∧
      HistoryRecord.UnmarshalJSON exampleEnv noRest ⟨0, none, ()⟩
          (some (.obj [("Type", .str "Bolus")])) = (⟨0, none, ()⟩, none) := by
  decide!


/-! ## The shortest decimal of a float that came from a short decimal -/

theorem log10Fuel_eq_log : ∀ (fuel n : ℕ), n ≤ fuel → log10Fuel fuel n = Nat.log 10 n := by
  intro fuel
  induction fuel with
  | zero =>
    intro n hn
    have : n = 0 := by omega
    subst this
    simp [log10Fuel]
  | succ f ih =>
    intro n hn
    unfold log10Fuel
    by_cases h : n < 10
    · simp [h, Nat.log_of_lt h]
    · simp only [h, if_false]
      have h2 : 10 ≤ n := by omega
      rw [ih (n / 10) (by omega), Nat.log_of_one_lt_of_le (by norm_num) h2]

theorem natLog10_le (n : ℕ) (hn : n ≠ 0) : 10 ^ natLog10 n ≤ n := by
  unfold natLog10
  rw [log10Fuel_eq_log n n le_rfl]
  exact Nat.pow_log_le_self 10 hn

theorem lt_natLog10 (n : ℕ) : n < 10 ^ (natLog10 n + 1) := by
  unfold natLog10
  rw [log10Fuel_eq_log n n le_rfl]
  exact Nat.lt_pow_succ_log_self (by norm_num) n

/-- The position `topDigitPos a` is above the leading digit of `a`, by two places at most. -/
theorem topDigitPos_bounds (a : ℚ) (ha : 0 < a) :
    (10:ℚ) ^ (topDigitPos a - 2) < a ∧ a < (10:ℚ) ^ (topDigitPos a) := by
  unfold topDigitPos
  by_cases h1 : 1 ≤ a
  · rw [if_pos h1]
    have hf1 : 1 ≤ ⌊a⌋ := Int.le_floor.mpr (by simpa using h1)
    obtain ⟨m, hm⟩ := Int.eq_ofNat_of_zero_le (show 0 ≤ ⌊a⌋ by omega)
    have hm1 : 1 ≤ m := by omega
    rw [hm, Int.toNat_ofNat]
    have hlo : (m : ℚ) ≤ a := by
      have := Int.floor_le a
      rw [hm] at this
      simpa using this
    have hhi : a < (m : ℚ) + 1 := by
      have := Int.lt_floor_add_one a
      rw [hm] at this
      simpa using this
    have h3 : ((10 ^ natLog10 m : ℕ) : ℚ) ≤ (m : ℚ) := by
      exact_mod_cast natLog10_le m (by omega)
    have h4 : ((m : ℚ) + 1) ≤ ((10 ^ (natLog10 m + 1) : ℕ) : ℚ) := by
      exact_mod_cast lt_natLog10 m
    constructor
    · have e : (10:ℚ) ^ ((natLog10 m : ℤ) + 1 - 2) < (10:ℚ) ^ ((natLog10 m : ℕ) : ℤ) :=
        zpow_lt_zpow_right₀ (by norm_num) (by omega)
      rw [zpow_natCast] at e
      push_cast at h3
      linarith
    · have e : (10:ℚ) ^ ((natLog10 m : ℤ) + 1) = (10:ℚ) ^ (natLog10 m + 1) := by
        rw [← zpow_natCast]
        push_cast
        rfl
      rw [e]
      push_cast at h4
      linarith
  · rw [if_neg h1]
    push_neg at h1
    have hinv : 1 < 1 / a := by
      rw [lt_div_iff₀ ha]
      linarith
    have hf1 : 1 ≤ ⌊1 / a⌋ := Int.le_floor.mpr (by simpa using hinv.le)
    obtain ⟨m, hm⟩ := Int.eq_ofNat_of_zero_le (show 0 ≤ ⌊1 / a⌋ by omega)
    have hm1 : 1 ≤ m := by omega
    rw [hm, Int.toNat_ofNat]
    have hlo : (m : ℚ) ≤ 1 / a := by
      have := Int.floor_le (1 / a)
      rw [hm] at this
      simpa using this
    have hhi : 1 / a < (m : ℚ) + 1 := by
      have := Int.lt_floor_add_one (1 / a)
      rw [hm] at this
      simpa using this
    have h3 : ((10 ^ natLog10 m : ℕ) : ℚ) ≤ (m : ℚ) := by
      exact_mod_cast natLog10_le m (by omega)
    have h4 : ((m : ℚ) + 1) ≤ ((10 ^ (natLog10 m + 1) : ℕ) : ℚ) := by
      exact_mod_cast lt_natLog10 m
    push_cast at h3 h4
    have hL : (0:ℚ) < (10:ℚ) ^ natLog10 m := by positivity
    have hL1 : (0:ℚ) < (10:ℚ) ^ (natLog10 m + 1) := by positivity
    constructor
    · have e : (10:ℚ) ^ (1 - (natLog10 m : ℤ) - 2) = 1 / (10:ℚ) ^ (natLog10 m + 1) := by
        rw [show (1 - (natLog10 m : ℤ) - 2) = -(((natLog10 m + 1 : ℕ)) : ℤ) by push_cast; ring,
          zpow_neg, zpow_natCast, one_div]
      rw [e, div_lt_iff₀ hL1]
      have h5 : 1 / a < (10:ℚ) ^ (natLog10 m + 1) := by linarith
      rw [div_lt_iff₀ ha] at h5
      linarith
    · have e : (10:ℚ) ^ (1 - (natLog10 m : ℤ)) = 10 / (10:ℚ) ^ natLog10 m := by
        rw [sub_eq_add_neg, zpow_add₀ (by norm_num), zpow_neg, zpow_natCast, zpow_one]
        ring
      rw [e, lt_div_iff₀ hL]
      have h5 : (10:ℚ) ^ natLog10 m ≤ 1 / a := by linarith
      rw [le_div_iff₀ ha] at h5
      linarith

/-- A short decimal in the normal range rounds to a float within `2^-53` of it, relatively. -/
theorem roundF64_rel (q b : ℚ) (hq : 1 / 2 ^ 1022 ≤ |q|) (hb : roundF64 q = .fin b) :
    |b - q| ≤ |q| / 2 ^ 53 := by
  have h := roundF64_err q b hb
  have h2 : (1:ℚ) / 2 ^ 1075 ≤ |q| / 2 ^ 53 := by
    rw [div_le_div_iff₀ (by positivity) (by positivity)]
    have : (1:ℚ) / 2 ^ 1022 * 2 ^ 1075 = 2 ^ 53 := by norm_num
    have h3 := mul_le_mul_of_nonneg_right hq (show (0:ℚ) ≤ 2 ^ 1075 by positivity)
    rw [this] at h3
    linarith
  rwa [max_eq_left h2] at h

/-- The float of a decimal in the normal range has the sign of the decimal. -/
theorem roundF64_sign (q b : ℚ) (hq : 1 / 2 ^ 1022 ≤ |q|) (hb : roundF64 q = .fin b) :
    (b < 0 ↔ q < 0) ∧ b ≠ 0 := by
  have h := roundF64_rel q b hq hb
  have hpos : (0:ℚ) < |q| := lt_of_lt_of_le (by positivity) hq
  have h2 : |q| / 2 ^ 53 < |q| := by
    rw [div_lt_iff₀ (by positivity)]
    have : |q| * 1 < |q| * 2 ^ 53 := by
      apply mul_lt_mul_of_pos_left _ hpos
      norm_num
    linarith
  rcases le_or_lt 0 q with h0 | h0
  · rw [abs_of_nonneg h0] at h h2 hpos
    have h3 := abs_le.mp h
    refine ⟨⟨fun hb0 => by linarith [h3.1], fun hq0 => by linarith⟩, ?_⟩
    intro e
    rw [e] at h3
    linarith [h3.1]
  · rw [abs_of_neg h0] at h h2 hpos
    have h3 := abs_le.mp h
    refine ⟨⟨fun _ => h0, fun _ => by linarith [h3.2]⟩, ?_⟩
    intro e
    rw [e] at h3
    linarith [h3.2]

/-- Two decimals with the same last position that round to the same float are the same, when
one of them has fewer than 16 digits: the floats are closer together than the decimals. -/
theorem decimal_unique (n m : ℤ) (u b : ℚ) (hu : 0 < u) (hn : |n| < 10 ^ 15)
    (hq : 1 / 2 ^ 1022 ≤ |(n : ℚ) * u|)
    (h1 : roundF64 ((n : ℚ) * u) = .fin b) (h2 : roundF64 ((m : ℚ) * u) = .fin b) :
    m = n := by
  by_contra hne
  have e1 := roundF64_rel _ b hq h1
  have e2 := roundF64_err _ b h2
  have hQ : |(n : ℚ) * u| ≤ (10 ^ 15 - 1) * u := by
    rw [abs_mul, abs_of_pos hu]
    apply mul_le_mul_of_nonneg_right _ hu.le
    have : |n| ≤ 10 ^ 15 - 1 := by omega
    rw [← Int.cast_abs]
    exact_mod_cast this
  have hD : u ≤ |(m : ℚ) * u - (n : ℚ) * u| := by
    rw [← sub_mul, abs_mul, abs_of_pos hu]
    have : (1:ℤ) ≤ |m - n| := Int.one_le_abs (sub_ne_zero.mpr hne)
    have h3 : ((1 : ℤ) : ℚ) ≤ ((|m - n| : ℤ) : ℚ) := by exact_mod_cast this
    push_cast at h3
    nlinarith
  set Q := |(n : ℚ) * u| with hQdef
  set D := |(m : ℚ) * u - (n : ℚ) * u| with hDdef
  have hT : (1:ℚ) / 2 ^ 1075 ≤ Q / 2 ^ 53 := by
    rw [div_le_div_iff₀ (by positivity) (by positivity)]
    have : (1:ℚ) / 2 ^ 1022 * 2 ^ 1075 = 2 ^ 53 := by norm_num
    have h3 := mul_le_mul_of_nonneg_right hq (show (0:ℚ) ≤ 2 ^ 1075 by positivity)
    rw [this] at h3
    linarith
  have hm : |(m : ℚ) * u| ≤ Q + D := by
    have : (m : ℚ) * u = (n : ℚ) * u + ((m : ℚ) * u - (n : ℚ) * u) := by ring
    calc |(m : ℚ) * u| = |(n : ℚ) * u + ((m : ℚ) * u - (n : ℚ) * u)| := by rw [← this]
      _ ≤ Q + D := abs_add _ _
  have hD0 : 0 ≤ D := abs_nonneg _
  have e3 : |b - (m : ℚ) * u| ≤ (Q + D) / 2 ^ 53 := by
    refine le_trans e2 (max_le ?_ ?_)
    · exact div_le_div_of_nonneg_right hm (by positivity)
    · refine le_trans hT ?_
      exact div_le_div_of_nonneg_right (by linarith) (by positivity)
  have e4 : D ≤ |b - (m : ℚ) * u| + |b - (n : ℚ) * u| := by
    have : (m : ℚ) * u - (n : ℚ) * u = (b - (n : ℚ) * u) - (b - (m : ℚ) * u) := by ring
    rw [hDdef, this]
    have := abs_sub (b - (n : ℚ) * u) (b - (m : ℚ) * u)
    linarith
  have e5 : D ≤ (Q + D) / 2 ^ 53 + Q / 2 ^ 53 := by linarith
  have e6 : D * 2 ^ 53 ≤ 2 * Q + D := by
    have h53 : (0:ℚ) < 2 ^ 53 := by positivity
    have := mul_le_mul_of_nonneg_right e5 h53.le
    have e7 : ((Q + D) / 2 ^ 53 + Q / 2 ^ 53) * 2 ^ 53 = 2 * Q + D := by
      field_simp
      ring
    rw [e7] at this
    exact this
  have e8 : u * (2 ^ 53 - 1) ≤ 2 * ((10 ^ 15 - 1) * u) := by
    have : u * (2 ^ 53 - 1) ≤ D * (2 ^ 53 - 1) :=
      mul_le_mul_of_nonneg_right hD (by norm_num)
    linarith
  have e9 : u * (2 ^ 53 - 1 - 2 * (10 ^ 15 - 1)) ≤ 0 := by linarith
  have e10 : (0:ℚ) < 2 ^ 53 - 1 - 2 * (10 ^ 15 - 1) := by norm_num
  have := mul_pos hu e10
  linarith

theorem chooseNear_mem (b lo hi t : ℚ) (even : Bool) (h : chooseNear b lo hi even = some t) :
    t = lo ∨ t = hi := by
  unfold chooseNear at h
  simp only [Bool.and_eq_true, decide_eq_true_eq] at h
  split_ifs at h <;> simp only [Option.some.injEq] at h <;>
    first
      | exact Or.inl h.symm
      | exact Or.inr h.symm

theorem chooseNear_isSome (b lo hi : ℚ) (even : Bool)
    (h : roundF64 lo = .fin b ∨ roundF64 hi = .fin b) :
    (chooseNear b lo hi even).isSome = true := by
  unfold chooseNear
  by_cases h1 : roundF64 lo = .fin b
  · by_cases h2 : roundF64 hi = .fin b
    · simp only [h1, h2, decide_True, Bool.and_self, if_true]
      split_ifs <;> rfl
    · simp [h1, h2]
  · have h2 := h.resolve_left h1
    simp [h1, h2]

/-- A decimal that `shortestAt` finds at position `p` is a multiple of `10^p` and is read
back as the float. -/
theorem shortestAt_multiple (b t : ℚ) (p : ℤ) (h : shortestAt b p = some t) :
    ∃ m : ℤ, t = (m : ℚ) * (10:ℚ) ^ p ∧ roundF64 t = .fin b := by
  unfold shortestAt at h
  have hp := chooseNear_parse b _ _ t _ h
  rcases chooseNear_mem b _ _ t _ h with ht | ht
  · by_cases hb : b < 0
    · simp only [hb, if_true] at ht
      exact ⟨-⌊|b| / (10:ℚ) ^ p⌋, by rw [ht]; push_cast; ring, hp⟩
    · simp only [hb, if_false] at ht
      exact ⟨⌊|b| / (10:ℚ) ^ p⌋, by rw [ht]; ring, hp⟩
  · by_cases hb : b < 0
    · simp only [hb, if_true] at ht
      exact ⟨-(⌊|b| / (10:ℚ) ^ p⌋ + 1), by rw [ht]; push_cast; ring, hp⟩
    · simp only [hb, if_false] at ht
      exact ⟨⌊|b| / (10:ℚ) ^ p⌋ + 1, by rw [ht]; push_cast; ring, hp⟩

/-- The float of a decimal `n * 10^p` with fewer than 16 digits lies less than one unit of
the last place from it, and has its sign. -/
theorem decimal_float_near (n : ℤ) (u b : ℚ) (hu : 0 < u) (hn0 : n ≠ 0) (hn : |n| < 10 ^ 15)
    (hq : 1 / 2 ^ 1022 ≤ |(n : ℚ) * u|) (hb : roundF64 ((n : ℚ) * u) = .fin b) :
    |(n : ℚ) * u| = ((|n| : ℤ) : ℚ) * u ∧ u ≤ ((|n| : ℤ) : ℚ) * u ∧
      ((|n| : ℤ) : ℚ) * u ≤ (10 ^ 15 - 1) * u ∧
      |(|b| - ((|n| : ℤ) : ℚ) * u)| ≤ ((|n| : ℤ) : ℚ) * u / 2 ^ 53 ∧
      (if b < 0 then (-1:ℚ) else 1) * (((|n| : ℤ) : ℚ) * u) = (n : ℚ) * u := by
  have hrel := roundF64_rel _ b hq hb
  have hsign := roundF64_sign _ b hq hb
  have hQ : |(n : ℚ) * u| = ((|n| : ℤ) : ℚ) * u := by
    rw [abs_mul, abs_of_pos hu, Int.cast_abs]
  have h1 : (1:ℚ) ≤ ((|n| : ℤ) : ℚ) := by
    have : (1:ℤ) ≤ |n| := Int.one_le_abs hn0
    exact_mod_cast this
  have h2 : ((|n| : ℤ) : ℚ) ≤ 10 ^ 15 - 1 := by
    have : |n| ≤ 10 ^ 15 - 1 := by omega
    exact_mod_cast this
  refine ⟨hQ, by nlinarith, by nlinarith, ?_, ?_⟩
  · rw [← hQ]
    exact le_trans (abs_abs_sub_abs_le_abs_sub _ _) hrel
  · by_cases hb0 : b < 0
    · have hq0 := hsign.1.mp hb0
      have hn1 : n < 0 := by
        by_contra hc
        push_neg at hc
        have : (0:ℚ) ≤ (n : ℚ) * u := mul_nonneg (by exact_mod_cast hc) hu.le
        linarith
      rw [if_pos hb0, abs_of_neg hn1]
      push_cast
      ring
    · have hq0 : ¬ (n : ℚ) * u < 0 := fun h => hb0 (hsign.1.mpr h)
      have hn1 : 0 ≤ n := by
        by_contra hc
        push_neg at hc
        have : (n : ℚ) * u < 0 := mul_neg_of_neg_of_pos (by exact_mod_cast hc) hu
        exact hq0 this
      rw [if_neg hb0, abs_of_nonneg hn1]
      ring

/-- At the position of the last digit of a decimal with fewer than 16 digits, `shortestAt`
finds a decimal for the float of that decimal. -/
theorem shortestAt_isSome (n : ℤ) (p : ℤ) (b : ℚ) (hn0 : n ≠ 0) (hn : |n| < 10 ^ 15)
    (hq : 1 / 2 ^ 1022 ≤ |(n : ℚ) * (10:ℚ) ^ p|)
    (hb : roundF64 ((n : ℚ) * (10:ℚ) ^ p) = .fin b) : (shortestAt b p).isSome = true := by
  have hu : (0:ℚ) < (10:ℚ) ^ p := by positivity
  obtain ⟨-, h1, h2, h3, h4⟩ := decimal_float_near n _ b hu hn0 hn hq hb
  set u := (10:ℚ) ^ p with hudef
  set N : ℤ := |n| with hN
  have h5 : (N : ℚ) * u / 2 ^ 53 < u := by
    rw [div_lt_iff₀ (by positivity)]
    have : (10 ^ 15 - 1 : ℚ) * u < u * 2 ^ 53 := by nlinarith
    linarith
  have h6 := abs_le.mp h3
  have hlo : (N : ℚ) - 1 < |b| / u := by
    rw [lt_div_iff₀ hu]
    linarith [h6.1]
  have hhi : |b| / u < (N : ℚ) + 1 := by
    rw [div_lt_iff₀ hu]
    linarith [h6.2]
  have hk1 : ⌊|b| / u⌋ ≤ N := by
    have : ((⌊|b| / u⌋ : ℤ) : ℚ) < ((N + 1 : ℤ) : ℚ) := by
      push_cast
      exact lt_of_le_of_lt (Int.floor_le _) hhi
    have := Int.cast_lt.mp this
    omega
  have hk2 : N - 1 ≤ ⌊|b| / u⌋ := by
    have : ((N - 1 : ℤ) : ℚ) < ((⌊|b| / u⌋ + 1 : ℤ) : ℚ) := by
      push_cast
      exact lt_trans hlo (Int.lt_floor_add_one _)
    have := Int.cast_lt.mp this
    omega
  unfold shortestAt
  apply chooseNear_isSome
  rcases (show ⌊|b| / u⌋ = N ∨ ⌊|b| / u⌋ = N - 1 by omega) with hk | hk
  · left
    rw [← hudef, hk, h4]
    exact hb
  · right
    rw [← hudef, hk]
    have : (if b < 0 then (-1:ℚ) else 1) * (((N - 1 : ℤ) : ℚ) * u + u) =
        (if b < 0 then (-1:ℚ) else 1) * ((N : ℚ) * u) := by
      push_cast
      ring
    rw [this, h4]
    exact hb

/-- The first hit of a search over a range is found no later than any given hit. -/
theorem findSome_range_le {α : Type} (f : ℕ → Option α) :
    ∀ (N s i0 : ℕ), s ≤ i0 → i0 < s + N → (f i0).isSome = true →
      ∃ i t, i ≤ i0 ∧ f i = some t ∧ (List.range' s N).findSome? f = some t := by
  intro N
  induction N with
  | zero => intro s i0 h1 h2 _; omega
  | succ N ih =>
    intro s i0 h1 h2 h3
    rw [List.range'_succ, List.findSome?_cons]
    cases hf : f s with
    | some t => exact ⟨s, t, h1, hf, rfl⟩
    | none =>
      have hne : s ≠ i0 := by
        intro e
        rw [← e, hf] at h3
        simp at h3
      obtain ⟨i, t, hi, hfi, hr⟩ := ih (s + 1) i0 (by omega) (by omega) h3
      exact ⟨i, t, hi, hfi, hr⟩

/-- The last digit of a decimal with fewer than 16 digits is among the twenty positions that
`formatFloat` tries for its float. -/
theorem decimal_position (n : ℤ) (p : ℤ) (b : ℚ) (hn0 : n ≠ 0) (hn : |n| < 10 ^ 15)
    (hq : 1 / 2 ^ 1022 ≤ |(n : ℚ) * (10:ℚ) ^ p|)
    (hb : roundF64 ((n : ℚ) * (10:ℚ) ^ p) = .fin b) :
    ∃ i0 : ℕ, i0 < 20 ∧ topDigitPos |b| - (i0 : ℤ) = p := by
  have hu : (0:ℚ) < (10:ℚ) ^ p := by positivity
  obtain ⟨-, h1, h2, h3, -⟩ := decimal_float_near n _ b hu hn0 hn hq hb
  have hb0 : 0 < |b| := abs_pos.mpr (roundF64_sign _ b hq hb).2
  obtain ⟨t1, t2⟩ := topDigitPos_bounds |b| hb0
  set u := (10:ℚ) ^ p with hudef
  set N : ℤ := |n| with hN
  set top := topDigitPos |b| with htop
  have h6 := abs_le.mp h3
  have h7 : (N : ℚ) * u / 2 ^ 53 ≤ (N : ℚ) * u / 2 := by
    apply div_le_div_of_nonneg_left (by positivity) (by norm_num) (by norm_num)
  have hlow : p ≤ top := by
    by_contra hc
    push_neg at hc
    have e1 : (10:ℚ) ^ top ≤ (10:ℚ) ^ (p - 1) :=
      zpow_le_zpow_right₀ (by norm_num) (by omega)
    have e2 : (10:ℚ) ^ (p - 1) = u / 10 := by
      rw [zpow_sub_one₀ (by norm_num)]
      rfl
    rw [e2] at e1
    linarith [h6.1]
  have hhigh : top ≤ p + 19 := by
    by_contra hc
    push_neg at hc
    have e1 : (10:ℚ) ^ (p + 18) ≤ (10:ℚ) ^ (top - 2) :=
      zpow_le_zpow_right₀ (by norm_num) (by omega)
    have e2 : (10:ℚ) ^ (p + 18) = u * 10 ^ 18 := by
      rw [zpow_add₀ (by norm_num), hudef]
      norm_cast
    rw [e2] at e1
    have e3 : (N : ℚ) * u ≤ 10 ^ 15 * u := by linarith
    have e4 : |b| ≤ 2 * (10 ^ 15 * u) := by linarith [h6.2]
    have e5 : u * 10 ^ 18 < 2 * (10 ^ 15 * u) := by linarith
    nlinarith
  refine ⟨(top - p).toNat, by omega, ?_⟩
  rw [Int.toNat_of_nonneg (by omega)]
  ring

/-- The text of a float that came from a decimal with fewer than 16 digits is that decimal:
`strconv` writes the shortest decimal that is read back as the float, and no other decimal
that short is. -/
theorem formatFloat_decimal (n : ℤ) (p : ℤ) (b : ℚ) (hn0 : n ≠ 0) (hn : |n| < 10 ^ 15)
    (hq : 1 / 2 ^ 1022 ≤ |(n : ℚ) * (10:ℚ) ^ p|)
    (hb : roundF64 ((n : ℚ) * (10:ℚ) ^ p) = .fin b) :
    formatFloat b = (n : ℚ) * (10:ℚ) ^ p := by
  have hu : (0:ℚ) < (10:ℚ) ^ p := by positivity
  have hb0 : b ≠ 0 := (roundF64_sign _ b hq hb).2
  obtain ⟨i0, hi0, hpos⟩ := decimal_position n p b hn0 hn hq hb
  have hsome : (shortestAt b (topDigitPos |b| - (i0 : ℤ))).isSome = true := by
    rw [hpos]
    exact shortestAt_isSome n p b hn0 hn hq hb
  have hsome' : (((fun i : ℤ => shortestAt b (topDigitPos |b| - i)) ∘
      (fun a : ℕ => (a : ℤ))) i0).isSome = true := hsome
  obtain ⟨i, t, hi, hfi, hr⟩ :=
    findSome_range_le ((fun i : ℤ => shortestAt b (topDigitPos |b| - i)) ∘
      (fun a : ℕ => (a : ℤ))) 20 0 i0 (Nat.zero_le _) (by omega) hsome'
  simp only [Function.comp] at hfi
  have e : (do let a ← List.range 20; pure (a : ℤ) : List ℤ) =
      (List.range' 0 20).map (fun a : ℕ => (a : ℤ)) := by decide
  unfold formatFloat
  rw [if_neg hb0, e, List.findSome?_map, hr]
  simp only
  obtain ⟨m, hm, hpar⟩ := shortestAt_multiple b t _ hfi
  have hexp : topDigitPos |b| - (i : ℤ) = p + ((i0 - i : ℕ) : ℤ) := by
    rw [Nat.cast_sub hi]
    omega
  have hmul : t = ((m * 10 ^ (i0 - i) : ℤ) : ℚ) * (10:ℚ) ^ p := by
    rw [hm, hexp, zpow_add₀ (by norm_num), zpow_natCast]
    push_cast
    ring
  rw [hmul] at hpar
  have := decimal_unique n (m * 10 ^ (i0 - i)) _ b hu hn hq hb hpar
  rw [hmul, this]

/-- Encoding at the divisors of `json.go`: an integer of fewer than 16 digits, divided by 10 or
by 1000 in `float64`, is written by `json.Marshal` as the exact decimal quotient. -/
theorem marshal_scaled (v : ℤ) (d : ℚ) (hd : d = 10 ∨ d = 1000) (hv : |v| < 10 ^ 15) :
    marshalFloat64 (scaleDown v d) = .ok (.num ((v : ℚ) / d)) := by
  rw [scaleDown_eq v d (by omega)]
  by_cases h0 : v = 0
  · subst h0
    have : roundF64 (((0 : ℤ) : ℚ) / d) = .fin 0 := by simp [roundF64]
    rw [this]
    simp [marshalFloat64, formatFloat]
  · obtain ⟨p, hp, hp3, hp1⟩ : ∃ p : ℤ, (v : ℚ) / d = (v : ℚ) * (10:ℚ) ^ p ∧
        (1:ℚ) / 1000 ≤ (10:ℚ) ^ p ∧ (10:ℚ) ^ p ≤ 1 := by
      rcases hd with rfl | rfl
      · exact ⟨-1, by norm_num [div_eq_mul_inv], by norm_num, by norm_num⟩
      · exact ⟨-3, by norm_num [div_eq_mul_inv, zpow_neg], by norm_num [zpow_neg],
          by norm_num [zpow_neg]⟩
    rw [hp]
    have hu : (0:ℚ) < (10:ℚ) ^ p := by positivity
    have h1 : (1:ℚ) ≤ |(v : ℚ)| := by
      have : (1:ℤ) ≤ |v| := Int.one_le_abs h0
      rw [← Int.cast_abs]
      exact_mod_cast this
    have h2 : |(v : ℚ)| ≤ 10 ^ 15 := by
      rw [← Int.cast_abs]
      exact_mod_cast hv.le
    have habs : |(v : ℚ) * (10:ℚ) ^ p| = |(v : ℚ)| * (10:ℚ) ^ p := by
      rw [abs_mul, abs_of_pos hu]
    have hq : 1 / 2 ^ 1022 ≤ |(v : ℚ) * (10:ℚ) ^ p| := by
      rw [habs]
      have e1 : (1:ℚ) / 2 ^ 1022 ≤ 1 / 1000 := by norm_num
      nlinarith
    have hfin : |(v : ℚ) * (10:ℚ) ^ p| ≤ 2 ^ 1023 := by
      rw [habs]
      have e1 : (10:ℚ) ^ 15 ≤ 2 ^ 1023 := by norm_num
      nlinarith
    obtain ⟨b, hb⟩ := roundF64_fin _ hfin
    rw [hb]
    simp only [marshalFloat64]
    rw [formatFloat_decimal v p b h0 hv hq hb]


/-! ## The divisor of a carb ratio -/

/-- C12 (amended): the divisor is determined by the unit alone, identically in both record
shapes. For every ratio `r`, `CarbRatio.MarshalJSON` and `BolusWizardRecord.MarshalJSON`
write the same number for the same unit; and for every ratio `r` with `|r| < 10^15` that
number is exactly `r/10` when the unit is `Grams` and exactly `r/1000` when the unit is
`Exchanges`. -/
theorem divisor_by_unit {τ ρ : Type} (E : Env τ) (P : PassThrough ρ) (r : ℤ)
    (start : TimeOfDay) (rest : ρ) (ms : List (String × Value))
    (hms : P.members rest = .ok ms) :
    (∀ u : CarbUnitsType, ∀ j j', CarbRatio.MarshalJSON E ⟨start, r, u⟩ = .ok j →
      BolusWizardRecord.MarshalJSON P ⟨u, r, rest⟩ = .ok j' →
      j.member "Ratio" = j'.member "CarbRatio") ∧
    (|r| < 10 ^ 15 →
      CarbRatio.MarshalJSON E ⟨start, r, .Grams⟩ =
          .ok (.obj [("Start", .str (E.timeOfDayString start)), ("Ratio", .num ((r : ℚ) / 10)),
            ("Units", .str "Grams")]) ∧
        CarbRatio.MarshalJSON E ⟨start, r, .Exchanges⟩ =
          .ok (.obj [("Start", .str (E.timeOfDayString start)),
            ("Ratio", .num ((r : ℚ) / 1000)), ("Units", .str "Exchanges")]) ∧
        BolusWizardRecord.MarshalJSON P ⟨.Grams, r, rest⟩ =
          .ok (.obj (("CarbRatio", .num ((r : ℚ) / 10)) :: ("CarbUnits", .str "Grams") ::
            visible ["CarbRatio", "CarbUnits"] ms)) ∧
        BolusWizardRecord.MarshalJSON P ⟨.Exchanges, r, rest⟩ =
          .ok (.obj (("CarbRatio", .num ((r : ℚ) / 1000)) ::
            ("CarbUnits", .str "Exchanges") :: visible ["CarbRatio", "CarbUnits"] ms))) := by
  have e1 : ¬ ("Start" : String) = "Ratio" := by decide
  constructor
  · intro u j j' hj hj'
    cases u with
    | Grams =>
      simp only [CarbRatio.MarshalJSON, BolusWizardRecord.MarshalJSON, passMembers, hms] at hj hj'
      cases hm : marshalFloat64 (scaleDown r 10) with
      | ok x =>
        rw [hm] at hj hj'
        simp only [Except.ok.injEq] at hj hj'
        subst hj; subst hj'
        simp [Json.member, List.find?, e1]
      | error e => rw [hm] at hj; simp at hj
    | Exchanges =>
      simp only [CarbRatio.MarshalJSON, BolusWizardRecord.MarshalJSON, passMembers, hms] at hj hj'
      cases hm : marshalFloat64 (scaleDown r 1000) with
      | ok x =>
        rw [hm] at hj hj'
        simp only [Except.ok.injEq] at hj hj'
        subst hj; subst hj'
        simp [Json.member, List.find?, e1]
      | error e => rw [hm] at hj; simp at hj
    | other code => simp [CarbRatio.MarshalJSON] at hj
  · intro hr
    have h10 := marshal_scaled r 10 (Or.inl rfl) hr
    have h1000 := marshal_scaled r 1000 (Or.inr rfl) hr
    refine ⟨?_, ?_, ?_, ?_⟩
    · simp [CarbRatio.MarshalJSON, h10, CarbUnitsType.name]
    · simp [CarbRatio.MarshalJSON, h1000, CarbUnitsType.name]
    · simp [BolusWizardRecord.MarshalJSON, h10, CarbUnitsType.name, passMembers, hms]
    · simp [BolusWizardRecord.MarshalJSON, h1000, CarbUnitsType.name, passMembers, hms]

/-- C12 (amended), on the example of the specification: the ratio 125 is written as `12.5`
under `Grams` and as `0.125` under `Exchanges`, by both encoders. -/
theorem divisor_by_unit_witness :
    CarbRatio.MarshalJSON exampleEnv ⟨0, 125, .Grams⟩ =
        .ok (.obj [("Start", .str "00:00"), ("Ratio", .num (25 / 2)),
          ("Units", .str "Grams")]) ∧
      CarbRatio.MarshalJSON exampleEnv ⟨0, 125, .Exchanges⟩ =
        .ok (.obj [("Start", .str "00:00"), ("Ratio", .num (1 / 8)),
          ("Units", .str "Exchanges")]) ∧
      BolusWizardRecord.MarshalJSON noRest ⟨.Grams, 125, ()⟩ =
        .ok (.obj [("CarbRatio", .num (25 / 2)), ("CarbUnits", .str "Grams")]) ∧
      BolusWizardRecord.MarshalJSON noRest ⟨.Exchanges, 125, ()⟩ =
        .ok (.obj [("CarbRatio", .num (1 / 8)), ("CarbUnits", .str "Exchanges")]) := by
  have h := (divisor_by_unit exampleEnv noRest 125 0 () [] rfl).2 (by decide)
  have e1 : ((125 : ℤ) : ℚ) / 10 = 25 / 2 := by norm_num
  have e2 : ((125 : ℤ) : ℚ) / 1000 = 1 / 8 := by norm_num
  have e3 : exampleEnv.timeOfDayString 0 = "00:00" := by decide
  have e4 : visible ["CarbRatio", "CarbUnits"] [] = [] := rfl
  rw [e1, e2, e3, e4] at h
  exact h

/-- C12 as stated fails: the ratio 5629499534213123, which `float64` holds exactly, is
written under `Grams` as `562949953421312.2`, not as `562949953421312.3`, by both encoders. -/
theorem divisor_inexact :
    CarbRatio.MarshalJSON exampleEnv ⟨0, 5629499534213123, .Grams⟩ =
        .ok (.obj [("Start", .str "00:00"), ("Ratio", .num (5629499534213122 / 10)),
          ("Units", .str "Grams")]) ∧
      BolusWizardRecord.MarshalJSON noRest ⟨.Grams, 5629499534213123, ()⟩ =
        .ok (.obj [("CarbRatio", .num (5629499534213122 / 10)),
          ("CarbUnits", .str "Grams")]) ∧
      (5629499534213122 / 10 : ℚ) ≠ ((5629499534213123 : ℤ) : ℚ) / 10 ∧
      roundF64 ((5629499534213123 : ℤ) : ℚ) = .fin 5629499534213123 := by
  decide!


/-! ## `Insulin`: the window of the decoder -/

/-- C13 (amended): for every integer `v` with `0 ≤ v < 10^15` and every decimal `x ≥ 0` whose
thousandfold lies in the window from `v - 0.5` to `v + 0.5` and keeps a distance of
`(1000*x + 1) / 2^51` from both ends of the window, decoding `x` gives `v`; and encoding `v`
gives exactly `v/1000`. -/
theorem insulin_window (A : Arch) (v r0 : ℤ) (x : ℚ) (h0 : 0 ≤ v) (hv : v < 10 ^ 15)
    (hx0 : 0 ≤ x)
    (hlo : (v : ℚ) - 1 / 2 + (1000 * x + 1) / 2 ^ 51 ≤ 1000 * x)
    (hhi : 1000 * x ≤ (v : ℚ) + 1 / 2 - (1000 * x + 1) / 2 ^ 51) :
    Insulin.UnmarshalJSON A r0 (some (.atom (.num x))) = (v, none) ∧
      Insulin.MarshalJSON v = .ok (.atom (.num ((v : ℚ) / 1000))) := by
  constructor
  · have hv' : (v : ℚ) ≤ 10 ^ 15 := by exact_mod_cast hv.le
    have hpos : (0:ℚ) ≤ (1000 * x + 1) / 2 ^ 51 := by positivity
    have hx : |x| ≤ 2 ^ 1023 := by
      rw [abs_of_nonneg hx0]
      have e1 : (10:ℚ) ^ 15 + 1 ≤ 2 ^ 1023 := by norm_num
      linarith
    obtain ⟨b, hb⟩ := roundF64_fin x hx
    have hup := scaleUp_window A 1000 x b v (by norm_num) le_rfl hx0 hb
      (by linarith) (by linarith)
    simp [Insulin.UnmarshalJSON, unmarshalFloat64, hb, hup]
  · have habs : |v| < 10 ^ 15 := by rw [abs_of_nonneg h0]; exact hv
    simp [Insulin.MarshalJSON, marshal_scaled v 1000 (Or.inr rfl) habs, Except.map]

/-- C13 (amended), on the example of the specification: 2500 is written as `2.5`, and both
`2.5` and `2.4999` decode to 2500. -/
theorem insulin_window_witness :
    (Insulin.UnmarshalJSON amd64 0 (some (.atom (.num (5 / 2)))) = (2500, none) ∧
        Insulin.MarshalJSON 2500 = .ok (.atom (.num (((2500 : ℤ) : ℚ) / 1000)))) ∧
      Insulin.UnmarshalJSON amd64 0 (some (.atom (.num (24999 / 10000)))) = (2500, none) ∧
      (((2500 : ℤ) : ℚ) / 1000 = 5 / 2) :=
  ⟨insulin_window amd64 2500 0 (5 / 2) (by norm_num) (by norm_num) (by norm_num)
      (by norm_num) (by norm_num),
    (insulin_window amd64 2500 0 (24999 / 10000) (by norm_num) (by norm_num) (by norm_num)
      (by norm_num) (by norm_num)).1,
    by norm_num⟩

/-- C13 as stated fails at the lower end of the window: with `v = 501` and `x = 0.5005` the
thousandfold of `x` is `500.5 = v - 0.5`, inside the window, yet `x` decodes to 500, with and
without a fused multiply-add. -/
theorem insulin_window_edge :
    ((501 : ℤ) : ℚ) - 1 / 2 ≤ 1000 * (1001 / 2000 : ℚ) ∧
      1000 * (1001 / 2000 : ℚ) < ((501 : ℤ) : ℚ) + 1 / 2 ∧
      Insulin.UnmarshalJSON amd64 0 (some (.atom (.num (1001 / 2000)))) = (500, none) ∧
      Insulin.UnmarshalJSON arm64 0 (some (.atom (.num (1001 / 2000)))) = (500, none) := by
  decide!


/-! ## Scalars: which texts the decoders refuse -/

/-- The float `0` decodes to the integer `0`, fused or not. -/
theorem scaleUp_zero (A : Arch) : scaleUp A 1000 (.fin 0) = 0 := by
  have h0 : roundF64 (1000 * 0) = .fin 0 := by decide!
  have h1 : roundF64 (0 + 1 / 2) = .fin (1 / 2) := by decide!
  have h2 : roundF64 (1000 * 0 + 1 / 2) = .fin (1 / 2) := by decide!
  have h3 : (⌊(1 / 2 : ℚ)⌋ : ℤ) = 0 := by decide!
  unfold scaleUp mulAddHalf
  cases hf : A.fused
  · simp only [Bool.false_eq_true, if_false, h0, h1, truncToInt]
    norm_num [h3]
  · simp only [if_true, h2, truncToInt]
    norm_num [h3]

/-- The error of `json.Unmarshal` into a `float64`: the text is not well-formed JSON, or it is
a value other than `null` and a number, or it is a number beyond the range of `float64`. -/
theorem unmarshalFloat64_error (data : Option Json) (v : F64) :
    (unmarshalFloat64 data v).2 = none ↔
      (data = some (.atom .null) ∨ ∃ q b, data = some (.atom (.num q)) ∧ roundF64 q = .fin b)
      := by
  unfold unmarshalFloat64
  split
  · simp
  · rename_i q
    cases hq : roundF64 q with
    | fin b => simp [hq]
    | inf neg => simp [hq]
  · simp
  · rename_i j h1 h2
    simp only [reduceCtorEq, false_iff, not_or, not_exists, not_and]
    constructor
    · intro h
      exact h2 (by simpa using h)
    · intro q b h
      simp only [Option.some.injEq] at h
      exact absurd h (h1 q)

/-- C14 (amended): `Insulin.UnmarshalJSON` and `Voltage.UnmarshalJSON` succeed exactly on
`null` and on the numbers within the range of `float64`; on every other text (not well-formed
JSON, a string, a boolean, an array, an object, a number beyond the range of `float64`) they
return an error and leave the destination unchanged. They succeed on every number of
magnitude up to `2^1023`, and `null` is accepted without an error and sets the destination to
zero. -/
theorem scalar_decode_error (A : Arch) (r : ℤ) (data : Option Json) :
    (((Insulin.UnmarshalJSON A r data).2 = none ↔
        (data = some (.atom .null) ∨
          ∃ q b, data = some (.atom (.num q)) ∧ roundF64 q = .fin b)) ∧
      ((Insulin.UnmarshalJSON A r data).2 ≠ none → (Insulin.UnmarshalJSON A r data).1 = r) ∧
      (∀ q : ℚ, |q| ≤ 2 ^ 1023 →
        (Insulin.UnmarshalJSON A r (some (.atom (.num q)))).2 = none) ∧
      Insulin.UnmarshalJSON A r (some (.atom .null)) = (0, none)) ∧
    (((Voltage.UnmarshalJSON A r data).2 = none ↔
        (data = some (.atom .null) ∨
          ∃ q b, data = some (.atom (.num q)) ∧ roundF64 q = .fin b)) ∧
      ((Voltage.UnmarshalJSON A r data).2 ≠ none → (Voltage.UnmarshalJSON A r data).1 = r) ∧
      (∀ q : ℚ, |q| ≤ 2 ^ 1023 →
        (Voltage.UnmarshalJSON A r (some (.atom (.num q)))).2 = none) ∧
      Voltage.UnmarshalJSON A r (some (.atom .null)) = (0, none)) := by
  have main : ∀ data : Option Json,
      ((match unmarshalFloat64 data (.fin 0) with
          | (_, some err) => ((r, some err) : ℤ × Option Error)
          | (v, none) => (scaleUp A 1000 v, none)).2 = none ↔
        (unmarshalFloat64 data (.fin 0)).2 = none) ∧
      ((match unmarshalFloat64 data (.fin 0) with
          | (_, some err) => ((r, some err) : ℤ × Option Error)
          | (v, none) => (scaleUp A 1000 v, none)).2 ≠ none →
        (match unmarshalFloat64 data (.fin 0) with
          | (_, some err) => ((r, some err) : ℤ × Option Error)
          | (v, none) => (scaleUp A 1000 v, none)).1 = r) := by
    intro data
    rcases unmarshalFloat64 data (.fin 0) with ⟨v, e⟩
    cases e <;> simp
  have hnum : ∀ q : ℚ, |q| ≤ 2 ^ 1023 →
      (unmarshalFloat64 (some (.atom (.num q))) (.fin 0)).2 = none := by
    intro q hq
    obtain ⟨b, hb⟩ := roundF64_fin q hq
    simp [unmarshalFloat64, hb]
  have hnull : (match unmarshalFloat64 (some (.atom .null)) (.fin 0) with
      | (_, some err) => ((r, some err) : ℤ × Option Error)
      | (v, none) => (scaleUp A 1000 v, none)) = (0, none) := by
    simp [unmarshalFloat64, scaleUp_zero]
  refine ⟨⟨?_, ?_, ?_, ?_⟩, ⟨?_, ?_, ?_, ?_⟩⟩
  · exact (main data).1.trans (unmarshalFloat64_error data _)
  · exact (main data).2
  · intro q hq
    exact ((main _).1).mpr (hnum q hq)
  · exact hnull
  · exact (main data).1.trans (unmarshalFloat64_error data _)
  · exact (main data).2
  · intro q hq
    exact ((main _).1).mpr (hnum q hq)
  · exact hnull

/-- C14 (amended), on examples: a string and a boolean are refused and leave the destination
(7 here) unchanged. -/
theorem scalar_decode_error_witness :
    (Insulin.UnmarshalJSON amd64 7 (some (.atom (.str "2.5")))).1 = 7 ∧
      (Voltage.UnmarshalJSON amd64 7 (some (.atom (.bool true)))).1 = 7 :=
  ⟨(scalar_decode_error amd64 7 (some (.atom (.str "2.5")))).1.2.1 (by decide),
    (scalar_decode_error amd64 7 (some (.atom (.bool true)))).2.2.1 (by decide)⟩

/-- C14 as stated fails: `null` is not a decimal number, yet the decoders accept it and set
the destination (7 here) to zero; and `1e400` is a valid decimal number, yet the decoders
refuse it. -/
theorem scalar_null_accepted :
    Insulin.UnmarshalJSON amd64 7 (some (.atom .null)) = (0, none) ∧
      Voltage.UnmarshalJSON amd64 7 (some (.atom .null)) = (0, none) ∧
      Insulin.UnmarshalJSON amd64 7 (some (.atom (.num (10 ^ 400))))
        = (7, some .typeMismatch) ∧
      Voltage.UnmarshalJSON amd64 7 (some (.atom (.num (10 ^ 400))))
        = (7, some .typeMismatch) := by
  decide!


/-! ## Scalars: decode, then encode -/

/-- A decimal with three fractional digits decodes to its thousandfold, and the thousandfold
is written as that decimal. -/
theorem thousandths_round_trip (A : Arch) (n : ℤ) (h0 : 0 ≤ n) (hn : n < 10 ^ 15) :
    (∃ b, roundF64 ((n : ℚ) / 1000) = .fin b ∧ scaleUp A 1000 (.fin b) = n) ∧
      marshalFloat64 (scaleDown n 1000) = .ok (.num ((n : ℚ) / 1000)) := by
  have habs : |n| < 10 ^ 15 := by rw [abs_of_nonneg h0]; exact hn
  refine ⟨?_, marshal_scaled n 1000 (Or.inr rfl) habs⟩
  obtain ⟨b, hs, -, hup⟩ := scale_round_trip A 1000 n (by norm_num) le_rfl h0 (by omega)
  rw [scaleDown_eq n 1000 (by omega)] at hs
  exact ⟨b, hs, hup⟩

/-- C15 (amended): for every decimal `x` with at most three fractional digits and
`0 ≤ x < 10^12` (so `x = n/1000` for an integer `0 ≤ n < 10^15`), decoding `x` as an
`Insulin` or a `Voltage` succeeds and encoding the decoded value gives back `x`. -/
theorem text_round_trip (A : Arch) (n r0 : ℤ) (h0 : 0 ≤ n) (hn : n < 10 ^ 15) :
    ((Insulin.UnmarshalJSON A r0 (some (.atom (.num ((n : ℚ) / 1000))))).2 = none ∧
      Insulin.MarshalJSON (Insulin.UnmarshalJSON A r0 (some (.atom (.num ((n : ℚ) / 1000))))).1
        = .ok (.atom (.num ((n : ℚ) / 1000)))) ∧
    ((Voltage.UnmarshalJSON A r0 (some (.atom (.num ((n : ℚ) / 1000))))).2 = none ∧
      Voltage.MarshalJSON (Voltage.UnmarshalJSON A r0 (some (.atom (.num ((n : ℚ) / 1000))))).1
        = .ok (.atom (.num ((n : ℚ) / 1000)))) := by
  obtain ⟨⟨b, hb, hup⟩, hm⟩ := thousandths_round_trip A n h0 hn
  constructor
  · simp [Insulin.UnmarshalJSON, Insulin.MarshalJSON, unmarshalFloat64, hb, hup, hm, Except.map]
  · simp [Voltage.UnmarshalJSON, Voltage.MarshalJSON, unmarshalFloat64, hb, hup, hm, Except.map]

/-- C15 (amended), on an example: `2.5` decodes to 2500, which is written as `2.5`. -/
theorem text_round_trip_witness :
    Insulin.MarshalJSON
        (Insulin.UnmarshalJSON amd64 0 (some (.atom (.num (((2500 : ℤ) : ℚ) / 1000))))).1
      = .ok (.atom (.num (((2500 : ℤ) : ℚ) / 1000))) :=
  (text_round_trip amd64 2500 0 (by norm_num) (by norm_num)).1.2

/-- C15 as stated fails: `-0.001` has three fractional digits and decodes to 0, which is
written as `0`; and `9007199254740993` has no fractional digit and comes back as
`9007199254740992`. -/
theorem text_round_trip_fails :
    Insulin.UnmarshalJSON amd64 7 (some (.atom (.num (-1 / 1000)))) = (0, none) ∧
      Insulin.MarshalJSON 0 = .ok (.atom (.num 0)) ∧
      (0 : ℚ) ≠ -1 / 1000 ∧
      Insulin.MarshalJSON
          (Insulin.UnmarshalJSON amd64 7 (some (.atom (.num 9007199254740993)))).1
        = .ok (.atom (.num 9007199254740992)) ∧
      Voltage.MarshalJSON
          (Voltage.UnmarshalJSON amd64 7 (some (.atom (.num (-1 / 1000))))).1
        = .ok (.atom (.num 0)) := by
  decide!


/-! ## Records with one duration: how the members of a text reach the wrapper -/

/-- The call `json.Unmarshal` never writes the duration of the destination of a record with
one duration: the wrapper hides it. -/
theorem durationRecord_store_keeps {ρ : Type} (field : String) (P : PassThrough ρ)
    (k : String) (v : Value) (s : DurationRep ρ) (d : ℤ) (h : s.Original.duration = d) :
    (DurationRecord.storeMember field P k v s).state.Original.duration = d := by
  unfold DurationRecord.storeMember
  split_ifs
  · refine storeString_state (fun s : DurationRep ρ => s.Original.duration = d) v s _ h ?_
    intro x; exact h
  · refine storeRest_state P (fun s : DurationRep ρ => s.Original.duration = d) k v _ _ ?_
    intro x; exact h

/-- A member that does not select the duration field leaves the wrapper's text alone. -/
theorem durationRecord_store_keeps_text {ρ : Type} (field : String) (P : PassThrough ρ)
    (k : String) (v : Value) (s : DurationRep ρ) (x : String) (hk : keyIs field k = false)
    (h : s.text = x) : (DurationRecord.storeMember field P k v s).state.text = x := by
  unfold DurationRecord.storeMember
  rw [hk]
  simp only [Bool.false_eq_true, if_false]
  refine storeRest_state P (fun s : DurationRep ρ => s.text = x) k v _ _ ?_
  intro y; exact h

/-- Members that do not select the duration field only reach the pass-through fields. -/
theorem durationRecord_decode_rest {ρ : Type} (field : String) (P : PassThrough ρ) :
    ∀ (ms : List (String × Value)) (rep : DurationRep ρ) (e : Option Error),
      (∀ m ∈ ms, keyIs field m.1 = false) →
      decodeMembers (DurationRecord.storeMember field P) ms rep e =
        ({ rep with Original := { rep.Original with
            rest := (decodeMembers P.store ms rep.Original.rest e).1 } },
          (decodeMembers P.store ms rep.Original.rest e).2) := by
  intro ms
  induction ms with
  | nil => intro rep e _; rfl
  | cons m ms ih =>
    intro rep e h
    obtain ⟨k, v⟩ := m
    have hk := h (k, v) (List.mem_cons_self _ _)
    have ht : ∀ m ∈ ms, keyIs field m.1 = false :=
      fun m hm => h m (List.mem_cons_of_mem _ hm)
    simp only [decodeMembers, DurationRecord.storeMember, hk, storeRest,
      Bool.false_eq_true, if_false]
    cases hs : P.store k v rep.Original.rest with
    | done x => simp only [ih _ _ ht]
    | saved x e' => simp only [ih _ _ ht]
    | abort x e' => rfl

/-- Members that select neither duration field of a `SettingsInfo` only reach its
pass-through fields. -/
theorem settings_decode_rest {ρ : Type} (P : PassThrough ρ) :
    ∀ (ms : List (String × Value)) (rep : SettingsRep ρ) (e : Option Error),
      (∀ m ∈ ms, keyIs "AutoOff" m.1 = false ∧ keyIs "InsulinAction" m.1 = false) →
      decodeMembers (SettingsInfo.storeMember P) ms rep e =
        ({ rep with Original := { rep.Original with
            rest := (decodeMembers P.store ms rep.Original.rest e).1 } },
          (decodeMembers P.store ms rep.Original.rest e).2) := by
  intro ms
  induction ms with
  | nil => intro rep e _; rfl
  | cons m ms ih =>
    intro rep e h
    obtain ⟨k, v⟩ := m
    have hk := h (k, v) (List.mem_cons_self _ _)
    have ht : ∀ m ∈ ms, keyIs "AutoOff" m.1 = false ∧ keyIs "InsulinAction" m.1 = false :=
      fun m hm => h m (List.mem_cons_of_mem _ hm)
    simp only [decodeMembers, SettingsInfo.storeMember, hk.1, hk.2, storeRest,
      Bool.false_eq_true, if_false]
    cases hs : P.store k v rep.Original.rest with
    | done x => simp only [ih _ _ ht]
    | saved x e' => simp only [ih _ _ ht]
    | abort x e' => rfl

/-- A name selects itself. -/
theorem keyIs_self (name : String) : keyIs name name = true := by
  simp [keyIs]

/-- Members none of which selects a hidden name are all visible. -/
theorem visible_all (hidden : List String) (ms : List (String × Value))
    (h : ∀ m ∈ ms, ∀ name ∈ hidden, keyIs name m.1 = false) : visible hidden ms = ms := by
  unfold visible
  rw [List.filter_eq_self]
  intro m hm
  simp only [Bool.not_eq_true', List.contains_eq_any_beq, List.any_eq_false, beq_iff_eq]
  intro name hn e
  have := h m hm name hn
  rw [e, keyIs_self] at this
  exact absurd this (by simp)


/-! ## `BolusRecord`: the duration is not optional -/

/-- C16 (amended): a `BolusRecord` has no absent `Duration`. Encoding writes a `Duration`
member, the text of the record's duration, for every record (and succeeds whenever the
pass-through fields encode). Decoding a text that has no `Duration` member never succeeds,
with `time.ParseDuration` of package `time`: when `json.Unmarshal` refuses the text, its error
is returned and the duration is left as it was; when `json.Unmarshal` accepts the text, the
decoder hands the empty text to `time.ParseDuration`, returns its error
(`time: invalid duration ""`) and has set the duration to zero. For any other
`time.ParseDuration` the duration and the error are what it returns for the empty text. -/
theorem bolus_duration_required {τ ρ : Type} (E : Env τ) (P : PassThrough ρ)
    (r : BolusRecord ρ) (data : Option Json) :
    (∀ j, BolusRecord.MarshalJSON E P r = .ok j →
      j.member "Duration" = some (.str (E.durationString r.duration))) ∧
    (∀ ms, P.members r.rest = .ok ms → ∃ j, BolusRecord.MarshalJSON E P r = .ok j) ∧
    ((∀ j, data = some j → j.mentions "Duration" = false) →
      E.parseDuration = ParseDuration → (BolusRecord.UnmarshalJSON E P r data).2 ≠ none) ∧
    ((∀ j, data = some j → j.mentions "Duration" = false) →
      ∀ rep, unmarshalStruct (DurationRecord.storeMember "Duration" P) data ⟨"", r⟩
          = (rep, none) →
        BolusRecord.UnmarshalJSON E P r data =
          ({ rep.Original with duration := (E.parseDuration "").1 },
            (E.parseDuration "").2)) ∧
    ((∀ j, data = some j → j.mentions "Duration" = false) →
      E.parseDuration = ParseDuration →
      ∀ rep, unmarshalStruct (DurationRecord.storeMember "Duration" P) data ⟨"", r⟩
          = (rep, none) →
        BolusRecord.UnmarshalJSON E P r data =
          ({ rep.Original with duration := 0 },
            some (.lib "time: invalid duration \"\""))) ∧
    (∀ rep err, unmarshalStruct (DurationRecord.storeMember "Duration" P) data ⟨"", r⟩
        = (rep, some err) →
      BolusRecord.UnmarshalJSON E P r data = (rep.Original, some err) ∧
        rep.Original.duration = r.duration) := by
  have key : (∀ j, data = some j → j.mentions "Duration" = false) →
      (unmarshalStruct (DurationRecord.storeMember "Duration" P) data ⟨"", r⟩).1.text = "" :=
    fun hno => unmarshalStruct_inv (DurationRecord.storeMember "Duration" P)
      (fun k => keyIs "Duration" k = false) (fun s => s.text = "")
      (fun k v s hk h => durationRecord_store_keeps_text "Duration" P k v s _ hk h)
      data ⟨"", r⟩ (not_mentioned "Duration" data hno) rfl
  have hempty : ParseDuration "" = (0, some (.lib "time: invalid duration \"\"")) := by
    decide!
  have hexact : (∀ j, data = some j → j.mentions "Duration" = false) →
      ∀ rep, unmarshalStruct (DurationRecord.storeMember "Duration" P) data ⟨"", r⟩
          = (rep, none) →
        BolusRecord.UnmarshalJSON E P r data =
          ({ rep.Original with duration := (E.parseDuration "").1 },
            (E.parseDuration "").2) := by
    intro hno rep hrep
    have ht := key hno
    rw [hrep] at ht
    simp only at ht
    unfold BolusRecord.UnmarshalJSON DurationRecord.UnmarshalJSON
    rw [hrep]
    simp only [ht]
  refine ⟨?_, ?_, ?_, hexact, ?_, ?_⟩
  · intro j hj
    unfold BolusRecord.MarshalJSON DurationRecord.MarshalJSON at hj
    cases hm : passMembers P ["Duration"] r.rest with
    | ok ms =>
      rw [hm] at hj
      simp only [Except.ok.injEq] at hj
      subst hj
      simp [Json.member, List.find?]
    | error e =>
      rw [hm] at hj
      simp at hj
  · intro ms hms
    unfold BolusRecord.MarshalJSON DurationRecord.MarshalJSON passMembers
    rw [hms]
    exact ⟨_, rfl⟩
  · intro hno hP
    have hlib : (E.parseDuration "").2 ≠ none := by
      rw [hP, hempty]
      simp
    have ht := key hno
    unfold BolusRecord.UnmarshalJSON DurationRecord.UnmarshalJSON
    rcases h1 : unmarshalStruct (DurationRecord.storeMember "Duration" P) data ⟨"", r⟩
      with ⟨rep, e⟩
    rw [h1] at ht
    simp only at ht
    cases e with
    | some err => simp
    | none =>
      simp only [ht]
      exact hlib
  · intro hno hP rep hrep
    rw [hexact hno rep hrep, hP, hempty]
  · intro rep err hrep
    have hkeep := unmarshalStruct_inv (DurationRecord.storeMember "Duration" P)
      (fun _ => True) (fun s => s.Original.duration = r.duration)
      (fun k v s _ h => durationRecord_store_keeps "Duration" P k v s _ h)
      data ⟨"", r⟩ (fun _ _ _ _ => trivial) rfl
    rw [hrep] at hkeep
    refine ⟨?_, hkeep⟩
    unfold BolusRecord.UnmarshalJSON DurationRecord.UnmarshalJSON
    rw [hrep]

/-- C16 (amended), on examples with the duration functions of package `time`: the empty
object, which has no `Duration` member, is refused with the error of `time.ParseDuration` and
the duration 7 becomes zero; the text `3`, which `json.Unmarshal` refuses, leaves the
duration 7. -/
theorem bolus_duration_required_witness :
    (BolusRecord.UnmarshalJSON timeEnv noRest ⟨7, ()⟩ (some (.obj []))).2 ≠ none ∧
      BolusRecord.UnmarshalJSON timeEnv noRest ⟨7, ()⟩ (some (.obj []))
        = (⟨0, ()⟩, some (.lib "time: invalid duration \"\"")) ∧
      BolusRecord.UnmarshalJSON timeEnv noRest ⟨7, ()⟩ (some (.atom (.num 3)))
        = (⟨7, ()⟩, some .typeMismatch) :=
  ⟨(bolus_duration_required timeEnv noRest ⟨7, ()⟩ (some (.obj []))).2.2.1
      (by intro j h; cases h; decide) rfl,
    (bolus_duration_required timeEnv noRest ⟨7, ()⟩ (some (.obj []))).2.2.2.2.1
      (by intro j h; cases h; decide) rfl ⟨"", ⟨7, ()⟩⟩ rfl,
    ((bolus_duration_required timeEnv noRest ⟨7, ()⟩ (some (.atom (.num 3)))).2.2.2.2.2
      ⟨"", ⟨7, ()⟩⟩ .typeMismatch rfl).1⟩

/-- C16 as stated fails: decoding a `BolusRecord` from the empty object, a text without a
`Duration` member, does not succeed (it returns the error of `time.ParseDuration` for the
empty text and sets the duration to zero), and encoding a record writes a `Duration` member
also when the duration is zero. -/
theorem bolus_absent_duration_fails :
    (Json.obj []).mentions "Duration" = false ∧
      BolusRecord.UnmarshalJSON timeEnv noRest ⟨7, ()⟩ (some (.obj []))
        = (⟨0, ()⟩, some (.lib "time: invalid duration \"\"")) ∧
      BolusRecord.MarshalJSON timeEnv noRest ⟨0, ()⟩
        = .ok (.obj [("Duration", .str "0s")]) := by
  decide!


/-! ## Durations as text: `time.ParseDuration` reads back what `Duration.String` writes -/

theorem digitChar_toNat (n : ℕ) : (digitChar n).toNat = n % 10 + 48 := by
  unfold digitChar
  have h : n % 10 < 10 := Nat.mod_lt _ (by norm_num)
  generalize n % 10 = k at h
  interval_cases k <;> rfl

theorem isDigit_digitChar (n : ℕ) : isDigit (digitChar n) = true := by
  unfold isDigit
  rw [digitChar_toNat]
  have h : n % 10 < 10 := Nat.mod_lt _ (by norm_num)
  simp only [decide_eq_true_eq]
  omega

theorem isUnitChar_of_isDigit (c : Char) (h : isDigit c = true) : isUnitChar c = false := by
  simp [isUnitChar, h]

/-- Reading a digit in `leadingInt`. -/
theorem leadingInt_digit (n x : ℕ) (s : List Char) (hx : x * 10 + n % 10 ≤ 2 ^ 63) :
    leadingInt (digitChar n :: s) x = leadingInt s (x * 10 + n % 10) := by
  have h63 : (2:ℕ) ^ 63 = 9223372036854775808 := by norm_num
  rw [leadingInt]
  simp only [isDigit_digitChar, Bool.not_true, Bool.false_eq_true, if_false, digitChar_toNat,
    Nat.add_sub_cancel]
  rw [if_neg, if_neg]
  · omega
  · rw [h63] at hx ⊢
    omega

/-- Reading stops in `leadingInt` at the end of the text and at a character that is not a
digit. -/
theorem leadingInt_stop (s : List Char) (x : ℕ) (h : ∀ c ∈ s.head?, isDigit c = false) :
    leadingInt s x = some (x, s) := by
  cases s with
  | nil => rfl
  | cons c s =>
    have hc := h c (by simp)
    rw [leadingInt]
    simp [hc]

theorem leadingInt_fmtIntLoop : ∀ (fuel v : ℕ) (buf : List Char), v ≤ fuel → v ≤ 2 ^ 63 →
    leadingInt (fmtIntLoop fuel v buf) 0 = leadingInt buf v := by
  intro fuel
  induction fuel with
  | zero =>
    intro v buf h _
    have : v = 0 := by omega
    subst this
    rfl
  | succ f ih =>
    intro v buf h h63
    rw [fmtIntLoop]
    by_cases h0 : v = 0
    · subst h0
      simp
    · rw [if_neg h0, ih (v / 10) _ (by omega) (le_trans (Nat.div_le_self _ _) h63)]
      rw [leadingInt_digit v (v / 10) buf (by omega)]
      congr 1
      omega

/-- The digits that `fmtInt` writes are read back by `leadingInt`. -/
theorem leadingInt_fmtInt (v : ℕ) (buf : List Char) (h63 : v ≤ 2 ^ 63) :
    leadingInt (fmtInt v buf) 0 = leadingInt buf v := by
  unfold fmtInt
  by_cases h0 : v = 0
  · subst h0
    simp only [if_true]
    have : ('0' : Char) = digitChar 0 := by decide
    rw [this, leadingInt_digit 0 0 buf (by norm_num)]
  · rw [if_neg h0]
    exact leadingInt_fmtIntLoop v v buf le_rfl h63

theorem fmtIntLoop_shape : ∀ (fuel v : ℕ) (buf : List Char), v ≤ fuel → 0 < v →
    ∃ c s, fmtIntLoop fuel v buf = c :: s ∧ isDigit c = true ∧
      buf.length < (c :: s).length := by
  intro fuel
  induction fuel with
  | zero => intro v buf h h0; omega
  | succ f ih =>
    intro v buf h h0
    rw [fmtIntLoop, if_neg (by omega)]
    by_cases h1 : v / 10 = 0
    · rw [h1]
      have : fmtIntLoop f 0 (digitChar v :: buf) = digitChar v :: buf := by
        cases f <;> simp [fmtIntLoop]
      rw [this]
      exact ⟨_, _, rfl, isDigit_digitChar v, by simp⟩
    · obtain ⟨c, s, hs, hc, hl⟩ := ih (v / 10) (digitChar v :: buf) (by omega) (by omega)
      refine ⟨c, s, hs, hc, ?_⟩
      simp only [List.length_cons] at hl ⊢
      omega

/-- The text that `fmtInt` writes starts with a digit and is longer than the buffer. -/
theorem fmtInt_shape (v : ℕ) (buf : List Char) :
    ∃ c s, fmtInt v buf = c :: s ∧ isDigit c = true ∧ buf.length < (c :: s).length := by
  unfold fmtInt
  by_cases h0 : v = 0
  · rw [if_pos h0]
    exact ⟨'0', buf, rfl, by decide, by simp⟩
  · rw [if_neg h0]
    exact fmtIntLoop_shape v v buf le_rfl (by omega)

/-- Reading a digit in `leadingFraction`, below the overflow bound. -/
theorem leadingFraction_digit (n x : ℕ) (sc : ℚ) (s : List Char) (hx : x < 10 ^ 17) :
    leadingFraction (digitChar n :: s) x sc false =
      leadingFraction s (x * 10 + n % 10) (sc * 10) false := by
  have h63 : (2:ℕ) ^ 63 = 9223372036854775808 := by norm_num
  have h17 : (10:ℕ) ^ 17 = 100000000000000000 := by norm_num
  have hn : n % 10 < 10 := Nat.mod_lt _ (by norm_num)
  rw [leadingFraction]
  simp only [isDigit_digitChar, Bool.not_true, Bool.false_eq_true, if_false, digitChar_toNat,
    Nat.add_sub_cancel]
  rw [if_neg, if_neg]
  · rw [h63]
    rw [h17] at hx
    omega
  · rw [h63]
    rw [h17] at hx
    omega

/-- Reading stops in `leadingFraction` at a character that is not a digit. -/
theorem leadingFraction_stop (c : Char) (s : List Char) (x : ℕ) (sc : ℚ) (ov : Bool)
    (h : isDigit c = false) : leadingFraction (c :: s) x sc ov = (x, sc, c :: s) := by
  rw [leadingFraction]
  simp [h]

theorem mod_pow_succ (v prec : ℕ) :
    v % 10 ^ (prec + 1) = (v / 10 % 10 ^ prec) * 10 + v % 10 := by
  rw [pow_succ, mul_comm, Nat.mod_mul]
  ring

/-- Once a digit has been printed, `fmtFrac` writes the point and all remaining digits, and
`leadingFraction` reads them back. -/
theorem fmtFrac_print : ∀ (prec v : ℕ) (buf : List Char), prec ≤ 9 →
    ∃ out, fmtFrac prec v true buf = ('.' :: out, v / 10 ^ prec) ∧
      leadingFraction out 0 1 false
        = leadingFraction buf (v % 10 ^ prec) ((10:ℚ) ^ prec) false ∧
      buf.length ≤ out.length := by
  intro prec
  induction prec with
  | zero =>
    intro v buf _
    exact ⟨buf, by simp [fmtFrac], by simp [Nat.mod_one], le_rfl⟩
  | succ p ih =>
    intro v buf hp
    obtain ⟨out, h1, h2, h3⟩ := ih (v / 10) (digitChar (v % 10) :: buf) (by omega)
    refine ⟨out, ?_, ?_, ?_⟩
    · rw [fmtFrac]
      simp only [Bool.true_or, if_true]
      rw [h1, Nat.div_div_eq_div_mul, pow_succ, mul_comm]
    · rw [h2, leadingFraction_digit]
      · rw [mod_pow_succ, Nat.mod_mod, pow_succ]
      · have : v / 10 % 10 ^ p < 10 ^ p := Nat.mod_lt _ (by positivity)
        have : (10:ℕ) ^ p ≤ 10 ^ 17 := Nat.pow_le_pow_right (by norm_num) (by omega)
        omega
    · simp only [List.length_cons] at h3
      omega

/-- The function `fmtFrac` returns the whole part; when the fraction is zero it writes
nothing, and otherwise it writes a point and digits that `leadingFraction` reads back as the
fraction without its trailing zeros. -/
theorem fmtFrac_spec : ∀ (prec v : ℕ) (buf : List Char), prec ≤ 9 →
    (fmtFrac prec v false buf).2 = v / 10 ^ prec ∧
      ((v % 10 ^ prec = 0 ∧ (fmtFrac prec v false buf).1 = buf) ∨
        ∃ (out : List Char) (k f : ℕ), (fmtFrac prec v false buf).1 = '.' :: out ∧
          leadingFraction out 0 1 false = leadingFraction buf f ((10:ℚ) ^ k) false ∧
          k ≤ prec ∧ f * 10 ^ (prec - k) = v % 10 ^ prec ∧ 0 < f ∧
          buf.length < out.length) := by
  intro prec
  induction prec with
  | zero =>
    intro v buf _
    exact ⟨by simp [fmtFrac], Or.inl ⟨by simp [Nat.mod_one], by simp [fmtFrac]⟩⟩
  | succ p ih =>
    intro v buf hp
    by_cases hd : v % 10 = 0
    · have e : fmtFrac (p + 1) v false buf = fmtFrac p (v / 10) false buf := by
        rw [fmtFrac]
        simp [hd]
      rw [e]
      obtain ⟨h1, h2⟩ := ih (v / 10) buf (by omega)
      refine ⟨by rw [h1, Nat.div_div_eq_div_mul, pow_succ, mul_comm], ?_⟩
      rcases h2 with ⟨h2, h3⟩ | ⟨out, k, f, h2, h3, h4, h5, h6, h7⟩
      · left
        exact ⟨by rw [mod_pow_succ, h2, hd], h3⟩
      · right
        refine ⟨out, k, f, h2, h3, by omega, ?_, h6, h7⟩
        rw [mod_pow_succ, hd, ← h5, show p + 1 - k = (p - k) + 1 by omega, pow_succ]
        ring
    · have e : fmtFrac (p + 1) v false buf
          = fmtFrac p (v / 10) true (digitChar (v % 10) :: buf) := by
        rw [fmtFrac]
        simp [hd]
      rw [e]
      obtain ⟨out, h1, h2, h3⟩ := fmtFrac_print p (v / 10) (digitChar (v % 10) :: buf)
        (by omega)
      rw [h1]
      refine ⟨by simp only; rw [Nat.div_div_eq_div_mul, pow_succ, mul_comm], Or.inr ?_⟩
      refine ⟨out, p + 1, v % 10 ^ (p + 1), rfl, ?_, le_rfl, by simp, ?_, ?_⟩
      · rw [h2, leadingFraction_digit]
        · rw [mod_pow_succ, Nat.mod_mod, pow_succ]
        · have : v / 10 % 10 ^ p < 10 ^ p := Nat.mod_lt _ (by positivity)
          have : (10:ℕ) ^ p ≤ 10 ^ 17 := Nat.pow_le_pow_right (by norm_num) (by omega)
          omega
      · rw [mod_pow_succ]
        omega
      · simp only [List.length_cons] at h3
        omega

theorem roundF64_natCast (n : ℕ) (h : n ≤ 2 ^ 53) : roundF64 (n : ℚ) = .fin (n : ℚ) := by
  have := roundF64_intCast (n : ℤ) (by
    rw [abs_of_nonneg (by positivity)]
    exact_mod_cast h)
  simpa using this

/-- The fraction of a decimal unit is converted exactly: the `float64` product of
`ParseDuration` is the integer `f * 10^(prec - k)`. -/
theorem fractionNanos_exact (f prec k : ℕ) (hk : k ≤ prec) (hp : prec ≤ 9)
    (hf : f * 10 ^ (prec - k) < 10 ^ 9) :
    fractionNanos f (10 ^ prec) ((10:ℚ) ^ k) = f * 10 ^ (prec - k) := by
  have h9 : (10:ℕ) ^ 9 ≤ 2 ^ 53 := by norm_num
  have hpos : 0 < 10 ^ (prec - k) := by positivity
  have hf' : f < 10 ^ 9 := lt_of_le_of_lt (Nat.le_mul_of_pos_right f hpos) hf
  have hq : (((10 ^ prec : ℕ)) : ℚ) / (10:ℚ) ^ k = ((10 ^ (prec - k) : ℕ) : ℚ) := by
    push_cast
    rw [div_eq_iff (by positivity), ← pow_add, Nat.sub_add_cancel hk]
  have hpk : 10 ^ (prec - k) ≤ 2 ^ 53 := by
    have : (10:ℕ) ^ (prec - k) ≤ 10 ^ 9 := Nat.pow_le_pow_right (by norm_num) (by omega)
    omega
  have hprod : (f : ℚ) * ((10 ^ (prec - k) : ℕ) : ℚ) = ((f * 10 ^ (prec - k) : ℕ) : ℚ) := by
    push_cast
    ring
  unfold fractionNanos
  rw [roundF64_natCast f (by omega), hq, roundF64_natCast _ hpk]
  simp only
  rw [hprod, roundF64_natCast _ (by omega)]
  simp only [Int.floor_natCast, Int.toNat_ofNat]
  rw [Nat.mod_eq_of_lt]
  have : (10:ℕ) ^ 9 < 2 ^ 64 := by norm_num
  omega

/-- The unit of a number: the characters up to the next digit or point. -/
theorem unit_span (un rest : List Char) (hun : ∀ c ∈ un, isUnitChar c = true)
    (hrest : ∀ c ∈ rest.head?, isUnitChar c = false) :
    (un ++ rest).takeWhile isUnitChar = un ∧ (un ++ rest).dropWhile isUnitChar = rest := by
  induction un with
  | nil =>
    cases rest with
    | nil => simp
    | cons c r =>
      have hc := hrest c (by simp)
      simp [List.takeWhile, List.dropWhile, hc]
  | cons c un ih =>
    have hc := hun c (List.mem_cons_self _ _)
    have ih' := ih (fun x hx => hun x (List.mem_cons_of_mem _ hx))
    simp [List.takeWhile, List.dropWhile, hc, ih'.1, ih'.2]

theorem isDigit_of_isUnitChar (c : Char) (h : isUnitChar c = true) : isDigit c = false := by
  simp only [isUnitChar, Bool.not_eq_true', Bool.or_eq_false_iff] at h
  exact h.2

theorem ne_point_of_isUnitChar (c : Char) (h : isUnitChar c = true) : c ≠ '.' := by
  simp only [isUnitChar, Bool.not_eq_true', Bool.or_eq_false_iff, decide_eq_false_iff_not] at h
  exact h.1

/-- One round of `ParseDuration` on a number that `fmtInt` and `fmtFrac` wrote, followed by a
unit: the round adds the written nanoseconds and leaves the text after the unit. -/
theorem parseGroup_fmt (orig : String) (V prec u U d : ℕ) (c0 : Char) (un rest : List Char)
    (hun : ∀ c ∈ c0 :: un, isUnitChar c = true)
    (hrest : ∀ c ∈ rest.head?, isUnitChar c = false)
    (hmap : unitMap (String.mk (c0 :: un)) = some U) (hprec : prec ≤ 9)
    (hU : u % 10 ^ prec = 0 ∨ U = 10 ^ prec) (hU0 : 0 < U)
    (hd : d + V * U + u % 10 ^ prec ≤ 2 ^ 63) :
    parseGroup orig (fmtInt V (fmtFrac prec u false (c0 :: un ++ rest)).1) d
      = .ok (rest, d + V * U + u % 10 ^ prec) := by
  have h63 : (2:ℕ) ^ 63 < 2 ^ 64 := by norm_num
  have hVU : V * U ≤ 2 ^ 63 := by omega
  have hV : V ≤ 2 ^ 63 := le_trans (Nat.le_mul_of_pos_right V hU0) hVU
  have hVdiv : ¬ V > 2 ^ 63 / U := by
    rw [not_lt, Nat.le_div_iff_mul_le hU0]
    exact hVU
  have hc0 := hun c0 (List.mem_cons_self _ _)
  obtain ⟨htake, hdrop⟩ := unit_span (c0 :: un) rest hun hrest
  obtain ⟨c, s, hs, hc, hlen⟩ := fmtInt_shape V (fmtFrac prec u false (c0 :: un ++ rest)).1
  have hlead := leadingInt_fmtInt V (fmtFrac prec u false (c0 :: un ++ rest)).1 hV
  rw [hs] at hlead
  rw [hs]
  obtain ⟨-, hfrac⟩ := fmtFrac_spec prec u (c0 :: un ++ rest) hprec
  rcases hfrac with ⟨hz, hbuf⟩ | ⟨out, k, f, hbuf, hread, hk, hf, hf0, hlen2⟩
  · rw [hbuf] at hlead hlen
    rw [leadingInt_stop (c0 :: un ++ rest) V (by
      intro x hx
      simp only [List.cons_append, List.head?_cons, Option.mem_def, Option.some.injEq] at hx
      subst hx
      exact isDigit_of_isUnitChar _ hc0)] at hlead
    have hpoint : leadingPoint (c0 :: un ++ rest) = (0, 1, false, c0 :: un ++ rest) := by
      simp only [List.cons_append, leadingPoint, ne_point_of_isUnitChar c0 hc0, if_false]
    simp only [parseGroup, isUnitChar_of_isDigit c hc, Bool.false_eq_true, if_false, hlead,
      hpoint, htake, hdrop, hmap, hVdiv, hz]
    have hl : (c :: s).length ≠ (c0 :: un ++ rest).length := by omega
    simp only [hl, ne_eq, not_false_eq_true, decide_True, Bool.not_true, Bool.false_and,
      Bool.false_eq_true, if_false, reduceCtorEq, lt_self_iff_false, false_and, add_zero]
    rw [Nat.mod_eq_of_lt (by omega), if_neg (by omega)]
  · rw [hbuf] at hlead hlen
    rw [leadingInt_stop ('.' :: out) V (by
      intro x hx
      simp only [List.head?_cons, Option.mem_def, Option.some.injEq] at hx
      subst hx
      decide)] at hlead
    have hstop : leadingFraction (c0 :: un ++ rest) f ((10:ℚ) ^ k) false
        = (f, (10:ℚ) ^ k, c0 :: un ++ rest) := by
      simp only [List.cons_append]
      exact leadingFraction_stop _ _ _ _ _ (isDigit_of_isUnitChar _ hc0)
    have hpoint : leadingPoint ('.' :: out) = (f, (10:ℚ) ^ k, true, c0 :: un ++ rest) := by
      simp only [leadingPoint, if_true, hread, hstop]
      have : out.length ≠ (c0 :: un ++ rest).length := by omega
      simp only [this, ne_eq, not_false_eq_true, decide_True]
    have hUeq : U = 10 ^ prec := by
      rcases hU with h | h
      · rw [h] at hf
        have : 0 < 10 ^ (prec - k) := by positivity
        have := Nat.mul_pos hf0 this
        omega
      · exact h
    have hlt : u % 10 ^ prec < 10 ^ 9 := by
      have : u % 10 ^ prec < 10 ^ prec := Nat.mod_lt _ (by positivity)
      have : (10:ℕ) ^ prec ≤ 10 ^ 9 := Nat.pow_le_pow_right (by norm_num) hprec
      omega
    have hnanos : fractionNanos f U ((10:ℚ) ^ k) = u % 10 ^ prec := by
      rw [hUeq, fractionNanos_exact f prec k hk hprec (by rw [hf]; exact hlt), hf]
    simp only [parseGroup, isUnitChar_of_isDigit c hc, Bool.false_eq_true, if_false, hlead,
      hpoint, htake, hdrop, hmap, hVdiv, hnanos, hf0, if_true, Bool.not_true, Bool.and_false,
      reduceCtorEq, true_and]
    rw [Nat.mod_eq_of_lt (by omega), if_neg (by omega), Nat.mod_eq_of_lt (by omega),
      if_neg (by omega)]
    rw [Nat.add_assoc]

theorem parseLoop_nil (orig : String) (fuel d : ℕ) : parseLoop orig fuel [] d = .ok d := by
  cases fuel <;> rfl

/-- One round of the loop of `ParseDuration` on a number that `fmtInt` and `fmtFrac` wrote,
followed by a unit. -/
theorem parseLoop_group (orig : String) (fuel V prec u U d : ℕ) (c0 : Char)
    (un rest : List Char)
    (hun : ∀ c ∈ c0 :: un, isUnitChar c = true)
    (hrest : ∀ c ∈ rest.head?, isUnitChar c = false)
    (hmap : unitMap (String.mk (c0 :: un)) = some U) (hprec : prec ≤ 9)
    (hU : u % 10 ^ prec = 0 ∨ U = 10 ^ prec) (hU0 : 0 < U)
    (hd : d + V * U + u % 10 ^ prec ≤ 2 ^ 63) :
    parseLoop orig (fuel + 1) (fmtInt V (fmtFrac prec u false (c0 :: un ++ rest)).1) d
      = parseLoop orig fuel rest (d + V * U + u % 10 ^ prec) := by
  have h := parseGroup_fmt orig V prec u U d c0 un rest hun hrest hmap hprec hU hU0 hd
  obtain ⟨c, s, hs, -, -⟩ := fmtInt_shape V (fmtFrac prec u false (c0 :: un ++ rest)).1
  rw [hs] at h ⊢
  rw [parseLoop, h]

/-- A group without a fraction: the minutes and the hours. -/
theorem parseLoop_whole (orig : String) (fuel V U d : ℕ) (c0 : Char) (rest : List Char)
    (hc0 : isUnitChar c0 = true) (hrest : ∀ c ∈ rest.head?, isUnitChar c = false)
    (hmap : unitMap (String.mk [c0]) = some U) (hU0 : 0 < U) (hd : d + V * U ≤ 2 ^ 63) :
    parseLoop orig (fuel + 1) (fmtInt V (c0 :: rest)) d
      = parseLoop orig fuel rest (d + V * U) := by
  have h := parseLoop_group orig fuel V 0 0 U d c0 [] rest
    (by intro c hc; simp only [List.mem_singleton] at hc; subst hc; exact hc0)
    hrest hmap (by norm_num) (Or.inl (by simp)) hU0 (by simpa using hd)
  simpa [fmtFrac] using h

theorem fmtInt_head (v : ℕ) (buf : List Char) :
    ∀ c ∈ (fmtInt v buf).head?, isUnitChar c = false := by
  obtain ⟨c, s, hs, hc, -⟩ := fmtInt_shape v buf
  intro x hx
  rw [hs] at hx
  simp only [List.head?_cons, Option.mem_def, Option.some.injEq] at hx
  subst hx
  exact isUnitChar_of_isDigit _ hc

theorem fmtInt_length (v : ℕ) (buf : List Char) : buf.length < (fmtInt v buf).length := by
  obtain ⟨c, s, hs, -, hl⟩ := fmtInt_shape v buf
  rw [hs]
  exact hl

theorem fmtFrac_length (prec v : ℕ) (buf : List Char) (hp : prec ≤ 9) :
    buf.length ≤ (fmtFrac prec v false buf).1.length := by
  obtain ⟨-, h⟩ := fmtFrac_spec prec v buf hp
  rcases h with ⟨-, h⟩ | ⟨out, k, f, h, -, -, -, -, hl⟩
  · rw [h]
  · rw [h]
    simp only [List.length_cons]
    omega

/-- The text of a duration of `u > 0` nanoseconds, without its sign, and what the loop of
`ParseDuration` makes of it. -/
theorem duration_body (orig : String) (u : ℕ) (h0 : 0 < u) (h63 : u ≤ 2 ^ 63) :
    ∃ T : List Char,
      (∀ d : ℤ, d.natAbs = u → Duration.text d = String.mk (if d < 0 then '-' :: T else T)) ∧
      parseLoop orig T.length T 0 = .ok u ∧
      (∀ c ∈ T.head?, isUnitChar c = false) ∧ 2 ≤ T.length := by
  have e63 : (2:ℕ) ^ 63 = 9223372036854775808 := by norm_num
  have hs : isUnitChar 's' = true := by decide
  have hm : isUnitChar 'm' = true := by decide
  have hh : isUnitChar 'h' = true := by decide
  have hnil : ∀ c ∈ ([] : List Char).head?, isUnitChar c = false := by simp
  by_cases hsec : u < 1000000000
  · -- below one second: a single group
    obtain ⟨prec, c0, un, U, hsel, hun, hmap, hprec, hU, hlt⟩ :
        ∃ (prec : ℕ) (c0 : Char) (un : List Char) (U : ℕ),
          (if u < 1000 then ((0 : ℕ), ['n', 's'])
            else if u < 1000000 then (3, ['µ', 's']) else (6, ['m', 's']))
            = (prec, c0 :: un) ∧
          (∀ c ∈ c0 :: un, isUnitChar c = true) ∧
          unitMap (String.mk (c0 :: un)) = some U ∧ prec ≤ 9 ∧ U = 10 ^ prec ∧ 0 < U := by
      by_cases h1 : u < 1000
      · exact ⟨0, 'n', ['s'], 1, by simp [h1], by decide, by decide, by norm_num,
          by norm_num, by norm_num⟩
      · by_cases h2 : u < 1000000
        · exact ⟨3, 'µ', ['s'], 1000, by simp [h1, h2], by decide, by decide, by norm_num,
            by norm_num, by norm_num⟩
        · exact ⟨6, 'm', ['s'], 1000000, by simp [h1, h2], by decide, by decide,
            by norm_num, by norm_num, by norm_num⟩
    have hspec := (fmtFrac_spec prec u (c0 :: un) hprec).1
    refine ⟨fmtInt (u / 10 ^ prec) (fmtFrac prec u false (c0 :: un)).1, ?_, ?_,
      fmtInt_head _ _, ?_⟩
    · intro d hd
      unfold Duration.text
      simp only [hd, hsec, if_true, Nat.pos_iff_ne_zero.mp h0, if_false, hsel, hspec]
    · obtain ⟨n, hn⟩ : ∃ n, (fmtInt (u / 10 ^ prec)
          (fmtFrac prec u false (c0 :: un)).1).length = n + 1 :=
        ⟨_, (Nat.succ_pred_eq_of_pos (lt_of_le_of_lt (Nat.zero_le _)
          (fmtInt_length _ _))).symm⟩
      rw [hn]
      have h := parseLoop_group orig n (u / 10 ^ prec) prec u U 0 c0 un [] hun hnil hmap
        hprec (Or.inr hU) hlt (by
          rw [hU, Nat.zero_add, Nat.div_add_mod']
          exact h63)
      rw [List.append_nil] at h
      rw [h, parseLoop_nil, hU, Nat.zero_add, Nat.div_add_mod']
    · have := fmtInt_length (u / 10 ^ prec) (fmtFrac prec u false (c0 :: un)).1
      have := fmtFrac_length prec u (c0 :: un) hprec
      simp only [List.length_cons] at *
      omega
  · -- one second or more: hours, minutes, seconds
    have hspec := (fmtFrac_spec 9 u ['s'] (by norm_num)).1
    have e9 : (10:ℕ) ^ 9 = 1000000000 := by norm_num
    rw [e9] at hspec
    have hmapS : unitMap (String.mk ['s']) = some 1000000000 := by decide
    have hmapM : unitMap (String.mk ['m']) = some 60000000000 := by decide
    have hmapH : unitMap (String.mk ['h']) = some 3600000000000 := by decide
    -- the seconds
    have gs : ∀ (fuel d : ℕ), d + u / 1000000000 % 60 * 1000000000 + u % 1000000000 ≤ 2 ^ 63 →
        parseLoop orig (fuel + 1)
            (fmtInt (u / 1000000000 % 60) (fmtFrac 9 u false ['s']).1) d
          = .ok (d + u / 1000000000 % 60 * 1000000000 + u % 1000000000) := by
      intro fuel d hd
      have h := parseLoop_group orig fuel (u / 1000000000 % 60) 9 u 1000000000 d 's' [] []
        (by decide) hnil hmapS (by norm_num) (Or.inr (by norm_num)) (by norm_num)
        (by rw [e9]; exact hd)
      rw [List.append_nil, e9] at h
      rw [h, parseLoop_nil]
    have ls := fmtInt_length (u / 1000000000 % 60) (fmtFrac 9 u false ['s']).1
    have lf := fmtFrac_length 9 u ['s'] (by norm_num)
    simp only [List.length_cons, List.length_nil] at lf
    by_cases hmin : 0 < u / 1000000000 / 60
    · have lm := fmtInt_length (u / 1000000000 / 60 % 60)
        ('m' :: fmtInt (u / 1000000000 % 60) (fmtFrac 9 u false ['s']).1)
      simp only [List.length_cons] at lm
      have gm : ∀ (fuel d : ℕ),
          d + u / 1000000000 / 60 % 60 * 60000000000 + u / 1000000000 % 60 * 1000000000
            + u % 1000000000 ≤ 2 ^ 63 →
          parseLoop orig (fuel + 2)
              (fmtInt (u / 1000000000 / 60 % 60)
                ('m' :: fmtInt (u / 1000000000 % 60) (fmtFrac 9 u false ['s']).1)) d
            = .ok (d + u / 1000000000 / 60 % 60 * 60000000000
                + u / 1000000000 % 60 * 1000000000 + u % 1000000000) := by
        intro fuel d hd
        rw [parseLoop_whole orig (fuel + 1) _ 60000000000 d 'm' _ hm (fmtInt_head _ _) hmapM
          (by norm_num) (by omega)]
        rw [gs fuel _ (by omega)]
      by_cases hhour : 0 < u / 1000000000 / 60 / 60
      · refine ⟨fmtInt (u / 1000000000 / 60 / 60)
          ('h' :: fmtInt (u / 1000000000 / 60 % 60)
            ('m' :: fmtInt (u / 1000000000 % 60) (fmtFrac 9 u false ['s']).1)), ?_, ?_,
          fmtInt_head _ _, ?_⟩
        · intro d hd
          unfold Duration.text
          simp only [hd, hsec, if_false, hspec, gt_iff_lt, hmin, hhour, if_true]
        · have lh := fmtInt_length (u / 1000000000 / 60 / 60)
            ('h' :: fmtInt (u / 1000000000 / 60 % 60)
              ('m' :: fmtInt (u / 1000000000 % 60) (fmtFrac 9 u false ['s']).1))
          simp only [List.length_cons] at lh
          obtain ⟨n, hn⟩ : ∃ n, (fmtInt (u / 1000000000 / 60 / 60)
              ('h' :: fmtInt (u / 1000000000 / 60 % 60)
                ('m' :: fmtInt (u / 1000000000 % 60) (fmtFrac 9 u false ['s']).1))).length
              = n + 3 := ⟨_, (Nat.sub_add_cancel (by omega)).symm⟩
          rw [hn, parseLoop_whole orig (n + 2) _ 3600000000000 0 'h' _ hh (fmtInt_head _ _)
            hmapH (by norm_num) (by omega)]
          rw [gm n _ (by omega)]
          congr 1
          omega
        · have lh := fmtInt_length (u / 1000000000 / 60 / 60)
            ('h' :: fmtInt (u / 1000000000 / 60 % 60)
              ('m' :: fmtInt (u / 1000000000 % 60) (fmtFrac 9 u false ['s']).1))
          simp only [List.length_cons] at lh
          omega
      · refine ⟨fmtInt (u / 1000000000 / 60 % 60)
          ('m' :: fmtInt (u / 1000000000 % 60) (fmtFrac 9 u false ['s']).1), ?_, ?_,
          fmtInt_head _ _, ?_⟩
        · intro d hd
          unfold Duration.text
          simp only [hd, hsec, if_false, hspec, gt_iff_lt, hmin, hhour, if_true]
        · obtain ⟨n, hn⟩ : ∃ n, (fmtInt (u / 1000000000 / 60 % 60)
              ('m' :: fmtInt (u / 1000000000 % 60) (fmtFrac 9 u false ['s']).1)).length
              = n + 2 := ⟨_, (Nat.sub_add_cancel (by omega)).symm⟩
          rw [hn, gm n 0 (by omega)]
          congr 1
          omega
        · omega
    · refine ⟨fmtInt (u / 1000000000 % 60) (fmtFrac 9 u false ['s']).1, ?_, ?_,
        fmtInt_head _ _, ?_⟩
      · intro d hd
        unfold Duration.text
        simp only [hd, hsec, if_false, hspec, gt_iff_lt, hmin]
      · obtain ⟨n, hn⟩ : ∃ n, (fmtInt (u / 1000000000 % 60)
            (fmtFrac 9 u false ['s']).1).length = n + 1 :=
          ⟨_, (Nat.sub_add_cancel (by omega)).symm⟩
        rw [hn, gs n 0 (by omega)]
        congr 1
        omega
      · omega

/-- For every duration in the range of `int64`, `time.ParseDuration` reads the text of
`Duration.String` back as the duration, without an error. -/
theorem duration_text_parse (d : ℤ) (h1 : -2 ^ 63 ≤ d) (h2 : d < 2 ^ 63) :
    ParseDuration (Duration.text d) = (d, none) := by
  by_cases h0 : d = 0
  · subst h0
    decide!
  · have hu0 : 0 < d.natAbs := Int.natAbs_pos.mpr h0
    have hu63 : d.natAbs ≤ 2 ^ 63 := by omega
    obtain ⟨T, htext, hloop, hhead, hlen⟩ :=
      duration_body (Duration.text d) d.natAbs hu0 hu63
    obtain ⟨c, s, rfl⟩ : ∃ c s, T = c :: s := by
      cases T with
      | nil => simp at hlen
      | cons c s => exact ⟨c, s, rfl⟩
    have hc : isUnitChar c = false := hhead c (by simp)
    have hs : s ≠ [] := by
      intro e
      subst e
      simp at hlen
    have hne : c :: s ≠ ['0'] := by
      intro e
      simp only [List.cons.injEq] at e
      exact hs e.2
    have hminus : c ≠ '-' := by
      intro e
      subst e
      exact absurd hc (by decide)
    have hplus : c ≠ '+' := by
      intro e
      subst e
      exact absurd hc (by decide)
    have hdata := htext d rfl
    unfold ParseDuration
    by_cases hneg : d < 0
    · rw [if_pos hneg] at hdata
      have e : (Duration.text d).data = '-' :: c :: s := by rw [hdata]
      have hval : -(d.natAbs : ℤ) = d := by
        rw [Int.ofNat_natAbs_of_nonpos hneg.le, neg_neg]
      simp only [e, leadingSign, true_or, if_true, decide_True, hne, reduceCtorEq, if_false,
        hloop, hval]
    · rw [if_neg hneg] at hdata
      have e : (Duration.text d).data = c :: s := by rw [hdata]
      have hbig : ¬ d.natAbs > 2 ^ 63 - 1 := by omega
      have hval : (d.natAbs : ℤ) = d := Int.natAbs_of_nonneg (not_lt.mp hneg)
      simp only [e, leadingSign, hminus, hplus, or_self, if_false, hne, reduceCtorEq, hloop,
        Bool.false_eq_true, hbig, hval]

/-- With an error, `time.ParseDuration` returns the zero duration. -/
theorem ParseDuration_error (s : String) (h : (ParseDuration s).2 ≠ none) :
    (ParseDuration s).1 = 0 := by
  unfold ParseDuration at h ⊢
  generalize leadingSign s.data = p at h ⊢
  obtain ⟨neg, t⟩ := p
  simp only at h ⊢
  by_cases h1 : t = ['0']
  · simp [h1]
  · by_cases h2 : t = []
    · simp [h2]
    · rw [if_neg h1, if_neg h2] at h ⊢
      cases hr : parseLoop s t.length t 0 with
      | error e => rfl
      | ok d =>
        rw [hr] at h
        simp only at h ⊢
        by_cases hn : neg = true
        · rw [if_pos hn] at h
          exact absurd rfl h
        · rw [if_neg hn] at h ⊢
          by_cases hb : d > 2 ^ 63 - 1
          · rw [if_pos hb]
          · rw [if_neg hb] at h
            exact absurd rfl h

theorem leadingInt_length : ∀ (s : List Char) (x v : ℕ) (s1 : List Char),
    leadingInt s x = some (v, s1) → s1.length ≤ s.length := by
  intro s
  induction s with
  | nil =>
    intro x v s1 h
    simp only [leadingInt, Option.some.injEq, Prod.mk.injEq] at h
    rw [← h.2]
  | cons c s ih =>
    intro x v s1 h
    simp only [leadingInt] at h
    by_cases h1 : (!isDigit c) = true
    · rw [if_pos h1] at h
      simp only [Option.some.injEq, Prod.mk.injEq] at h
      rw [← h.2]
    · rw [if_neg h1] at h
      by_cases h2 : x > 2 ^ 63 / 10
      · rw [if_pos h2] at h
        exact absurd h (by simp)
      · rw [if_neg h2] at h
        by_cases h3 : x * 10 + (c.toNat - 48) > 2 ^ 63
        · rw [if_pos h3] at h
          exact absurd h (by simp)
        · rw [if_neg h3] at h
          have := ih _ _ _ h
          simp only [List.length_cons]
          omega

theorem leadingFraction_length : ∀ (s : List Char) (x : ℕ) (sc : ℚ) (ov : Bool),
    (leadingFraction s x sc ov).2.2.length ≤ s.length := by
  intro s
  induction s with
  | nil => intro x sc ov; simp [leadingFraction]
  | cons c s ih =>
    intro x sc ov
    simp only [leadingFraction]
    split_ifs
    · exact le_rfl
    all_goals
      simp only [List.length_cons]
      exact le_trans (ih _ _ _) (Nat.le_succ _)

theorem leadingPoint_length (s : List Char) : (leadingPoint s).2.2.2.length ≤ s.length := by
  cases s with
  | nil => simp [leadingPoint]
  | cons c s =>
    simp only [leadingPoint]
    split_ifs
    · simp only [List.length_cons]
      exact le_trans (leadingFraction_length _ _ _ _) (Nat.le_succ _)
    · exact le_rfl

theorem dropWhile_length_lt (p : Char → Bool) (s : List Char) (h : s.takeWhile p ≠ []) :
    (s.dropWhile p).length < s.length := by
  have h1 := congrArg List.length (List.takeWhile_append_dropWhile p s)
  rw [List.length_append] at h1
  have h2 : 0 < (s.takeWhile p).length := List.length_pos.mpr h
  omega

/-- A round of `ParseDuration` that succeeds leaves a shorter text. -/
theorem parseGroup_shorter (orig : String) (s s3 : List Char) (d d' : ℕ)
    (h : parseGroup orig s d = .ok (s3, d')) : s3.length < s.length := by
  unfold parseGroup at h
  cases s with
  | nil => simp at h
  | cons c tl =>
    simp only at h
    by_cases h1 : isUnitChar c = true
    · rw [if_pos h1] at h
      exact absurd h (by simp)
    · rw [if_neg h1] at h
      cases hl : leadingInt (c :: tl) 0 with
      | none => rw [hl] at h; simp at h
      | some p =>
        obtain ⟨v, s1⟩ := p
        rw [hl] at h
        simp only at h
        have l1 := leadingInt_length _ _ _ _ hl
        have l2 := leadingPoint_length s1
        by_cases h2 : (!decide ((c :: tl).length ≠ s1.length) && !(leadingPoint s1).2.2.1)
            = true
        · rw [if_pos h2] at h
          exact absurd h (by simp)
        · rw [if_neg h2] at h
          by_cases h3 : List.takeWhile isUnitChar (leadingPoint s1).2.2.2 = []
          · rw [if_pos h3] at h
            exact absurd h (by simp)
          · rw [if_neg h3] at h
            have l3 := dropWhile_length_lt isUnitChar (leadingPoint s1).2.2.2 h3
            cases hm : unitMap (String.mk (List.takeWhile isUnitChar (leadingPoint s1).2.2.2))
              with
            | none => rw [hm] at h; simp at h
            | some unit =>
              rw [hm] at h
              simp only at h
              by_cases h4 : v > 2 ^ 63 / unit
              · rw [if_pos h4] at h
                exact absurd h (by simp)
              · rw [if_neg h4] at h
                split_ifs at h
                all_goals
                  simp only [Except.ok.injEq, Prod.mk.injEq] at h
                  rw [← h.1]
                  omega

/-- The length of the text is enough fuel for the loop of `ParseDuration`: more fuel changes
nothing. -/
theorem parseLoop_fuel (orig : String) : ∀ (n fuel : ℕ) (s : List Char) (d : ℕ),
    s.length ≤ n → n ≤ fuel → parseLoop orig fuel s d = parseLoop orig n s d := by
  intro n
  induction n with
  | zero =>
    intro fuel s d h _
    have : s = [] := List.length_eq_zero.mp (Nat.le_zero.mp h)
    subst this
    rw [parseLoop_nil, parseLoop_nil]
  | succ n ih =>
    intro fuel s d h hf
    cases s with
    | nil => rw [parseLoop_nil, parseLoop_nil]
    | cons c tl =>
      obtain ⟨f, rfl⟩ : ∃ f, fuel = f + 1 := ⟨fuel - 1, by omega⟩
      rw [parseLoop, parseLoop]
      cases hg : parseGroup orig (c :: tl) d with
      | error e => rfl
      | ok p =>
        obtain ⟨s3, d'⟩ := p
        have := parseGroup_shorter orig _ _ _ _ hg
        simp only
        exact ih f s3 d' (by omega) (by omega)


/-! ## Duration fields: encode, then decode -/

/-- Decoding the text that encodes a record with one duration gives the duration back, when
`time.ParseDuration` reads the text of the duration back as the duration. -/
theorem durationRecord_round_trip {τ ρ : Type} (field : String) (E : Env τ)
    (P : PassThrough ρ) (d : ℤ) (rest : ρ) (r0 : DurationRecord ρ)
    (ms : List (String × Value)) (hms : P.members rest = .ok ms)
    (hkeys : ∀ m ∈ ms, keyIs field m.1 = false)
    (hdec : (decodeMembers P.store ms r0.rest none).2 = none)
    (hlaw : E.parseDuration (E.durationString d) = (d, none)) :
    DurationRecord.UnmarshalJSON field E P r0
        (DurationRecord.MarshalJSON field E P ⟨d, rest⟩).toOption =
      (⟨d, (decodeMembers P.store ms r0.rest none).1⟩, none) := by
  have hv : visible [field] ms = ms :=
    visible_all [field] ms (fun m hm name hn => by
      rw [List.mem_singleton] at hn
      subst hn
      exact hkeys m hm)
  simp [DurationRecord.MarshalJSON, DurationRecord.UnmarshalJSON, passMembers, hms, hv,
    Except.toOption, unmarshalStruct, decodeMembers, DurationRecord.storeMember,
    keyIs_self, storeString, durationRecord_decode_rest field P ms _ _ hkeys, hdec, hlaw]

/-- Decoding the text that encodes a `SettingsInfo` gives both durations back, when
`time.ParseDuration` reads the text of each back as the duration. -/
theorem settings_round_trip {τ ρ : Type} (E : Env τ) (P : PassThrough ρ) (a i : ℤ)
    (rest : ρ) (r0 : SettingsInfo ρ) (ms : List (String × Value))
    (hms : P.members rest = .ok ms)
    (hkeys : ∀ m ∈ ms, keyIs "AutoOff" m.1 = false ∧ keyIs "InsulinAction" m.1 = false)
    (hdec : (decodeMembers P.store ms r0.rest none).2 = none)
    (ha : E.parseDuration (E.durationString a) = (a, none))
    (hi : E.parseDuration (E.durationString i) = (i, none)) :
    SettingsInfo.UnmarshalJSON E P r0 (SettingsInfo.MarshalJSON E P ⟨a, i, rest⟩).toOption =
      (⟨a, i, (decodeMembers P.store ms r0.rest none).1⟩, none) := by
  have hv : visible ["AutoOff", "InsulinAction"] ms = ms :=
    visible_all _ ms (fun m hm name hn => by
      simp only [List.mem_cons, List.mem_singleton, List.not_mem_nil, or_false] at hn
      rcases hn with rfl | rfl
      · exact (hkeys m hm).1
      · exact (hkeys m hm).2)
  have k1 : keyIs "AutoOff" "InsulinAction" = false := by decide
  simp [SettingsInfo.MarshalJSON, SettingsInfo.UnmarshalJSON, passMembers, hms, hv,
    Except.toOption, unmarshalStruct, decodeMembers, SettingsInfo.storeMember,
    keyIs_self, k1, storeString, settings_decode_rest P ms _ _ hkeys, hdec, ha, hi]

/-- C17: duration fields round-trip losslessly. With the duration functions of package
`time` (`Duration.String` and `time.ParseDuration`), for every duration `d` (a whole number of
nanoseconds in the range of `int64`), decoding the text that encodes a `BolusRecord`, a
`TempBasalInfo`, an `UnabsorbedBolus` or a `BolusWizardConfig` whose duration is `d`, or a
`SettingsInfo` whose `AutoOff` and `InsulinAction` are such durations, succeeds and gives a
record with exactly that duration. The pass-through fields are taken to encode, to use other
names than the duration field, and to decode without an error. -/
theorem duration_round_trip {τ ρ : Type} (E : Env τ) (P : PassThrough ρ) (d a i : ℤ)
    (rest : ρ) (r0 : DurationRecord ρ) (s0 : SettingsInfo ρ) (ms : List (String × Value))
    (hS : E.durationString = Duration.text) (hP : E.parseDuration = ParseDuration)
    (hd : -2 ^ 63 ≤ d ∧ d < 2 ^ 63) (ha : -2 ^ 63 ≤ a ∧ a < 2 ^ 63)
    (hi : -2 ^ 63 ≤ i ∧ i < 2 ^ 63)
    (hms : P.members rest = .ok ms)
    (hdec : (decodeMembers P.store ms r0.rest none).2 = none)
    (hdec' : (decodeMembers P.store ms s0.rest none).2 = none) :
    ((∀ m ∈ ms, keyIs "Duration" m.1 = false) →
      BolusRecord.UnmarshalJSON E P r0 (BolusRecord.MarshalJSON E P ⟨d, rest⟩).toOption =
          (⟨d, (decodeMembers P.store ms r0.rest none).1⟩, none) ∧
        TempBasalInfo.UnmarshalJSON E P r0
            (TempBasalInfo.MarshalJSON E P ⟨d, rest⟩).toOption =
          (⟨d, (decodeMembers P.store ms r0.rest none).1⟩, none)) ∧
    ((∀ m ∈ ms, keyIs "Age" m.1 = false) →
      UnabsorbedBolus.UnmarshalJSON E P r0
          (UnabsorbedBolus.MarshalJSON E P ⟨d, rest⟩).toOption =
        (⟨d, (decodeMembers P.store ms r0.rest none).1⟩, none)) ∧
    ((∀ m ∈ ms, keyIs "InsulinAction" m.1 = false) →
      BolusWizardConfig.UnmarshalJSON E P r0
          (BolusWizardConfig.MarshalJSON E P ⟨d, rest⟩).toOption =
        (⟨d, (decodeMembers P.store ms r0.rest none).1⟩, none)) ∧
    ((∀ m ∈ ms, keyIs "AutoOff" m.1 = false ∧ keyIs "InsulinAction" m.1 = false) →
      SettingsInfo.UnmarshalJSON E P s0 (SettingsInfo.MarshalJSON E P ⟨a, i, rest⟩).toOption =
        (⟨a, i, (decodeMembers P.store ms s0.rest none).1⟩, none)) := by
  have law : ∀ x : ℤ, -2 ^ 63 ≤ x ∧ x < 2 ^ 63 →
      E.parseDuration (E.durationString x) = (x, none) := by
    intro x hx
    rw [hS, hP]
    exact duration_text_parse x hx.1 hx.2
  exact ⟨fun hk => ⟨durationRecord_round_trip "Duration" E P d rest r0 ms hms hk hdec (law d hd),
      durationRecord_round_trip "Duration" E P d rest r0 ms hms hk hdec (law d hd)⟩,
    fun hk => durationRecord_round_trip "Age" E P d rest r0 ms hms hk hdec (law d hd),
    fun hk => durationRecord_round_trip "InsulinAction" E P d rest r0 ms hms hk hdec
      (law d hd),
    fun hk => settings_round_trip E P a i rest s0 ms hms hk hdec' (law a ha) (law i hi)⟩

/-- C17 on the example of the specification: a duration of 1 hour 30 minutes is written as
`1h30m0s`, the text `1h30m0s` is read as exactly 1 hour 30 minutes, and decoding the text that
encodes a `BolusRecord` with that duration gives exactly 1 hour 30 minutes. -/
theorem duration_round_trip_witness :
    BolusRecord.MarshalJSON timeEnv noRest ⟨5400000000000, ()⟩
        = .ok (.obj [("Duration", .str "1h30m0s")]) ∧
      BolusRecord.UnmarshalJSON timeEnv noRest ⟨0, ()⟩
          (some (.obj [("Duration", .str "1h30m0s")])) = (⟨5400000000000, ()⟩, none) ∧
      BolusRecord.UnmarshalJSON timeEnv noRest ⟨0, ()⟩
          (BolusRecord.MarshalJSON timeEnv noRest ⟨5400000000000, ()⟩).toOption
        = (⟨5400000000000, ()⟩, none) :=
  ⟨by decide!, by decide!,
    ((duration_round_trip timeEnv noRest 5400000000000 0 0 () ⟨0, ()⟩ ⟨0, 0, ()⟩ [] rfl rfl
      (by norm_num) (by norm_num) (by norm_num) rfl rfl rfl).1 (by simp)).1⟩


/-! ## `HistoryRecord`: a duration that does not parse -/

/-- C18: `HistoryRecord.UnmarshalJSON` is not atomic on a malformed duration. With
`time.ParseDuration` of package `time`, when `json.Unmarshal` succeeded and the `Time` text is
empty or parses: if the `Duration` text is not empty and `time.ParseDuration` returns an error
for it, the decoder returns that error and the destination's `Duration` is a present zero
duration, whatever it was before; if the `Duration` text is empty, the decoder returns no
error and the destination's `Duration` is what it was before. -/
theorem history_duration_not_atomic {τ ρ : Type} (E : Env τ) (P : PassThrough ρ)
    (r : HistoryRecord τ ρ) (data : Option Json) (rep : HistoryRep τ ρ)
    (hP : E.parseDuration = ParseDuration)
    (hrep : unmarshalStruct (HistoryRecord.storeMember P) data ⟨"", "", "", r⟩ = (rep, none))
    (htime : rep.Time = "" ∨ (E.parseTime rep.Time).2 = none) :
    (∀ err, rep.Duration ≠ "" → (E.parseDuration rep.Duration).2 = some err →
      (HistoryRecord.UnmarshalJSON E P r data).2 = some err ∧
        (HistoryRecord.UnmarshalJSON E P r data).1.Duration = some 0) ∧
    (rep.Duration = "" →
      (HistoryRecord.UnmarshalJSON E P r data).2 = none ∧
        (HistoryRecord.UnmarshalJSON E P r data).1.Duration = r.Duration) := by
  have hkeep := unmarshalStruct_inv (HistoryRecord.storeMember P) (fun _ => True)
    (fun x => x.Original.Time = r.Time ∧ x.Original.Duration = r.Duration)
    (fun k v x _ h => history_store_keeps P k v x _ _ h) data ⟨"", "", "", r⟩
    (fun _ _ _ _ => trivial) ⟨rfl, rfl⟩
  rw [hrep] at hkeep
  have hd : rep.Original.Duration = r.Duration := hkeep.2
  constructor
  · intro err hne herr
    have hzero : (E.parseDuration rep.Duration).1 = 0 := by
      rw [hP] at herr ⊢
      exact ParseDuration_error _ (by rw [herr]; simp)
    have hparse : E.parseDuration rep.Duration = (0, some err) := by
      rw [← hzero, ← herr]
    simp only [HistoryRecord.UnmarshalJSON, hrep, hparse, hne, ne_eq, not_false_eq_true,
      if_true]
    by_cases ht : rep.Time = ""
    · simp [ht]
    · have h2 := htime.resolve_left ht
      rcases hp : E.parseTime rep.Time with ⟨t, e⟩
      rw [hp] at h2
      simp only at h2
      subst h2
      simp [ht]
  · intro hempty
    simp only [HistoryRecord.UnmarshalJSON, hrep, hempty, ne_eq, not_true_eq_false, if_false]
    by_cases ht : rep.Time = ""
    · simp [ht, hd]
    · have h2 := htime.resolve_left ht
      rcases hp : E.parseTime rep.Time with ⟨t, e⟩
      rw [hp] at h2
      simp only at h2
      subst h2
      simp [ht, hd]

/-- C18 on an example with the duration functions of package `time`: the text `soon` is not a
duration, and decoding it into a record whose `Duration` was 5 ns leaves a present zero
duration and returns the error; the empty text leaves the 5 ns and returns no error. -/
theorem history_duration_not_atomic_witness :
    ParseDuration "soon" = (0, some (.lib "time: invalid duration \"soon\"")) ∧
      ((HistoryRecord.UnmarshalJSON timeEnv noRest ⟨0, some 5, ()⟩
          (some (.obj [("Duration", .str "soon")]))).2
          = some (.lib "time: invalid duration \"soon\"") ∧
        (HistoryRecord.UnmarshalJSON timeEnv noRest ⟨0, some 5, ()⟩
          (some (.obj [("Duration", .str "soon")]))).1.Duration = some 0) ∧
      ((HistoryRecord.UnmarshalJSON timeEnv noRest ⟨0, some 5, ()⟩
          (some (.obj [("Duration", .str "")]))).2 = none ∧
        (HistoryRecord.UnmarshalJSON timeEnv noRest ⟨0, some 5, ()⟩
          (some (.obj [("Duration", .str "")]))).1.Duration = some 5) :=
  ⟨by decide!,
    (history_duration_not_atomic timeEnv noRest ⟨0, some 5, ()⟩
      (some (.obj [("Duration", .str "soon")])) ⟨"", "", "soon", ⟨0, some 5, ()⟩⟩ rfl
      (by decide!) (Or.inl rfl)).1 _ (by decide) (by decide!),
    (history_duration_not_atomic timeEnv noRest ⟨0, some 5, ()⟩
      (some (.obj [("Duration", .str "")])) ⟨"", "", "", ⟨0, some 5, ()⟩⟩ rfl
      (by decide!) (Or.inl rfl)).2 rfl⟩


/-! ## `pump.go`: the operating frequency -/

theorem length_ne_zero_iff (s : String) : s.length ≠ 0 ↔ s ≠ "" := by
  constructor
  · intro h e
    subst e
    exact h rfl
  · intro h e
    apply h
    have : s.data = [] := List.length_eq_zero.mp e
    exact String.ext this

/-- C19: whenever `defaultFreq` returns, its result lies in the pump band from 860000000 to
920000000 Hz; when the variable `MEDTRONIC_FREQUENCY` is empty or not set it returns
`DefaultFrequency`, which is 916600000; when the variable is not empty and `fmt.Sscanf` reports
an error, stores no item, or stores a value outside the band, it ends with `log.Fatalf` and
does not return; and when the variable holds a value inside the band that `fmt.Sscanf` reads
without an error, that value is returned. -/
theorem defaultFreq_in_band (getenv : String → String) (sscanf : String → ℕ → Scanned) :
    (∀ f, defaultFreq getenv sscanf = .returned f → 860000000 ≤ f ∧ f ≤ 920000000) ∧
    (getenv freqEnvVar = "" → defaultFreq getenv sscanf = .returned DefaultFrequency) ∧
    DefaultFrequency = 916600000 ∧
    (getenv freqEnvVar ≠ "" →
      ((sscanf (getenv freqEnvVar) DefaultFrequency).err ≠ none ∨
        (sscanf (getenv freqEnvVar) DefaultFrequency).n ≠ 1 ∨
        (sscanf (getenv freqEnvVar) DefaultFrequency).freq % 2 ^ 32 < 860000000 ∨
        920000000 < (sscanf (getenv freqEnvVar) DefaultFrequency).freq % 2 ^ 32) →
      ∃ msg cause, defaultFreq getenv sscanf = .fatal msg cause) ∧
    (getenv freqEnvVar ≠ "" →
      (sscanf (getenv freqEnvVar) DefaultFrequency).err = none →
      (sscanf (getenv freqEnvVar) DefaultFrequency).n = 1 →
      860000000 ≤ (sscanf (getenv freqEnvVar) DefaultFrequency).freq % 2 ^ 32 →
      (sscanf (getenv freqEnvVar) DefaultFrequency).freq % 2 ^ 32 ≤ 920000000 →
      defaultFreq getenv sscanf
        = .returned ((sscanf (getenv freqEnvVar) DefaultFrequency).freq % 2 ^ 32)) := by
  have hd : DefaultFrequency % 2 ^ 32 = DefaultFrequency := by decide
  refine ⟨?_, ?_, rfl, ?_, ?_⟩
  · intro f hf
    unfold defaultFreq at hf
    simp only [hd] at hf
    split_ifs at hf with h1 h2 h3
    · simp only [Outcome.returned.injEq] at hf
      subst hf
      push_neg at h3
      exact ⟨h3.2.1, h3.2.2⟩
    · simp only [Outcome.returned.injEq] at hf
      subst hf
      decide
  · intro h
    unfold defaultFreq
    simp only [h, hd]
    rfl
  · intro h hbad
    have hl := (length_ne_zero_iff _).mpr h
    unfold defaultFreq
    simp only [hd]
    rw [if_pos hl]
    by_cases h2 : (sscanf (getenv freqEnvVar) DefaultFrequency).err ≠ none
    · rw [if_pos h2]
      exact ⟨_, _, rfl⟩
    · rw [if_neg h2]
      by_cases h3 : (sscanf (getenv freqEnvVar) DefaultFrequency).n ≠ 1 ∨
          (sscanf (getenv freqEnvVar) DefaultFrequency).freq % 2 ^ 32 < 860000000 ∨
          (sscanf (getenv freqEnvVar) DefaultFrequency).freq % 2 ^ 32 > 920000000
      · rw [if_pos h3]
        exact ⟨_, _, rfl⟩
      · exfalso
        rcases hbad with hb | hb | hb | hb
        · exact h2 hb
        · exact h3 (Or.inl hb)
        · exact h3 (Or.inr (Or.inl hb))
        · exact h3 (Or.inr (Or.inr hb))
  · intro h he hn hlo hhi
    have hl := (length_ne_zero_iff _).mpr h
    unfold defaultFreq
    simp only [hd]
    rw [if_pos hl, if_neg (by rw [he]; simp), if_neg]
    rw [hn]
    omega

/-- C19 on examples, with a scanner that reads a decimal number: `868400000` is returned,
and is inside the band; the empty text gives the default; `abc` and `1000000000` end with a
fatal error. -/
theorem defaultFreq_in_band_witness :
    defaultFreq (fun _ => "868400000") scanDecimal = .returned 868400000 ∧
      (860000000 ≤ 868400000 ∧ 868400000 ≤ 920000000) ∧
      defaultFreq (fun _ => "") scanDecimal = .returned 916600000 ∧
      defaultFreq (fun _ => "abc") scanDecimal
        = .fatal "MEDTRONIC_FREQUENCY value (abc): " (some (.lib "expected integer")) ∧
      defaultFreq (fun _ => "1000000000") scanDecimal
        = .fatal "MEDTRONIC_FREQUENCY value (1000000000) should be the pump frequency in Hz"
            none :=
  ⟨by decide!,
    (defaultFreq_in_band (fun _ => "868400000") scanDecimal).1 868400000 (by decide!),
    by decide!, by decide!, by decide!⟩

end Medtronic
